import Mathlib

/-!
distributedCache: consistent-hash ring, LRU cache and cache group.

A shallow embedding of the Go sources

* `consistentHash/consistentHash.go` (`Map`, `NewMap`, `Map.Add`, `Map.Get`),
* `httpServer/cache/lru/lru.go` (`Cache`, `New`, `Get`, `RemoveOldest`, `Add`, `Len`),
* `httpServer/cache/group.go` (`Group`, `NewGroup`, `Group.Get`, `load`, `getLocally`,
  `populateCache`),
* `multipleNode/cache/lru/byteview.go` (`ByteView`, `cloneBytes`),
* `multipleNode/cache/http.go` (`HTTPPool`, `NewHTTPPool`, `Set`, `SelectNode`,
  `ServeHTTP`; the `ServeHTTP` of `httpServer/cache/http.go` has the same body),

followed by theorems about them.

Modelling conventions.

* A Go `string` is a Lean `String`; `len(s)` is `String.utf8ByteSize`.  The conversion
  `[]byte(s)` is a bijection, so a hash function on byte slices is represented by the
  function it induces on strings.
* Go `int` and `int64` values are Lean `Int`.  A `uint32` hash is a `Nat` reduced modulo
  `2 ^ 32` where it is produced, and the result of every `int64` addition or subtraction
  of the LRU cache is reduced by `wrap64`, as Go arithmetic wraps around on overflow.
* A Go `map[K]V` is an association list with at most one pair per key (`GoMap`).
* A pointer to a `list.Element` is a natural number (its address); the doubly linked list
  `container/list.List` is the list of its elements from front to back.
* A function that may loop forever returns an `Option`; `none` stands for divergence.
  A panic is an `Except.error` carrying its message.
* Where aliasing matters (namespace `mem`), a `[]byte` is a reference into an explicit heap
  of byte arrays; elsewhere it is the list of its bytes.
-/

/-! ## Go maps -/

/-- Association-list model of a Go map. -/
abbrev GoMap (κ : Type) (ν : Type) := List (κ × ν)

namespace GoMap

variable {κ ν : Type} [DecidableEq κ]

/-- The two-valued read `v, ok := m[k]`. -/
def get? (m : GoMap κ ν) (k : κ) : Option ν :=
  match m with
  | [] => none
  | (k', v) :: rest => if k' = k then some v else get? rest k

/-- The statement `delete(m, k)`. -/
def delete (m : GoMap κ ν) (k : κ) : GoMap κ ν :=
  m.filter (fun p => decide (p.1 ≠ k))

/-- The assignment `m[k] = v`: any older binding of `k` is replaced. -/
def set (m : GoMap κ ν) (k : κ) (v : ν) : GoMap κ ν :=
  (k, v) :: delete m k

/-- The builtin `len(m)`. -/
def len (m : GoMap κ ν) : Nat := m.length

end GoMap

/-! ## Machine integers -/

/-- The value of an integer expression in the Go type `int64`, whose arithmetic wraps
around on overflow: the integer congruent to `x` modulo `2 ^ 64` that lies between
`-2 ^ 63 = -9223372036854775808` and `2 ^ 63 - 1`. -/
def wrap64 (x : Int) : Int :=
  (x + 9223372036854775808) % 18446744073709551616 - 9223372036854775808

/-! ## Package `sort` -/

/-- The loop of `sort.Search`: `i, j` are the current bounds, the first argument bounds the
number of iterations. -/
def searchLoop (f : Nat → Bool) : Nat → Nat → Nat → Nat
  | 0, i, _ => i
  | fuel + 1, i, j =>
    if i < j then
      let h := (i + j) / 2
      if !f h then searchLoop f fuel (h + 1) j else searchLoop f fuel i h
    else i

/-- Go `sort.Search(n, f)`: binary search started on `[0, n)`.  The interval shrinks by at
least one index per iteration, so `n` iterations are enough (`searchLoop_fuel`). -/
def Search (n : Nat) (f : Nat → Bool) : Nat := searchLoop f n 0 n

/-- Go `sort.Ints`: the increasing rearrangement of the slice. -/
def sortInts (l : List Int) : List Int := l.insertionSort (fun a b => a ≤ b)

/-! ## Package `consistentHash` -/

namespace consistentHash

/-- Go `type HashFunc func(data []byte) uint32`, seen as a function of the string whose
bytes are hashed; its value is used modulo `2 ^ 32`. -/
abbrev HashFunc := String → Nat

/-- One step of the bitwise CRC-32 (IEEE polynomial, reflected) over one byte. -/
def crcByte (crc : Nat) (b : Nat) : Nat :=
  (List.range 8).foldl
    (fun c _ => if c % 2 = 1 then (c / 2) ^^^ 0xEDB88320 else c / 2) (crc ^^^ b)

/-- Go `crc32.ChecksumIEEE`, the default hash function of `NewMap`. -/
def crc32ChecksumIEEE : HashFunc := fun s =>
  (s.toUTF8.toList.foldl (fun c b => crcByte c b.toNat) 0xFFFFFFFF) ^^^ 0xFFFFFFFF

/-- Go `type Map struct`. -/
structure Map where
  hashFunc : HashFunc
  virtualNodeReplicas : Int
  hashRing : List Int
  nodeMap : GoMap Int String

/-- Go `NewMap(replicas, fn)`; `fn = none` is the nil function. -/
def NewMap (replicas : Int) (fn : Option HashFunc) : Map :=
  { hashFunc := match fn with
      | some f => f
      | none => crc32ChecksumIEEE
    virtualNodeReplicas := replicas
    hashRing := []
    nodeMap := [] }

/-- The expression `int(m.hashFunc([]byte(s)))`. -/
def Map.hashOf (m : Map) (s : String) : Int := Int.ofNat (m.hashFunc s % 2 ^ 32)

/-- The expression `m.nodeMap[h]`: a missing key reads as the empty string. -/
def Map.nodeAt (m : Map) (h : Int) : String := (GoMap.get? m.nodeMap h).getD ""

/-- Body of the inner loop of `Add` for virtual node index `i` of node `key`. -/
def Map.addVirtual (m : Map) (key : String) (i : Nat) : Map :=
  let hashValue := m.hashOf (toString i ++ key)
  { m with
    hashRing := m.hashRing ++ [hashValue]
    nodeMap := GoMap.set m.nodeMap hashValue key }

/-- The inner loop `for i := 0; i < m.virtualNodeReplicas; i++` of `Add`. -/
def Map.addNode (m : Map) (key : String) : Map :=
  (List.range m.virtualNodeReplicas.toNat).foldl (fun acc i => acc.addVirtual key i) m

/-- Go `(m *Map) Add(keys ...string)`. -/
def Map.Add (m : Map) (keys : List String) : Map :=
  let m1 := keys.foldl Map.addNode m
  { m1 with hashRing := sortInts m1.hashRing }

/-- Go `(m *Map) Get(key string) string`. -/
def Map.Get (m : Map) (key : String) : String :=
  if m.hashRing.length = 0 then ""
  else
    let hashValue := m.hashOf key
    let idx := Search m.hashRing.length
      (fun i => decide (m.hashRing.getD i 0 ≥ hashValue))
    m.nodeAt (m.hashRing.getD (idx % m.hashRing.length) 0)

/-- Maps obtained from `NewMap` by calls of `Add`. -/
inductive Map.Built : Map → Prop
  | new (replicas : Int) (fn : Option HashFunc) : Map.Built (NewMap replicas fn)
  | add (m : Map) (keys : List String) : Map.Built m → Map.Built (m.Add keys)

/-- The ring positions of the virtual nodes of node `id`: the hashes of the names
`strconv.Itoa(i) + id` for `0 <= i < replicas`. -/
def Map.virtualHashes (m : Map) (id : String) : List Int :=
  (List.range m.virtualNodeReplicas.toNat).map (fun i => m.hashOf (toString i ++ id))

/-- The effect of a sequence of calls of `Add`, one list of node ids per call. -/
def Map.AddAll (m : Map) (calls : List (List String)) : Map := calls.foldl Map.Add m

/-- The node id processed last among the ids of `procs`, taken in processing order, that
have a virtual node at ring position `h`; `none` when there is none. -/
def lastOwner (m : Map) (procs : List String) (h : Int) : Option String :=
  (procs.filter (fun id => decide (h ∈ m.virtualHashes id))).getLast?

/-- Whether `r` is the ring position serving hash `h`: the least ring value not below `h`,
or the least ring value of all when every ring value is below `h`. -/
def IsSuccessor (ring : List Int) (h r : Int) : Prop :=
  r ∈ ring ∧
    ((h ≤ r ∧ ∀ x ∈ ring, h ≤ x → r ≤ x) ∨ ((∀ x ∈ ring, x < h) ∧ ∀ x ∈ ring, r ≤ x))

/-- A hash function for worked examples: ten times the length in bytes. -/
def lengthHash : HashFunc := fun s => s.utf8ByteSize * 10

/-- A worked example: two nodes with two virtual nodes each, ring `[20, 20, 40, 40]`. -/
def exampleRing : Map := (NewMap 2 (some lengthHash)).Add ["a", "bbb"]

end consistentHash

/-! ## Package `container/list` -/

namespace list

/-- A `list.Element` of the recency list: its address and the `*entry` stored in its
`Value` field (`key`, `value`). -/
structure Element (α : Type) where
  addr : Nat
  key : String
  value : α
  deriving DecidableEq

variable {α : Type}

/-- The element at address `a`, if it is linked into the list. -/
def find (l : List (Element α)) (a : Nat) : Option (Element α) :=
  l.find? (fun e => decide (e.addr = a))

/-- Go `(l *List) Back()`. -/
def Back (l : List (Element α)) : Option (Element α) := l.getLast?

/-- Go `(l *List) Remove(e)`, `a` being the address of `e`. -/
def Remove (l : List (Element α)) (a : Nat) : List (Element α) :=
  l.eraseP (fun e => decide (e.addr = a))

/-- Go `(l *List) MoveToFront(e)`, `a` being the address of `e`; nothing happens when `e`
is not an element of the list. -/
def MoveToFront (l : List (Element α)) (a : Nat) : List (Element α) :=
  match find l a with
  | some e => e :: Remove l a
  | none => l

/-- Go `(l *List) PushFront(v)`; `a` is the address of the new element. -/
def PushFront (l : List (Element α)) (a : Nat) (key : String) (value : α) :
    List (Element α) :=
  { addr := a, key := key, value := value } :: l

/-- The assignment `kv.value = value` through the `*entry` of the element at address `a`. -/
def setValue (l : List (Element α)) (a : Nat) (value : α) : List (Element α) :=
  l.map (fun e => if e.addr = a then { e with value := value } else e)

end list

/-! ## Package `lru` -/

namespace lru

/-- Go `type Value interface { Len() int }`; `Len` is a function of the value. -/
class Value (α : Type) where
  Len : α → Int

/-- Go `type Cache struct`.  `OnEvicted` tells whether the callback is non-nil and `calls`
records the arguments of the calls made to it, oldest first.  `nextAddr` is the supply of
addresses for new list elements.  `nbytes` is only ever assigned results reduced by
`wrap64`; `maxBytes` is the `int64` argument of `New` and takes part in no arithmetic. -/
structure Cache (α : Type) where
  maxBytes : Int
  nbytes : Int
  ll : List (list.Element α)
  cache : GoMap String Nat
  OnEvicted : Bool
  calls : List (String × α)
  nextAddr : Nat
  deriving DecidableEq

variable {α : Type} [Value α]

/-- Go `New(maxBytes, onEvicted)`. -/
def New (maxBytes : Int) (onEvicted : Bool) : Cache α :=
  { maxBytes := maxBytes
    nbytes := 0
    ll := []
    cache := []
    OnEvicted := onEvicted
    calls := []
    nextAddr := 0 }

/-- The exact sum of `len(key)` and `value.Len()` of an entry, as an integer. -/
def exactSize (e : list.Element α) : Int :=
  Int.ofNat e.key.utf8ByteSize + Value.Len e.value

/-- The `int64` expression `int64(len(kv.key)) + int64(kv.value.Len())` charged for an
entry. -/
def entrySize (e : list.Element α) : Int :=
  wrap64 (Int.ofNat e.key.utf8ByteSize + Value.Len e.value)

/-- Go `(c *Cache) Get(key)`: the new state and `some value` on a hit (`ok = true`),
`none` on a miss.  The lookup table only ever holds addresses of elements of `ll`
(`Cache.Inv`), which is why the element is read through the list. -/
def Cache.Get (c : Cache α) (key : String) : Cache α × Option α :=
  match GoMap.get? c.cache key with
  | some a =>
    match list.find c.ll a with
    | some kv => ({ c with ll := list.MoveToFront c.ll a }, some kv.value)
    | none => (c, none)
  | none => (c, none)

/-- Go `(c *Cache) RemoveOldest()`. -/
def Cache.RemoveOldest (c : Cache α) : Cache α :=
  match list.Back c.ll with
  | some kv =>
    { c with
      ll := list.Remove c.ll kv.addr
      cache := GoMap.delete c.cache kv.key
      nbytes := wrap64 (c.nbytes - entrySize kv)
      calls := if c.OnEvicted then c.calls ++ [(kv.key, kv.value)] else c.calls }
  | none => c

/-- The `if ... else ...` statement of `Add`: update in place or insert in front. -/
def Cache.insert (c : Cache α) (key : String) (value : α) : Cache α :=
  match GoMap.get? c.cache key with
  | some a =>
    match list.find c.ll a with
    | some kv =>
      { c with
        ll := list.setValue (list.MoveToFront c.ll a) a value
        nbytes := wrap64 (c.nbytes + wrap64 (Value.Len value - Value.Len kv.value)) }
    | none => c
  | none =>
    { c with
      ll := list.PushFront c.ll c.nextAddr key value
      cache := GoMap.set c.cache key c.nextAddr
      nbytes := wrap64 (c.nbytes + wrap64 (Int.ofNat key.utf8ByteSize + Value.Len value))
      nextAddr := c.nextAddr + 1 }

/-- The guard `c.maxBytes != 0 && c.maxBytes < c.nbytes` of the eviction loop. -/
def Cache.overBudget (c : Cache α) : Bool :=
  decide (c.maxBytes ≠ 0) && decide (c.maxBytes < c.nbytes)

/-- The loop `for c.maxBytes != 0 && c.maxBytes < c.nbytes { c.RemoveOldest() }` run for
at most `fuel` iterations; `none` when the guard still holds afterwards. -/
def Cache.evictLoop : Nat → Cache α → Option (Cache α)
  | 0, c => if c.overBudget then none else some c
  | fuel + 1, c => if c.overBudget then Cache.evictLoop fuel c.RemoveOldest else some c

/-- Go `(c *Cache) Add(key, value)`; `none` when the eviction loop does not terminate.
One iteration per list element is enough: once the list is empty `RemoveOldest` changes
nothing, so a guard that still holds then holds forever (`evictLoop_none_stable`). -/
def Cache.Add (c : Cache α) (key : String) (value : α) : Option (Cache α) :=
  Cache.evictLoop (c.insert key value).ll.length (c.insert key value)

/-- Go `(c *Cache) Len()`. -/
def Cache.Len (c : Cache α) : Int := Int.ofNat c.ll.length

/-- A call of the public interface of `Cache`. -/
inductive Op (α : Type) where
  | add (key : String) (value : α)
  | get (key : String)
  | removeOldest

/-- Cache states reached from `New` by calls of `Add`, `Get` and `RemoveOldest` that
returned. -/
inductive Reachable : Cache α → Prop
  | new (maxBytes : Int) (onEvicted : Bool) : Reachable (New maxBytes onEvicted)
  | add (c c1 : Cache α) (key : String) (value : α) :
      Reachable c → c.Add key value = some c1 → Reachable c1
  | get (c : Cache α) (key : String) : Reachable c → Reachable (c.Get key).1
  | removeOldest (c : Cache α) : Reachable c → Reachable c.RemoveOldest

/-- The effect of a sequence of calls, `none` when one of them does not return. -/
def Cache.run (c : Cache α) : List (Op α) → Option (Cache α)
  | [] => some c
  | Op.add key value :: ops =>
    match c.Add key value with
    | some c1 => Cache.run c1 ops
    | none => none
  | Op.get key :: ops => Cache.run (c.Get key).1 ops
  | Op.removeOldest :: ops => Cache.run c.RemoveOldest ops

/-- The exact sum of `len(key) + value.Len()` over the entries present in the cache. -/
def Cache.sizeSum (c : Cache α) : Int := (c.ll.map exactSize).sum

/-- Whether `key` is present with value `v`: some element of the recency list carries
this key and this value. -/
def Cache.Holds (c : Cache α) (key : String) (v : α) : Prop :=
  ∃ e ∈ c.ll, e.key = key ∧ e.value = v

/-- The representation invariant of `Cache`: element addresses are pairwise distinct and
already allocated, element keys are pairwise distinct, the lookup table has one pair per
key and maps exactly the key of every element to the address of that element, and
`nbytes` is the sum of the entry sizes as an `int64`. -/
structure Cache.Inv (c : Cache α) : Prop where
  addrNodup : (c.ll.map (fun e => e.addr)).Nodup
  addrFresh : ∀ e ∈ c.ll, e.addr < c.nextAddr
  keyNodup : (c.ll.map (fun e => e.key)).Nodup
  tableNodup : (c.cache.map (fun p => p.1)).Nodup
  table : ∀ k a, GoMap.get? c.cache k = some a ↔ ∃ e ∈ c.ll, e.key = k ∧ e.addr = a
  bytes : c.nbytes = wrap64 c.sizeSum

/-- The state of a fresh cache after a first `Add(k, v)` that fits. -/
def firstEntry (maxBytes : Int) (onEvicted : Bool) (k : String) (v : α) : Cache α :=
  { maxBytes := maxBytes
    nbytes := wrap64 (0 + wrap64 (Int.ofNat k.utf8ByteSize + Value.Len v))
    ll := [{ addr := 0, key := k, value := v }]
    cache := [(k, 0)]
    OnEvicted := onEvicted
    calls := []
    nextAddr := 1 }

/-- The record of most recent touches once `key` has been touched at time `t`. -/
def touchAt (τ : String → Nat) (key : String) (t : Nat) : String → Nat :=
  fun x => if x = key then t else τ x

/-- Cache states reached from `New` by calls of `Add`, `Get` and `RemoveOldest`, together
with the number `t` of calls made so far and, for every key, the time `τ key` of its most
recent touch: the number of the latest call that was an `Add` of the key or a `Get` that
found the key (0 when there was none). -/
inductive TimedReach : Cache α → Nat → (String → Nat) → Prop
  | new (maxBytes : Int) (onEvicted : Bool) :
      TimedReach (New maxBytes onEvicted) 0 (fun _ => 0)
  | add (c c1 : Cache α) (t : Nat) (τ : String → Nat) (key : String) (value : α) :
      TimedReach c t τ → c.Add key value = some c1 →
      TimedReach c1 (t + 1) (touchAt τ key (t + 1))
  | get (c : Cache α) (t : Nat) (τ : String → Nat) (key : String) :
      TimedReach c t τ →
      TimedReach (c.Get key).1 (t + 1)
        (if (c.Get key).2.isSome then touchAt τ key (t + 1) else τ)
  | removeOldest (c : Cache α) (t : Nat) (τ : String → Nat) :
      TimedReach c t τ → TimedReach c.RemoveOldest (t + 1) τ

/-- Whether the most recent touches strictly decrease from the front of the recency list
to its back. -/
def RecencyOrdered (τ : String → Nat) (l : List (list.Element α)) : Prop :=
  l.Pairwise (fun x y => τ y.key < τ x.key)

/-- A value for worked examples: it reports the number it carries as its length. -/
structure Sized where
  len : Int
  deriving DecidableEq

instance : Value Sized := ⟨fun v => v.len⟩

/-- The state after `Add(a)` on a cache with room for two entries of two bytes and an
eviction callback. -/
def aCache : Cache Sized :=
  { maxBytes := 4
    nbytes := 2
    ll := [{ addr := 0, key := "a", value := { len := 1 } }]
    cache := [("a", 0)]
    OnEvicted := true
    calls := []
    nextAddr := 1 }

/-- The state after `Add(a), Add(b)` on the same cache. -/
def abCache : Cache Sized :=
  { maxBytes := 4
    nbytes := 4
    ll := [{ addr := 1, key := "b", value := { len := 1 } },
           { addr := 0, key := "a", value := { len := 1 } }]
    cache := [("b", 1), ("a", 0)]
    OnEvicted := true
    calls := []
    nextAddr := 2 }

/-- The most recent touches after `Add(a), Add(b)`: `a` at time 1 and `b` at time 2. -/
def abTouch : String → Nat := touchAt (touchAt (fun _ => 0) "a" 1) "b" 2

/-- The state after `Add(a)` with a value of length `MaxInt64 = 2 ^ 63 - 1` on a fresh
cache with a callback whose capacity `maxBytes` is an `int64`: the byte total
`1 + MaxInt64` has wrapped around to `MinInt64 = -2 ^ 63`, which no capacity exceeds. -/
def overflowCache (maxBytes : Int) : Cache Sized :=
  { maxBytes := maxBytes
    nbytes := -9223372036854775808
    ll := [{ addr := 0, key := "a", value := { len := 9223372036854775807 } }]
    cache := [("a", 0)]
    OnEvicted := true
    calls := []
    nextAddr := 1 }

/-- The state after `Add(a)` with a value of length 0 on a cache without bound. -/
def zeroCache : Cache Sized :=
  { maxBytes := 0
    nbytes := 1
    ll := [{ addr := 0, key := "a", value := { len := 0 } }]
    cache := [("a", 0)]
    OnEvicted := true
    calls := []
    nextAddr := 1 }

/-- The state after `Add(a)` with a value of length -20 on a cache of capacity 10. -/
def negCache : Cache Sized :=
  { maxBytes := 10
    nbytes := -19
    ll := [{ addr := 0, key := "a", value := { len := -20 } }]
    cache := [("a", 0)]
    OnEvicted := true
    calls := []
    nextAddr := 1 }

/-- The calls `Add(a), Add(b), Get(a), Add(c)` with values of length one. -/
def abcTrace : List (Op Sized) :=
  [Op.add "a" { len := 1 }, Op.add "b" { len := 1 }, Op.get "a", Op.add "c" { len := 1 }]

/-- The state after `abcTrace` on a cache with room for two entries of two bytes and an
eviction callback. -/
def abcCache : Cache Sized :=
  { maxBytes := 4
    nbytes := 4
    ll := [{ addr := 2, key := "c", value := { len := 1 } },
           { addr := 0, key := "a", value := { len := 1 } }]
    cache := [("c", 2), ("a", 0)]
    OnEvicted := true
    calls := [("b", { len := 1 })]
    nextAddr := 3 }

end lru

/-! ## Package `cache` of module `geecache`: `ByteView` and `Group` -/

namespace geecache

/-- Go builtin `copy(dst, src)` on byte slices: the contents of `dst` afterwards. -/
def copy (dst src : List UInt8) : List UInt8 :=
  src.take dst.length ++ dst.drop src.length

/-- Go `cloneBytes(b)`: `c := make([]byte, len(b)); copy(c, b); return c`. -/
def cloneBytes (b : List UInt8) : List UInt8 :=
  copy (List.replicate b.length 0) b

/-- Go `type ByteView struct { b []byte }`. -/
structure ByteView where
  b : List UInt8
  deriving DecidableEq

/-- Go `(v ByteView) Len()`. -/
def ByteView.Len (v : ByteView) : Int := Int.ofNat v.b.length

/-- Go `(v ByteView) ByteSlice()`. -/
def ByteView.ByteSlice (v : ByteView) : List UInt8 := cloneBytes v.b

instance : lru.Value ByteView := ⟨ByteView.Len⟩

/-- Modelled from the spec: the type `cache` of the field `Group.mainCache`, whose file is
not among the sources.  The spec describes it as the group's bounded local LRU cache of
capacity `cacheBytes`, probed with `Get` and filled with `Add`. -/
structure cache where
  cacheBytes : Int
  lru : lru.Cache ByteView

/-- Modelled from the spec: the literal `cache{cacheBytes: cacheBytes}` of `NewGroup`, an
empty LRU cache of that capacity without eviction callback. -/
def cache.make (cacheBytes : Int) : cache :=
  { cacheBytes := cacheBytes, lru := lru.New cacheBytes false }

/-- Modelled from the spec: `mainCache.get(key)`, the probe `Get` of the LRU cache. -/
def cache.get (c : cache) (key : String) : cache × Option ByteView :=
  ({ c with lru := (c.lru.Get key).1 }, (c.lru.Get key).2)

/-- Modelled from the spec: `mainCache.add(key, value)`, the insertion `Add` into the LRU
cache; `none` when `Add` does not return. -/
def cache.add (c : cache) (key : String) (value : ByteView) : Option cache :=
  (c.lru.Add key value).map (fun l => { c with lru := l })

/-- A Go `error` value handed out by `Group.Get`: either built by `fmt.Errorf` in this
package (with its message), or the value returned by the getter, passed on as it is. -/
inductive GoError (ε : Type) where
  | errorf (msg : String)
  | fromGetter (e : ε)
  deriving DecidableEq

/-- A call made by a `Group` to one of its collaborators. -/
inductive Event where
  | cacheGet (key : String)
  | getterGet (key : String)
  | cacheAdd (key : String)
  deriving DecidableEq

/-- Go `type Group struct`.  The `Getter` is the function computed by its `Get` method,
returning the bytes or an error of type `ε`.  `events` records the calls made to the main
cache and to the getter, oldest first. -/
structure Group (ε : Type) where
  name : String
  getter : String → Except ε (List UInt8)
  mainCache : cache
  events : List Event

variable {ε : Type}

/-- Go `NewGroup(name, cacheBytes, getter)` acting on the registry `groups`; a nil getter
(`none`) makes it fail with the message of the `panic`. -/
def NewGroup (groups : GoMap String (Group ε)) (name : String) (cacheBytes : Int)
    (getter : Option (String → Except ε (List UInt8))) :
    Except String (Group ε × GoMap String (Group ε)) :=
  match getter with
  | none => Except.error "nil getter"
  | some f =>
    let g : Group ε :=
      { name := name, getter := f, mainCache := cache.make cacheBytes, events := [] }
    Except.ok (g, GoMap.set groups name g)

/-- Go `GetGroup(name)`; `none` is the nil pointer. -/
def GetGroup (groups : GoMap String (Group ε)) (name : String) : Option (Group ε) :=
  GoMap.get? groups name

/-- Go `(g *Group) populateCache(key, value)`. -/
def Group.populateCache (g : Group ε) (key : String) (value : ByteView) :
    Option (Group ε) :=
  (g.mainCache.add key value).map
    (fun c => { g with mainCache := c, events := g.events ++ [Event.cacheAdd key] })

/-- Go `(g *Group) getLocally(key)`: the new state and the pair `(ByteView, error)`
returned, `none` standing for a nil error. -/
def Group.getLocally (g : Group ε) (key : String) :
    Option (Group ε × ByteView × Option (GoError ε)) :=
  let g1 := { g with events := g.events ++ [Event.getterGet key] }
  match g.getter key with
  | Except.error err => some (g1, { b := [] }, some (GoError.fromGetter err))
  | Except.ok bytes =>
    let value : ByteView := { b := cloneBytes bytes }
    (g1.populateCache key value).map (fun g2 => (g2, value, none))

/-- Go `(g *Group) load(key)`. -/
def Group.load (g : Group ε) (key : String) :
    Option (Group ε × ByteView × Option (GoError ε)) :=
  g.getLocally key

/-- Go `(g *Group) Get(key)`: the new state and the pair `(ByteView, error)` returned;
the outer `none` stands for a call that does not return. -/
def Group.Get (g : Group ε) (key : String) :
    Option (Group ε × ByteView × Option (GoError ε)) :=
  if key = "" then some (g, { b := [] }, some (GoError.errorf "key is required"))
  else
    let g1 := { g with
      mainCache := (g.mainCache.get key).1
      events := g.events ++ [Event.cacheGet key] }
    match (g.mainCache.get key).2 with
    | some v => some (g1, v, none)
    | none => g1.load key

/-- The effect of `n` successive calls `Get(key)`: the final state and the pairs returned,
in order; `none` when one of the calls does not return. -/
def Group.GetTimes (g : Group ε) (key : String) :
    Nat → Option (Group ε × List (ByteView × Option (GoError ε)))
  | 0 => some (g, [])
  | n + 1 =>
    match g.Get key with
    | some (g1, r) =>
      match Group.GetTimes g1 key n with
      | some (g2, rs) => some (g2, r :: rs)
      | none => none
    | none => none

/-- The loader of the example servers: the scores `630`, `589` and `567` of `Tom`, `Jack`
and `Sam`, as bytes; any other key is reported as missing. -/
def scoreDb : String → Except String (List UInt8) := fun key =>
  if key = "Tom" then Except.ok [54, 51, 48]
  else if key = "Jack" then Except.ok [53, 56, 57]
  else if key = "Sam" then Except.ok [53, 54, 55]
  else Except.error (key ++ " not exist")

/-- The number of calls of the getter recorded in an event list. -/
def getterCalls (events : List Event) : Nat :=
  (events.filter (fun ev => match ev with
    | Event.getterGet _ => true
    | _ => false)).length

end geecache

/-! ## Package `strings` -/

/-- Go `strings.HasPrefix(s, pre)`. -/
def strings_hasPrefix (s pre : String) : Bool := pre.data.isPrefixOf s.data

/-- The cut of `s` at the first occurrence of `sep`: what stands before it and after
it, `none` when `sep` does not occur (Go `strings.Index` followed by two slicings). -/
def cutFirst (sep : Char) : List Char → Option (List Char × List Char)
  | [] => none
  | c :: cs =>
    if c = sep then some ([], cs)
    else (cutFirst sep cs).map (fun p => (c :: p.1, p.2))

/-- The loop of `strings.SplitN` making at most `k` cuts. -/
def splitLoop (sep : Char) : Nat → List Char → List (List Char)
  | 0, s => [s]
  | k + 1, s =>
    match cutFirst sep s with
    | some (a, rest) => a :: splitLoop sep k rest
    | none => [s]

/-- Go `strings.SplitN(s, sep, n)` for a separator of one character: at most `n`
substrings, the last one being the unsplit remainder; all of them when `n < 0`. -/
def SplitN (s : String) (sep : Char) (n : Int) : List String :=
  if n = 0 then []
  else
    let n1 : Int := if n < 0 then Int.ofNat (s.data.count sep) + 1 else n
    let n2 : Int := if n1 > Int.ofNat s.utf8ByteSize + 1 then Int.ofNat s.utf8ByteSize + 1 else n1
    (splitLoop sep (n2.toNat - 1) s.data).map String.mk

/-- Go `strings.Split(s, sep)`, that is `SplitN(s, sep, -1)`: the segments of `s`. -/
def Split (s : String) (sep : Char) : List String := SplitN s sep (-1)

/-! ## Package `cache` of module `geecache`: `HTTPPool` -/

namespace geecache

/-- Go `const defaultBasePath`. -/
def defaultBasePath : String := "/_cache/"

/-- Go `const defaultReplicas`. -/
def defaultReplicas : Int := 50

/-- Go `type httpGetter struct`. -/
structure httpGetter where
  baseURL : String
  deriving DecidableEq

/-- Go `type HTTPPool struct` of `multipleNode/cache/http.go`.  `nodes = none` is the nil
pointer; `httpGetters` holds the `httpGetter` each stored pointer points to, a missing key
reading as the nil pointer. -/
structure HTTPPool where
  self : String
  basePath : String
  nodes : Option consistentHash.Map
  httpGetters : GoMap String httpGetter

/-- Go `NewHTTPPool(self)`. -/
def NewHTTPPool (self : String) : HTTPPool :=
  { self := self, basePath := defaultBasePath, nodes := none, httpGetters := [] }

/-- Go `(p *HTTPPool) Set(nodes ...string)`. -/
def HTTPPool.Set (p : HTTPPool) (nodes : List String) : HTTPPool :=
  { p with
    nodes := some ((consistentHash.NewMap defaultReplicas none).Add nodes)
    httpGetters := nodes.foldl
      (fun m node => GoMap.set m node { baseURL := node ++ p.basePath }) [] }

/-- The ring owner `p.nodes.Get(key)` of a key, for a pool whose ring has been set. -/
def HTTPPool.owner (p : HTTPPool) (key : String) : String :=
  match p.nodes with
  | some m => m.Get key
  | none => ""

/-- Go `(p *HTTPPool) SelectNode(key)`: the pair `(NodeGetter, bool)` returned, `none`
being the nil getter; calling it before any `Set` dereferences the nil pointer `p.nodes`
and panics. -/
def HTTPPool.SelectNode (p : HTTPPool) (key : String) :
    Except String (Option httpGetter × Bool) :=
  match p.nodes with
  | none => Except.error "invalid memory address or nil pointer dereference"
  | some m =>
    let node := m.Get key
    if node ≠ "" ∧ node ≠ p.self then Except.ok (GoMap.get? p.httpGetters node, true)
    else Except.ok (none, false)

/-- What a handler wrote as the body of its response. -/
inductive Body (ε : Type) where
  | text (msg : String)
  | errorText (err : GoError ε)
  | bytes (b : List UInt8)

/-- The response written by `ServeHTTP`: status code and body. -/
structure Response (ε : Type) where
  status : Nat
  body : Body ε

/-- The outcome of a call of `ServeHTTP`: a panic, a call that does not return, or a
response together with the registry of groups afterwards. -/
inductive Served (ε : Type) where
  | panic (msg : String)
  | hang
  | done (resp : Response ε) (groups : GoMap String (geecache.Group ε))

variable {ε : Type}

/-- Go `(p *HTTPPool) ServeHTTP(w, r)` for a request of path `path`, `groups` being the
registry read by `GetGroup`.  The group found is updated in place by `group.Get`.  The
calls of `Log` and `fmt.Println` are left out; both source files agree on the rest. -/
def HTTPPool.ServeHTTP (p : HTTPPool) (groups : GoMap String (geecache.Group ε))
    (path : String) : Served ε :=
  if ! strings_hasPrefix path p.basePath then
    Served.panic ("HTTPPool serving unexpected path: " ++ path)
  else
    let parts := SplitN (String.mk (path.data.drop p.basePath.data.length)) '/' 2
    if parts.length ≠ 2 then
      Served.done { status := 400, body := Body.text "bad request" } groups
    else
      let groupName := parts.getD 0 ""
      let key := parts.getD 1 ""
      match GetGroup groups groupName with
      | none =>
        Served.done { status := 404, body := Body.text ("no such group: " ++ groupName) }
          groups
      | some group =>
        match group.Get key with
        | none => Served.hang
        | some (g1, _, some err) =>
          Served.done { status := 500, body := Body.errorText err }
            (GoMap.set groups groupName g1)
        | some (g1, view, none) =>
          Served.done { status := 200, body := Body.bytes view.ByteSlice }
            (GoMap.set groups groupName g1)

/-- The status code answered, when `ServeHTTP` answers. -/
def Served.status : Served ε → Option Nat
  | Served.done resp _ => some resp.status
  | _ => none

/-- The node list of a worked example: the address of the first example server followed
by fifty names whose first virtual node `0 ++ name` has the CRC-32 of the virtual node
`i ++ address` of that server, for `i` from 0 to 49. -/
def collidingNames : List String :=
  ["q0axagjx", "fo1racxg", "zlqvaccb", "hoiiaatz", "qpojaabn", "cswuacuv", "dbeiac5p",
   "2r22aedd", "2kxyaftj", "vw3oaf5c", "br2zabwi", "0rpfabo1", "vw1dae1d", "2kzraepm",
   "ubh0adje", "fvy2acln", "brjgaeov", "pqrxagxn", "natpaofl", "llxvah3d", "ntv2adhh",
   "p5hmaf1i", "i143aer3", "d0ksaawd", "kh05adey", "p201amiw", "1u3sagmx", "bbxrabd3",
   "y24nadrf", "lol0ac2t", "rnhsadna", "azyqachj", "1c1yadon", "eqnvaalw", "a5s1aagy",
   "zos5ahkw", "mlw1aed1", "mcscaac4", "sowjaapf", "gbpganqo", "nojnacma", "c5aaab5n",
   "ksttadxo", "5jdgaasv", "axcuachp", "yp4vaawh", "estraalm", "vgepafjf", "dr3vacju",
   "xvs3ao1q"]

/-- A registry holding the group `scores` of the example servers. -/
def exampleGroups : GoMap String (geecache.Group String) :=
  [("scores", geecache.Group.mk "scores" scoreDb (cache.make 2048) [])]

/-- The pool of the first example server, knowing itself and the second server. -/
def examplePool : HTTPPool :=
  (NewHTTPPool "http://localhost:8001").Set ["http://localhost:8001", "http://localhost:8002"]

/-- The address of the first example server followed by `collidingNames`. -/
def collidingNodes : List String := "http://localhost:8001" :: collidingNames

end geecache

/-! ## Byte slices in memory -/

namespace mem

/-- The memory holding byte arrays: the array at address `a` is `arrays[a]`. -/
structure Heap where
  arrays : List (List UInt8)
  deriving DecidableEq

/-- A Go `[]byte`: the address of its backing array, the offset of its first element in
that array, and its length. -/
structure Slice where
  array : Nat
  off : Nat
  len : Nat
  deriving DecidableEq

/-- Whether a slice lies inside an array that has been allocated in the heap. -/
def Heap.Valid (h : Heap) (s : Slice) : Prop :=
  s.array < h.arrays.length ∧ s.off + s.len ≤ (h.arrays.getD s.array []).length

/-- The bytes a slice designates. -/
def Heap.load (h : Heap) (s : Slice) : List UInt8 :=
  ((h.arrays.getD s.array []).drop s.off).take s.len

/-- The assignment `s[i] = x`; `none` when `i` is out of range (a panic). -/
def Heap.store (h : Heap) (s : Slice) (i : Nat) (x : UInt8) : Option Heap :=
  if i < s.len then
    some { arrays := h.arrays.set s.array ((h.arrays.getD s.array []).set (s.off + i) x) }
  else none

/-- A sequence of assignments `s[i] = x` through the same slice. -/
def Heap.storeAll (h : Heap) (s : Slice) : List (Nat × UInt8) → Option Heap
  | [] => some h
  | (i, x) :: ws =>
    match h.store s i x with
    | some h1 => Heap.storeAll h1 s ws
    | none => none

/-- Go `make([]byte, n)`: a new zeroed array and the slice covering it. -/
def make (h : Heap) (n : Nat) : Heap × Slice :=
  ({ arrays := h.arrays ++ [List.replicate n 0] },
   { array := h.arrays.length, off := 0, len := n })

/-- Go builtin `copy(dst, src)`: the first `min(len(dst), len(src))` bytes of `src` are
written over the beginning of `dst`. -/
def copy (h : Heap) (dst src : Slice) : Heap :=
  let n := min dst.len src.len
  let a := h.arrays.getD dst.array []
  { arrays := h.arrays.set dst.array
      (a.take dst.off ++ (h.load src).take n ++ a.drop (dst.off + n)) }

/-- Go `cloneBytes(b)`. -/
def cloneBytes (h : Heap) (b : Slice) : Heap × Slice :=
  let r := make h b.len
  (copy r.1 r.2 b, r.2)

/-- Go `type ByteView struct { b []byte }`, the slice being a reference into the heap. -/
structure ByteView where
  b : Slice
  deriving DecidableEq

/-- Go `(v ByteView) Len()`. -/
def ByteView.Len (v : ByteView) : Int := Int.ofNat v.b.len

/-- Go `(v ByteView) ByteSlice()`. -/
def ByteView.ByteSlice (h : Heap) (v : ByteView) : Heap × Slice := cloneBytes h v.b

/-- Go `(v ByteView) String()`: the bytes of the string `string(v.b)`.  The name `String`
is taken by the type of strings. -/
def ByteView.GoString (h : Heap) (v : ByteView) : List UInt8 := h.load v.b

instance : lru.Value ByteView := ⟨ByteView.Len⟩

/-- A heap with the array `630` for worked examples. -/
def scoreHeap : Heap := { arrays := [[54, 51, 48]] }

/-- The view of the whole array of `scoreHeap`. -/
def scoreView : ByteView := { b := { array := 0, off := 0, len := 3 } }

end mem
/-! ## Binary search -/

theorem searchLoop_spec (f : Nat → Bool) (n : Nat)
    (hmono : ∀ a b, a ≤ b → b < n → f a = true → f b = true) :
    ∀ fuel i j, j - i ≤ fuel → i ≤ j → j ≤ n →
      (∀ k, k < i → f k = false) → (∀ k, j ≤ k → k < n → f k = true) →
      i ≤ searchLoop f fuel i j ∧ searchLoop f fuel i j ≤ j ∧
      (∀ k, k < searchLoop f fuel i j → f k = false) ∧
      (∀ k, searchLoop f fuel i j ≤ k → k < n → f k = true) := by
  intro fuel
  induction fuel with
  | zero =>
    intro i j hfuel hij _ hlo hhi
    have hji : j = i := by omega
    subst hji
    simp only [searchLoop]
    exact ⟨le_refl _, le_refl _, hlo, hhi⟩
  | succ fuel ih =>
    intro i j hfuel hij hjn hlo hhi
    unfold searchLoop
    by_cases hlt : i < j
    · simp only [hlt, if_true]
      have hmid1 : i ≤ (i + j) / 2 := by omega
      have hmid2 : (i + j) / 2 < j := by omega
      cases hf : f ((i + j) / 2) with
      | false =>
        simp only [Bool.not_false, if_true]
        have hlo2 : ∀ k, k < (i + j) / 2 + 1 → f k = false := by
          intro k hk
          cases hfk : f k with
          | false => rfl
          | true =>
            have := hmono k ((i + j) / 2) (by omega) (by omega) hfk
            rw [hf] at this
            exact absurd this (by simp)
        obtain ⟨h1, h2, h3, h4⟩ :=
          ih ((i + j) / 2 + 1) j (by omega) (by omega) hjn hlo2 hhi
        exact ⟨by omega, h2, h3, h4⟩
      | true =>
        simp only [Bool.not_true, Bool.false_eq_true, if_false]
        have hhi2 : ∀ k, (i + j) / 2 ≤ k → k < n → f k = true := by
          intro k hk hkn
          exact hmono _ k hk hkn hf
        obtain ⟨h1, h2, h3, h4⟩ :=
          ih i ((i + j) / 2) (by omega) (by omega) (by omega) hlo hhi2
        exact ⟨h1, by omega, h3, h4⟩
    · simp only [hlt, if_false]
      have hji : j = i := by omega
      subst hji
      exact ⟨le_refl _, le_refl _, hlo, hhi⟩

theorem Search_spec (f : Nat → Bool) (n : Nat)
    (hmono : ∀ a b, a ≤ b → b < n → f a = true → f b = true) :
    Search n f ≤ n ∧ (∀ k, k < Search n f → f k = false) ∧
      (∀ k, Search n f ≤ k → k < n → f k = true) := by
  obtain ⟨_, h2, h3, h4⟩ := searchLoop_spec f n hmono n 0 n (by omega) (by omega)
    (le_refl _) (by intro k hk; omega) (by intro k hk hkn; omega)
  exact ⟨h2, h3, h4⟩

theorem sortInts_sorted (l : List Int) : (sortInts l).Sorted (fun a b => a ≤ b) :=
  List.sorted_insertionSort _ l

theorem sortInts_perm (l : List Int) : (sortInts l).Perm l :=
  List.perm_insertionSort _ l

theorem mem_sortInts (l : List Int) (x : Int) : x ∈ sortInts l ↔ x ∈ l :=
  (sortInts_perm l).mem_iff

namespace consistentHash

theorem Map.Built.sorted {m : Map} (hb : m.Built) :
    m.hashRing.Sorted (fun a b => a ≤ b) := by
  cases hb with
  | new replicas fn => simp [NewMap]
  | add m keys _ => exact sortInts_sorted _

/-- On a sorted non-empty ring `Get` reads `nodeMap` at the successor of the key's hash:
the least ring value not below the hash, or the least ring value when there is none. -/
theorem Map.Get_sorted (m : Map) (hs : m.hashRing.Sorted (fun a b => a ≤ b))
    (hne : m.hashRing ≠ []) (key : String) :
    (∃ r ∈ m.hashRing, m.hashOf key ≤ r ∧
        (∀ x ∈ m.hashRing, m.hashOf key ≤ x → r ≤ x) ∧ m.Get key = m.nodeAt r) ∨
      ((∀ x ∈ m.hashRing, x < m.hashOf key) ∧
        (∀ x ∈ m.hashRing, m.hashRing.head hne ≤ x) ∧
        m.Get key = m.nodeAt (m.hashRing.head hne)) := by
  have hlen : 0 < m.hashRing.length := List.length_pos.mpr hne
  have hget : ∀ a b, a ≤ b → (hb : b < m.hashRing.length) →
      m.hashRing.getD a 0 ≤ m.hashRing.getD b 0 := by
    intro a b hab hb
    have ha : a < m.hashRing.length := by omega
    rw [List.getD_eq_getElem _ _ ha, List.getD_eq_getElem _ _ hb]
    rcases Nat.eq_or_lt_of_le hab with h | h
    · subst h; exact le_refl _
    · exact List.pairwise_iff_getElem.mp hs a b ha hb h
  have hmono : ∀ a b, a ≤ b → b < m.hashRing.length →
      (fun i => decide (m.hashRing.getD i 0 ≥ m.hashOf key)) a = true →
      (fun i => decide (m.hashRing.getD i 0 ≥ m.hashOf key)) b = true := by
    intro a b hab hb ha
    simp only [ge_iff_le, decide_eq_true_eq] at ha ⊢
    exact le_trans ha (hget a b hab hb)
  obtain ⟨hle, hbelow, habove⟩ := Search_spec _ _ hmono
  have hG : m.Get key = m.nodeAt (m.hashRing.getD
      (Search m.hashRing.length (fun i => decide (m.hashRing.getD i 0 ≥ m.hashOf key))
        % m.hashRing.length) 0) := by
    unfold Map.Get
    rw [if_neg (by omega)]
  generalize hidx : Search m.hashRing.length
      (fun i => decide (m.hashRing.getD i 0 ≥ m.hashOf key)) = idx at hle hbelow habove hG
  rcases Nat.eq_or_lt_of_le hle with heq | hlt
  · right
    have hall : ∀ x ∈ m.hashRing, x < m.hashOf key := by
      intro x hx
      obtain ⟨k, hk, rfl⟩ := List.getElem_of_mem hx
      have := hbelow k (by omega)
      simp only [ge_iff_le, decide_eq_false_iff_not, not_le] at this
      rwa [List.getD_eq_getElem _ _ hk] at this
    have hhead : m.hashRing.getD 0 0 = m.hashRing.head hne := by
      rw [List.getD_eq_getElem _ _ hlen]
      exact (List.head_eq_getElem _ hne).symm
    refine ⟨hall, ?_, ?_⟩
    · intro x hx
      obtain ⟨k, hk, rfl⟩ := List.getElem_of_mem hx
      have := hget 0 k (Nat.zero_le _) hk
      rw [hhead, List.getD_eq_getElem _ _ hk] at this
      exact this
    · rw [hG, heq, Nat.mod_self, hhead]
  · left
    refine ⟨m.hashRing.getD idx 0, ?_, ?_, ?_, ?_⟩
    · rw [List.getD_eq_getElem _ _ hlt]
      exact List.getElem_mem _
    · have := habove idx (le_refl _) hlt
      simpa using this
    · intro x hx hhx
      obtain ⟨k, hk, rfl⟩ := List.getElem_of_mem hx
      have hik : idx ≤ k := by
        by_contra hcon
        have := hbelow k (by omega)
        simp only [ge_iff_le, decide_eq_false_iff_not, not_le] at this
        rw [List.getD_eq_getElem _ _ hk] at this
        omega
      have := hget idx k hik hk
      rwa [List.getD_eq_getElem _ _ hk] at this
    · rw [hG, Nat.mod_eq_of_lt hlt]

end consistentHash

namespace GoMap

variable {κ ν : Type} [DecidableEq κ]

theorem get?_delete (m : GoMap κ ν) (k x : κ) :
    get? (delete m k) x = if x = k then none else get? m x := by
  induction m with
  | nil => simp [delete, get?]
  | cons p rest ih =>
    obtain ⟨k1, v1⟩ := p
    by_cases h1 : k1 = k
    · have hd : delete ((k1, v1) :: rest) k = delete rest k := by
        simp [delete, h1]
      rw [hd, ih]
      by_cases hx : x = k
      · simp [hx]
      · have : ¬ k1 = x := by rw [h1]; exact fun h => hx h.symm
        simp [hx, get?, this]
    · have hd : delete ((k1, v1) :: rest) k = (k1, v1) :: delete rest k := by
        simp [delete, h1]
      rw [hd]
      by_cases hx : x = k
      · subst hx
        simp [get?, h1, ih]
      · by_cases h2 : k1 = x
        · simp [get?, h2, hx]
        · simp only [get?, h2, if_false, ih, hx]

theorem get?_set (m : GoMap κ ν) (k : κ) (v : ν) (x : κ) :
    get? (set m k v) x = if x = k then some v else get? m x := by
  by_cases hx : x = k
  · simp [set, get?, hx]
  · have : ¬ k = x := fun h => hx h.symm
    simp [set, get?, this, get?_delete, hx]

end GoMap

namespace consistentHash

theorem IsSuccessor.unique {ring : List Int} {h r1 r2 : Int}
    (h1 : IsSuccessor ring h r1) (h2 : IsSuccessor ring h r2) : r1 = r2 := by
  obtain ⟨m1, c1⟩ := h1
  obtain ⟨m2, c2⟩ := h2
  rcases c1 with ⟨a1, b1⟩ | ⟨a1, b1⟩ <;> rcases c2 with ⟨a2, b2⟩ | ⟨a2, b2⟩
  · exact le_antisymm (b1 r2 m2 a2) (b2 r1 m1 a1)
  · have := a2 r1 m1; omega
  · have := a1 r2 m2; omega
  · exact le_antisymm (b1 r2 m2) (b2 r1 m1)

/-- A successor in a larger ring that already lies in the smaller ring is the successor
there too. -/
theorem IsSuccessor.restrict {ring ring2 : List Int} {h r : Int}
    (hsub : ∀ x ∈ ring, x ∈ ring2) (h2 : IsSuccessor ring2 h r) (hr : r ∈ ring) :
    IsSuccessor ring h r := by
  obtain ⟨_, c⟩ := h2
  refine ⟨hr, ?_⟩
  rcases c with ⟨a, b⟩ | ⟨a, b⟩
  · exact Or.inl ⟨a, fun x hx hhx => b x (hsub x hx) hhx⟩
  · exact Or.inr ⟨fun x hx => a x (hsub x hx), fun x hx => b x (hsub x hx)⟩

theorem Map.Get_isSuccessor (m : Map) (hs : m.hashRing.Sorted (fun a b => a ≤ b))
    (hne : m.hashRing ≠ []) (key : String) :
    ∃ r, IsSuccessor m.hashRing (m.hashOf key) r ∧ m.Get key = m.nodeAt r := by
  rcases Map.Get_sorted m hs hne key with ⟨r, hr, h1, h2, h3⟩ | ⟨h1, h2, h3⟩
  · exact ⟨r, ⟨hr, Or.inl ⟨h1, h2⟩⟩, h3⟩
  · exact ⟨m.hashRing.head hne, ⟨List.head_mem hne, Or.inr ⟨h1, h2⟩⟩, h3⟩

theorem Map.Get_empty (m : Map) (he : m.hashRing = []) (key : String) : m.Get key = "" := by
  simp [Map.Get, he]

/-- Effect of the inner loop of `Add` run over the virtual node indices `is`. -/
theorem Map.foldl_addVirtual (key : String) (is : List Nat) :
    ∀ m : Map,
      (is.foldl (fun acc i => acc.addVirtual key i) m).hashFunc = m.hashFunc ∧
      (is.foldl (fun acc i => acc.addVirtual key i) m).virtualNodeReplicas
        = m.virtualNodeReplicas ∧
      (is.foldl (fun acc i => acc.addVirtual key i) m).hashRing
        = m.hashRing ++ is.map (fun i => m.hashOf (toString i ++ key)) ∧
      ∀ x, GoMap.get? (is.foldl (fun acc i => acc.addVirtual key i) m).nodeMap x
        = if x ∈ is.map (fun i => m.hashOf (toString i ++ key)) then some key
          else GoMap.get? m.nodeMap x := by
  induction is with
  | nil => intro m; simp
  | cons i is ih =>
    intro m
    obtain ⟨h1, h2, h3, h4⟩ := ih (m.addVirtual key i)
    have hh : ∀ s, (m.addVirtual key i).hashOf s = m.hashOf s := fun s => rfl
    simp only [hh] at h3 h4
    simp only [List.foldl_cons]
    refine ⟨h1, h2, ?_, ?_⟩
    · rw [h3]; simp [Map.addVirtual]
    · intro x
      rw [h4]
      simp only [List.map_cons, List.mem_cons]
      by_cases hx : x ∈ is.map (fun i => m.hashOf (toString i ++ key))
      · simp [hx]
      · simp only [hx, if_false, or_false]
        simp only [Map.addVirtual, GoMap.get?_set]

/-- Effect of the outer loop of `Add`: the ring grows by the new positions `news`, a new
position is served by one of the added nodes, the other positions keep their node. -/
theorem Map.foldl_addNode (keys : List String) :
    ∀ m : Map, ∃ news : List Int,
      (keys.foldl Map.addNode m).hashFunc = m.hashFunc ∧
      (keys.foldl Map.addNode m).virtualNodeReplicas = m.virtualNodeReplicas ∧
      (keys.foldl Map.addNode m).hashRing = m.hashRing ++ news ∧
      ∀ x, (x ∈ news → (keys.foldl Map.addNode m).nodeAt x ∈ keys) ∧
        (x ∉ news → (keys.foldl Map.addNode m).nodeAt x = m.nodeAt x) := by
  induction keys with
  | nil => intro m; exact ⟨[], by simp⟩
  | cons key keys ih =>
    intro m
    obtain ⟨g1, g2, g3, g4⟩ :=
      Map.foldl_addVirtual key (List.range m.virtualNodeReplicas.toNat) m
    obtain ⟨news2, h1, h2, h3, h4⟩ := ih (m.addNode key)
    refine ⟨(List.range m.virtualNodeReplicas.toNat).map
        (fun i => m.hashOf (toString i ++ key)) ++ news2, ?_, ?_, ?_, ?_⟩
    · simp only [List.foldl_cons]; rw [h1]; exact g1
    · simp only [List.foldl_cons]; rw [h2]; exact g2
    · simp only [List.foldl_cons]; rw [h3]
      show (m.addNode key).hashRing ++ news2 = _
      unfold Map.addNode
      rw [g3, List.append_assoc]
    · intro x
      simp only [List.foldl_cons, List.mem_append, List.mem_cons]
      have hx1 : (m.addNode key).nodeAt x
          = (if x ∈ (List.range m.virtualNodeReplicas.toNat).map
              (fun i => m.hashOf (toString i ++ key)) then some key
             else GoMap.get? m.nodeMap x).getD "" := by
        show (GoMap.get? (m.addNode key).nodeMap x).getD "" = _
        unfold Map.addNode
        rw [g4 x]
      constructor
      · intro hx
        by_cases hn2 : x ∈ news2
        · exact Or.inr ((h4 x).1 hn2)
        · left
          rw [(h4 x).2 hn2, hx1]
          rcases hx with hx | hx
          · simp only [hx, if_true, Option.getD_some]
          · exact absurd hx hn2
      · intro hx
        have hn1 : x ∉ (List.range m.virtualNodeReplicas.toNat).map
            (fun i => m.hashOf (toString i ++ key)) := fun h => hx (Or.inl h)
        have hn2 : x ∉ news2 := fun h => hx (Or.inr h)
        rw [(h4 x).2 hn2, hx1]
        simp only [hn1, if_false]
        rfl

/-- Adding nodes to a ring with sorted positions sends every key to its former owner or to
one of the added nodes. -/
theorem Map.Add_owner (m : Map) (hs : m.hashRing.Sorted (fun a b => a ≤ b))
    (keys : List String) (key : String) :
    (m.Add keys).Get key = m.Get key ∨ (m.Add keys).Get key ∈ keys := by
  obtain ⟨news, h1, _, h3, h4⟩ := Map.foldl_addNode keys m
  have hring : (m.Add keys).hashRing = sortInts (m.hashRing ++ news) := by
    show sortInts _ = _
    rw [h3]
  have hnode : ∀ x, (m.Add keys).nodeAt x = (keys.foldl Map.addNode m).nodeAt x :=
    fun x => rfl
  have hhash : (m.Add keys).hashOf key = m.hashOf key := by
    show Int.ofNat ((keys.foldl Map.addNode m).hashFunc key % 2 ^ 32) = _
    rw [h1]; rfl
  have hmem : ∀ x, x ∈ (m.Add keys).hashRing ↔ x ∈ m.hashRing ∨ x ∈ news := by
    intro x; rw [hring, mem_sortInts, List.mem_append]
  by_cases hne2 : (m.Add keys).hashRing = []
  · left
    have hne : m.hashRing = [] := by
      cases hm : m.hashRing with
      | nil => rfl
      | cons a l =>
        have : a ∈ (m.Add keys).hashRing := (hmem a).2 (Or.inl (by simp [hm]))
        rw [hne2] at this
        exact absurd this (List.not_mem_nil a)
    rw [Map.Get_empty _ hne2, Map.Get_empty _ hne]
  · have hs2 : (m.Add keys).hashRing.Sorted (fun a b => a ≤ b) := by
      rw [hring]; exact sortInts_sorted _
    obtain ⟨r2, hsucc2, hget2⟩ := Map.Get_isSuccessor _ hs2 hne2 key
    rw [hhash] at hsucc2
    by_cases hnew : r2 ∈ news
    · right
      rw [hget2, hnode]
      exact (h4 r2).1 hnew
    · left
      have hr2 : r2 ∈ m.hashRing := by
        rcases (hmem r2).1 hsucc2.1 with h | h
        · exact h
        · exact absurd h hnew
      have hne : m.hashRing ≠ [] := List.ne_nil_of_mem hr2
      obtain ⟨r, hsucc, hget⟩ := Map.Get_isSuccessor m hs hne key
      have hrest : IsSuccessor m.hashRing (m.hashOf key) r2 :=
        IsSuccessor.restrict (fun x hx => (hmem x).2 (Or.inl hx)) hsucc2 hr2
      have : r = r2 := IsSuccessor.unique hsucc hrest
      rw [hget2, hget, hnode, (h4 r2).2 hnew, this]

/-- C1: on a non-empty ring built through `Add`, `Get(key)` returns `nodeMap[r]` where `r`
is the smallest ring value that is at least the hash of the key when there is one, and
otherwise, every ring value being below the hash, the smallest ring value
`hashRing[0]`. -/
theorem Map.Get_successor (m : Map) (hb : m.Built) (hne : m.hashRing ≠ []) (key : String) :
    (∃ r ∈ m.hashRing, m.hashOf key ≤ r ∧
        (∀ x ∈ m.hashRing, m.hashOf key ≤ x → r ≤ x) ∧ m.Get key = m.nodeAt r) ∨
      ((∀ x ∈ m.hashRing, x < m.hashOf key) ∧
        (∀ x ∈ m.hashRing, m.hashRing.head hne ≤ x) ∧
        m.Get key = m.nodeAt (m.hashRing.head hne)) :=
  Map.Get_sorted m hb.sorted hne key

theorem exampleRing_built : exampleRing.Built :=
  Map.Built.add _ _ (Map.Built.new _ _)

theorem exampleRing_ne : exampleRing.hashRing ≠ [] := by decide

/-- The key `xxxxx` hashes to 50, above every position of `exampleRing`. -/
theorem Map.Get_successor_witness :
    (∃ r ∈ exampleRing.hashRing, exampleRing.hashOf "xxxxx" ≤ r ∧
        (∀ x ∈ exampleRing.hashRing, exampleRing.hashOf "xxxxx" ≤ x → r ≤ x) ∧
        exampleRing.Get "xxxxx" = exampleRing.nodeAt r) ∨
      ((∀ x ∈ exampleRing.hashRing, x < exampleRing.hashOf "xxxxx") ∧
        (∀ x ∈ exampleRing.hashRing, exampleRing.hashRing.head exampleRing_ne ≤ x) ∧
        exampleRing.Get "xxxxx"
          = exampleRing.nodeAt (exampleRing.hashRing.head exampleRing_ne)) :=
  Map.Get_successor exampleRing exampleRing_built exampleRing_ne "xxxxx"

/-- C2: for a ring built through `Add`, after adding one node `n` every key is owned
either by the node that owned it before or by `n`; no key moves between two nodes that
were already there. -/
theorem Map.Add_monotone (m : Map) (hb : m.Built) (n key : String) :
    (m.Add [n]).Get key = m.Get key ∨ (m.Add [n]).Get key = n := by
  rcases Map.Add_owner m hb.sorted [n] key with h | h
  · exact Or.inl h
  · exact Or.inr (by simpa using h)

/-- Adding node `cc` (positions 30, 30) to `exampleRing`, seen from key `xxx` (hash 30). -/
theorem Map.Add_monotone_witness :
    (exampleRing.Add ["cc"]).Get "xxx" = exampleRing.Get "xxx" ∨
      (exampleRing.Add ["cc"]).Get "xxx" = "cc" :=
  Map.Add_monotone exampleRing exampleRing_built "cc" "xxx"

end consistentHash

/-! ## The recency list -/

namespace list

variable {α : Type}

theorem find_split {l : List (Element α)} {a : Nat} {e : Element α}
    (h : find l a = some e) :
    ∃ l1 l2, l = l1 ++ e :: l2 ∧ e.addr = a ∧ (∀ b ∈ l1, b.addr ≠ a) ∧
      Remove l a = l1 ++ l2 := by
  induction l with
  | nil => simp [find] at h
  | cons x xs ih =>
    by_cases hx : x.addr = a
    · have hf : find (x :: xs) a = some x := by simp [find, hx]
      rw [hf] at h
      cases h
      exact ⟨[], xs, rfl, hx, by simp, by simp [Remove, hx]⟩
    · have hf : find (x :: xs) a = find xs a := by simp [find, hx]
      rw [hf] at h
      obtain ⟨l1, l2, h1, h2, h3, h4⟩ := ih h
      refine ⟨x :: l1, l2, by rw [h1]; rfl, h2, ?_, ?_⟩
      · intro b hb
        rcases List.mem_cons.mp hb with rfl | hb
        · exact hx
        · exact h3 b hb
      · have : Remove (x :: xs) a = x :: Remove xs a := by simp [Remove, hx]
        rw [this, h4]; rfl

theorem find_none {l : List (Element α)} {a : Nat} (h : find l a = none) :
    ∀ e ∈ l, e.addr ≠ a := by
  intro e he
  have := List.find?_eq_none.mp h e he
  simpa using this

theorem find_of_mem {l : List (Element α)} {e : Element α}
    (hnd : (l.map (fun e => e.addr)).Nodup) (he : e ∈ l) : find l e.addr = some e := by
  induction l with
  | nil => cases he
  | cons x xs ih =>
    rw [List.map_cons, List.nodup_cons] at hnd
    rcases List.mem_cons.mp he with rfl | he
    · simp [find]
    · have hx : x.addr ≠ e.addr := by
        intro hxe
        exact hnd.1 (hxe ▸ List.mem_map_of_mem (fun e => e.addr) he)
      have hf : find (x :: xs) e.addr = find xs e.addr := by simp [find, hx]
      rw [hf]
      exact ih hnd.2 he

theorem MoveToFront_perm (l : List (Element α)) (a : Nat) : (MoveToFront l a).Perm l := by
  unfold MoveToFront
  cases h : find l a with
  | none => exact List.Perm.refl _
  | some e =>
    obtain ⟨l1, l2, h1, _, _, h4⟩ := find_split h
    simp only [h4]
    rw [h1]
    exact List.perm_middle.symm

theorem Back_split {l : List (Element α)} {e : Element α} (h : Back l = some e) :
    l = l.dropLast ++ [e] := by
  obtain ⟨ys, rfl⟩ := List.getLast?_eq_some_iff.mp h
  simp

theorem Remove_back {l1 : List (Element α)} {e : Element α}
    (hnd : ((l1 ++ [e]).map (fun e => e.addr)).Nodup) :
    Remove (l1 ++ [e]) e.addr = l1 := by
  have hno : ∀ b ∈ l1, ¬ (decide (b.addr = e.addr) = true) := by
    intro b hb hbe
    simp only [decide_eq_true_eq] at hbe
    rw [List.map_append, List.nodup_append] at hnd
    exact hnd.2.2 (List.mem_map_of_mem (fun e => e.addr) hb) (by simp [hbe])
  unfold Remove
  rw [List.eraseP_append_right _ hno]
  simp

theorem setValue_map_addr (l : List (Element α)) (a : Nat) (v : α) :
    (setValue l a v).map (fun e => e.addr) = l.map (fun e => e.addr) := by
  induction l with
  | nil => rfl
  | cons x xs ih =>
    simp only [setValue, List.map_cons, List.map_map] at ih ⊢
    rw [ih]
    by_cases hx : x.addr = a <;> simp [hx]

theorem setValue_map_key (l : List (Element α)) (a : Nat) (v : α) :
    (setValue l a v).map (fun e => e.key) = l.map (fun e => e.key) := by
  induction l with
  | nil => rfl
  | cons x xs ih =>
    simp only [setValue, List.map_cons, List.map_map] at ih ⊢
    rw [ih]
    by_cases hx : x.addr = a <;> simp [hx]

theorem setValue_of_not_mem {l : List (Element α)} {a : Nat} (v : α)
    (h : ∀ b ∈ l, b.addr ≠ a) : setValue l a v = l := by
  induction l with
  | nil => rfl
  | cons x xs ih =>
    have hx : x.addr ≠ a := h x (List.mem_cons_self _ _)
    have := ih (fun b hb => h b (List.mem_cons_of_mem _ hb))
    simp only [setValue, List.map_cons] at this ⊢
    rw [this]
    simp [hx]

end list

/-! ## Arithmetic of `int64` -/

theorem wrap64_range (x : Int) :
    -9223372036854775808 ≤ wrap64 x ∧ wrap64 x < 9223372036854775808 := by
  unfold wrap64
  omega

/-- An integer in the range of `int64` is its own value as an `int64`. -/
theorem wrap64_of_range {x : Int} (h1 : -9223372036854775808 ≤ x)
    (h2 : x < 9223372036854775808) : wrap64 x = x := by
  unfold wrap64
  omega

theorem wrap64_add_wrap (a b : Int) : wrap64 (a + wrap64 b) = wrap64 (a + b) := by
  unfold wrap64
  omega

theorem wrap64_wrap_add (a b : Int) : wrap64 (wrap64 a + b) = wrap64 (a + b) := by
  unfold wrap64
  omega

theorem wrap64_wrap_sub_wrap (a b : Int) :
    wrap64 (wrap64 a - wrap64 b) = wrap64 (a - b) := by
  unfold wrap64
  omega

theorem wrap64_zero : wrap64 0 = 0 := by decide

/-- Wrapping never enlarges an integer that is not below `-2 ^ 63`. -/
theorem wrap64_le_self {x : Int} (h : -9223372036854775808 ≤ x) : wrap64 x ≤ x := by
  unfold wrap64
  omega

/-! ## The representation invariant of the LRU cache -/

namespace lru

variable {α : Type} [Value α]

theorem mem_shape {β : Type} {l : List (list.Element β)} {k : String} {a : Nat} :
    (k, a) ∈ l.map (fun e => (e.key, e.addr)) ↔ ∃ e ∈ l, e.key = k ∧ e.addr = a := by
  simp only [List.mem_map, Prod.mk.injEq]

theorem New_inv (maxBytes : Int) (onEvicted : Bool) :
    (New maxBytes onEvicted : Cache α).Inv := by
  refine ⟨by simp [New], by simp [New], by simp [New], by simp [New], ?_,
    by simp [New, Cache.sizeSum, wrap64_zero]⟩
  intro k a
  simp [New, GoMap.get?]

/-- The invariant only depends on the keys and addresses in the list, up to order. -/
theorem Cache.Inv.of_shape {c c2 : Cache α} (h : c.Inv)
    (hshape : (c2.ll.map (fun e => (e.key, e.addr))).Perm
      (c.ll.map (fun e => (e.key, e.addr))))
    (hc : c2.cache = c.cache) (ha : c2.nextAddr = c.nextAddr)
    (hb : c2.nbytes = wrap64 c2.sizeSum) : c2.Inv := by
  have hmem : ∀ k a, (∃ e ∈ c2.ll, e.key = k ∧ e.addr = a) ↔
      ∃ e ∈ c.ll, e.key = k ∧ e.addr = a := by
    intro k a
    rw [← mem_shape, ← mem_shape]
    exact hshape.mem_iff
  refine ⟨?_, ?_, ?_, ?_, ?_, hb⟩
  · have h1 := (hshape.map Prod.snd).nodup_iff.mpr (by
      simpa [List.map_map, Function.comp_def] using h.addrNodup)
    simpa [List.map_map, Function.comp_def] using h1
  · intro e he
    obtain ⟨e0, he0, _, h2⟩ := (hmem e.key e.addr).mp ⟨e, he, rfl, rfl⟩
    rw [ha, ← h2]
    exact h.addrFresh e0 he0
  · have h1 := (hshape.map Prod.fst).nodup_iff.mpr (by
      simpa [List.map_map, Function.comp_def] using h.keyNodup)
    simpa [List.map_map, Function.comp_def] using h1
  · rw [hc]; exact h.tableNodup
  · intro k a
    rw [hc, h.table, hmem]

/-- Under the invariant a probe of the lookup table either misses, the key being absent
from the list, or yields the address of the one element carrying the key. -/
theorem Cache.Inv.lookup {c : Cache α} (h : c.Inv) (k : String) :
    (GoMap.get? c.cache k = none ∧ ∀ e ∈ c.ll, e.key ≠ k) ∨
    (∃ e l1 l2, GoMap.get? c.cache k = some e.addr ∧ list.find c.ll e.addr = some e ∧
      e.key = k ∧ c.ll = l1 ++ e :: l2 ∧ list.Remove c.ll e.addr = l1 ++ l2 ∧
      list.MoveToFront c.ll e.addr = e :: (l1 ++ l2)) := by
  cases hg : GoMap.get? c.cache k with
  | none =>
    left
    refine ⟨rfl, ?_⟩
    intro e he hk
    have := (h.table k e.addr).mpr ⟨e, he, hk, rfl⟩
    rw [hg] at this
    cases this
  | some a =>
    right
    obtain ⟨e, he, hk, hea⟩ := (h.table k a).mp hg
    have hf := list.find_of_mem h.addrNodup he
    obtain ⟨l1, l2, h1, _, _, h4⟩ := list.find_split hf
    refine ⟨e, l1, l2, by rw [hea], hf, hk, h1, h4, ?_⟩
    unfold list.MoveToFront
    rw [hf]
    simp only [h4]

theorem Cache.Get_miss {β : Type} {c : Cache β} {k : String}
    (h : GoMap.get? c.cache k = none) :
    c.Get k = (c, none) := by
  simp [Cache.Get, h]

theorem Cache.Get_hit {β : Type} {c : Cache β} {k : String} {e : list.Element β}
    (h : GoMap.get? c.cache k = some e.addr) (hf : list.find c.ll e.addr = some e) :
    c.Get k = ({ c with ll := list.MoveToFront c.ll e.addr }, some e.value) := by
  simp [Cache.Get, h, hf]

theorem Cache.Inv.get {c : Cache α} (h : c.Inv) (k : String) : (c.Get k).1.Inv := by
  rcases h.lookup k with ⟨hg, _⟩ | ⟨e, l1, l2, hg, hf, _, _, _, _⟩
  · rw [Cache.Get_miss hg]; exact h
  · rw [Cache.Get_hit hg hf]
    refine h.of_shape ((list.MoveToFront_perm c.ll e.addr).map _) rfl rfl ?_
    show c.nbytes = wrap64 ((list.MoveToFront c.ll e.addr).map exactSize).sum
    rw [h.bytes, Cache.sizeSum, ((list.MoveToFront_perm c.ll e.addr).map exactSize).sum_eq]

theorem Cache.RemoveOldest_empty {c : Cache α} (h : c.ll = []) : c.RemoveOldest = c := by
  simp [Cache.RemoveOldest, list.Back, h]

/-- Under the invariant `RemoveOldest` on a list `l1 ++ [e]` unlinks `e`, deletes its key
from the lookup table, subtracts its size and reports it to the callback. -/
theorem Cache.RemoveOldest_back {c : Cache α} (h : c.Inv) {l1 : List (list.Element α)}
    {e : list.Element α} (hl : c.ll = l1 ++ [e]) :
    c.RemoveOldest = { c with
      ll := l1
      cache := GoMap.delete c.cache e.key
      nbytes := wrap64 (c.nbytes - entrySize e)
      calls := if c.OnEvicted then c.calls ++ [(e.key, e.value)] else c.calls } := by
  have hb : list.Back c.ll = some e := by
    rw [hl]; exact List.getLast?_concat _
  have hr : list.Remove c.ll e.addr = l1 := by
    rw [hl]
    apply list.Remove_back
    rw [← hl]; exact h.addrNodup
  simp only [Cache.RemoveOldest, hb, hr]

theorem Cache.ll_cases {β : Type} (c : Cache β) :
    c.ll = [] ∨ ∃ l1 e, c.ll = l1 ++ [e] := by
  rcases List.eq_nil_or_concat c.ll with h | ⟨l1, e, h⟩
  · exact Or.inl h
  · exact Or.inr ⟨l1, e, by rw [h]; simp⟩

theorem Cache.Inv.removeOldest {c : Cache α} (h : c.Inv) : c.RemoveOldest.Inv := by
  rcases c.ll_cases with hnil | ⟨l1, e, hl⟩
  · rw [Cache.RemoveOldest_empty hnil]; exact h
  · rw [Cache.RemoveOldest_back h hl]
    have hA := h.addrNodup
    have hK := h.keyNodup
    have hF := h.addrFresh
    have hT := h.table
    have hB := h.bytes
    rw [hl] at hA hK hF hT
    rw [List.map_append, List.nodup_append] at hA hK
    have hkey : ∀ x ∈ l1, x.key ≠ e.key := by
      intro x hx hxe
      exact hK.2.2 (List.mem_map_of_mem (fun e => e.key) hx) (by simp [hxe])
    refine ⟨hA.1, ?_, hK.1, ?_, ?_, ?_⟩
    · intro x hx
      exact hF x (List.mem_append_left _ hx)
    · exact (List.filter_sublist _).map _ |>.nodup h.tableNodup
    · intro k a
      show GoMap.get? (GoMap.delete c.cache e.key) k = some a ↔ _
      rw [GoMap.get?_delete]
      by_cases hk : k = e.key
      · simp only [hk, if_true]
        constructor
        · intro hc; cases hc
        · rintro ⟨x, hx, hxk, _⟩
          exact absurd hxk (hkey x hx)
      · simp only [hk, if_false]
        rw [hT]
        constructor
        · rintro ⟨x, hx, hxk, hxa⟩
          rcases List.mem_append.mp hx with hx | hx
          · exact ⟨x, hx, hxk, hxa⟩
          · simp only [List.mem_singleton] at hx
            subst hx
            exact absurd hxk.symm hk
        · rintro ⟨x, hx, hxk, hxa⟩
          exact ⟨x, List.mem_append_left _ hx, hxk, hxa⟩
    · show wrap64 (c.nbytes - entrySize e) = wrap64 (l1.map exactSize).sum
      rw [hB, Cache.sizeSum, hl, entrySize, wrap64_wrap_sub_wrap]
      congr 1
      simp [exactSize]

end lru

namespace lru

variable {α : Type} [Value α]

theorem Cache.insert_new {c : Cache α} {k : String} (v : α)
    (h : GoMap.get? c.cache k = none) :
    c.insert k v = { c with
      ll := list.PushFront c.ll c.nextAddr k v
      cache := GoMap.set c.cache k c.nextAddr
      nbytes := wrap64 (c.nbytes + wrap64 (Int.ofNat k.utf8ByteSize + Value.Len v))
      nextAddr := c.nextAddr + 1 } := by
  simp [Cache.insert, h]

/-- Under the invariant `Add` of a present key moves its element `e` to the front with the
new value and charges only the difference of the value lengths. -/
theorem Cache.insert_existing {c : Cache α} (h : c.Inv) {k : String} (v : α)
    {e : list.Element α} {l1 l2 : List (list.Element α)}
    (hg : GoMap.get? c.cache k = some e.addr) (hf : list.find c.ll e.addr = some e)
    (hl : c.ll = l1 ++ e :: l2)
    (hm : list.MoveToFront c.ll e.addr = e :: (l1 ++ l2)) :
    c.insert k v = { c with
      ll := { e with value := v } :: (l1 ++ l2)
      nbytes := wrap64 (c.nbytes + wrap64 (Value.Len v - Value.Len e.value)) } := by
  have hA := h.addrNodup
  rw [hl] at hA
  have hA2 : ((e :: (l1 ++ l2)).map (fun e => e.addr)).Nodup :=
    ((@List.perm_middle _ e l1 l2).map _).nodup_iff.mp hA
  rw [List.map_cons, List.nodup_cons] at hA2
  have hrest : ∀ b ∈ l1 ++ l2, b.addr ≠ e.addr := by
    intro b hb hbe
    exact hA2.1 (hbe ▸ List.mem_map_of_mem (fun e => e.addr) hb)
  have hset : list.setValue (e :: (l1 ++ l2)) e.addr v
      = { e with value := v } :: (l1 ++ l2) := by
    have := list.setValue_of_not_mem v hrest
    simp only [list.setValue, List.map_cons] at this ⊢
    rw [this]
    simp
  simp only [Cache.insert, hg, hf, hm, hset]

theorem Cache.Inv.insert {c : Cache α} (h : c.Inv) (k : String) (v : α) :
    (c.insert k v).Inv := by
  rcases h.lookup k with ⟨hg, hno⟩ | ⟨e, l1, l2, hg, hf, hk, hl, _, hm⟩
  · rw [Cache.insert_new v hg]
    refine ⟨?_, ?_, ?_, ?_, ?_, ?_⟩
    · show ((list.PushFront c.ll c.nextAddr k v).map (fun e => e.addr)).Nodup
      simp only [list.PushFront, List.map_cons, List.nodup_cons]
      refine ⟨?_, h.addrNodup⟩
      intro hmem
      obtain ⟨x, hx, hxa⟩ := List.mem_map.mp hmem
      have := h.addrFresh x hx
      omega
    · intro x hx
      show x.addr < c.nextAddr + 1
      rcases List.mem_cons.mp hx with rfl | hx
      · exact Nat.lt_succ_self _
      · exact Nat.lt_succ_of_lt (h.addrFresh x hx)
    · show ((list.PushFront c.ll c.nextAddr k v).map (fun e => e.key)).Nodup
      simp only [list.PushFront, List.map_cons, List.nodup_cons]
      refine ⟨?_, h.keyNodup⟩
      intro hmem
      obtain ⟨x, hx, hxk⟩ := List.mem_map.mp hmem
      exact hno x hx hxk
    · show ((GoMap.set c.cache k c.nextAddr).map (fun p => p.1)).Nodup
      simp only [GoMap.set, List.map_cons, List.nodup_cons]
      refine ⟨?_, (List.filter_sublist _).map _ |>.nodup h.tableNodup⟩
      intro hmem
      obtain ⟨p, hp, hpk⟩ := List.mem_map.mp hmem
      have := (List.mem_filter.mp hp).2
      simp only [decide_eq_true_eq] at this
      exact this hpk
    · intro k2 a
      show GoMap.get? (GoMap.set c.cache k c.nextAddr) k2 = some a ↔
        ∃ x ∈ list.PushFront c.ll c.nextAddr k v, x.key = k2 ∧ x.addr = a
      rw [GoMap.get?_set]
      simp only [list.PushFront, List.mem_cons]
      by_cases hk2 : k2 = k
      · simp only [hk2, if_true, Option.some.injEq]
        constructor
        · intro ha
          exact ⟨_, Or.inl rfl, rfl, ha⟩
        · rintro ⟨x, hx | hx, hxk, hxa⟩
          · rw [hx] at hxa; exact hxa
          · exact absurd hxk (hno x hx)
      · simp only [hk2, if_false]
        rw [h.table]
        constructor
        · rintro ⟨x, hx, hxk, hxa⟩
          exact ⟨x, Or.inr hx, hxk, hxa⟩
        · rintro ⟨x, hx | hx, hxk, hxa⟩
          · rw [hx] at hxk; exact absurd hxk.symm hk2
          · exact ⟨x, hx, hxk, hxa⟩
    · show wrap64 (c.nbytes + wrap64 (Int.ofNat k.utf8ByteSize + Value.Len v))
        = wrap64 ((list.PushFront c.ll c.nextAddr k v).map exactSize).sum
      rw [h.bytes, wrap64_add_wrap, wrap64_wrap_add]
      simp only [list.PushFront, List.map_cons, List.sum_cons, Cache.sizeSum, exactSize]
      congr 1
      omega
  · rw [Cache.insert_existing h v hg hf hl hm]
    refine h.of_shape ?_ rfl rfl ?_
    · show (({ e with value := v } :: (l1 ++ l2)).map (fun e => (e.key, e.addr))).Perm _
      rw [hl]
      simp only [List.map_cons, List.map_append]
      exact List.perm_middle.symm
    · show wrap64 (c.nbytes + wrap64 (Value.Len v - Value.Len e.value))
        = wrap64 (({ e with value := v } :: (l1 ++ l2)).map exactSize).sum
      rw [h.bytes, wrap64_add_wrap, wrap64_wrap_add, Cache.sizeSum, hl]
      simp only [List.map_cons, List.map_append, List.sum_cons, List.sum_append, exactSize]
      congr 1
      omega

theorem Cache.Inv.evictLoop {c : Cache α} (h : c.Inv) :
    ∀ (fuel : Nat) (c2 : Cache α), Cache.evictLoop fuel c = some c2 → c2.Inv := by
  intro fuel
  induction fuel generalizing c with
  | zero =>
    intro c2 hc2
    unfold Cache.evictLoop at hc2
    split at hc2
    · cases hc2
    · cases hc2; exact h
  | succ fuel ih =>
    intro c2 hc2
    unfold Cache.evictLoop at hc2
    split at hc2
    · exact ih h.removeOldest c2 hc2
    · cases hc2; exact h

theorem Cache.Inv.add {c c2 : Cache α} (h : c.Inv) {k : String} {v : α}
    (hadd : c.Add k v = some c2) : c2.Inv :=
  (h.insert k v).evictLoop _ c2 hadd

/-- Every reachable cache state satisfies the representation invariant. -/
theorem Reachable.inv {c : Cache α} (h : Reachable c) : c.Inv := by
  induction h with
  | new maxBytes onEvicted => exact New_inv maxBytes onEvicted
  | add c c1 key value _ hadd ih => exact ih.add hadd
  | get c key _ ih => exact ih.get key
  | removeOldest c _ ih => exact ih.removeOldest

end lru

namespace lru

variable {α : Type} [Value α]

theorem Reachable.of_run {c : Cache α} (h : Reachable c) :
    ∀ (ops : List (Op α)) (c2 : Cache α), c.run ops = some c2 → Reachable c2 := by
  intro ops
  induction ops generalizing c with
  | nil =>
    intro c2 hc2
    simp only [Cache.run, Option.some.injEq] at hc2
    rw [← hc2]; exact h
  | cons op ops ih =>
    intro c2 hc2
    cases op with
    | add key value =>
      simp only [Cache.run] at hc2
      cases hadd : c.Add key value with
      | none => rw [hadd] at hc2; cases hc2
      | some c1 =>
        rw [hadd] at hc2
        exact ih (Reachable.add c c1 key value h hadd) c2 hc2
    | get key =>
      simp only [Cache.run] at hc2
      exact ih (Reachable.get c key h) c2 hc2
    | removeOldest =>
      simp only [Cache.run] at hc2
      exact ih (Reachable.removeOldest c h) c2 hc2

theorem abcCache_run : (New 4 true : Cache Sized).run abcTrace = some abcCache := by
  decide

theorem abcCache_reachable : Reachable abcCache :=
  (Reachable.new 4 true).of_run abcTrace abcCache abcCache_run

theorem zeroCache_reachable : Reachable zeroCache :=
  Reachable.add (New 0 true) zeroCache "a" { len := 0 } (Reachable.new 0 true) (by decide)

end lru

namespace lru

variable {α : Type} [Value α]

theorem Cache.RemoveOldest_maxBytes (c : Cache α) : c.RemoveOldest.maxBytes = c.maxBytes := by
  unfold Cache.RemoveOldest
  cases list.Back c.ll <;> rfl

theorem Cache.insert_maxBytes (c : Cache α) (k : String) (v : α) :
    (c.insert k v).maxBytes = c.maxBytes := by
  unfold Cache.insert
  split
  · split <;> rfl
  · rfl

theorem Cache.Inv.removeOldest_length {c : Cache α} (h : c.Inv) :
    c.RemoveOldest.ll.length = c.ll.length - 1 := by
  rcases c.ll_cases with hnil | ⟨l1, e, hl⟩
  · rw [Cache.RemoveOldest_empty hnil, hnil]; rfl
  · rw [Cache.RemoveOldest_back h hl, hl]
    simp

theorem Cache.overBudget_false_iff {β : Type} (c : Cache β) :
    c.overBudget = false ↔ (c.maxBytes = 0 ∨ c.nbytes ≤ c.maxBytes) := by
  simp only [Cache.overBudget, Bool.and_eq_false_iff, decide_eq_false_iff_not, not_not,
    not_lt, ne_eq]

theorem Cache.evictLoop_of_not_over {c : Cache α} (h : c.overBudget = false) (fuel : Nat) :
    Cache.evictLoop fuel c = some c := by
  cases fuel <;> simp [Cache.evictLoop, h]

/-- What the eviction loop returns is within budget and has the same capacity. -/
theorem Cache.evictLoop_result :
    ∀ (fuel : Nat) (c c2 : Cache α), Cache.evictLoop fuel c = some c2 →
      c2.overBudget = false ∧ c2.maxBytes = c.maxBytes := by
  intro fuel
  induction fuel with
  | zero =>
    intro c c2 h
    unfold Cache.evictLoop at h
    split at h
    · cases h
    · cases h
      refine ⟨?_, rfl⟩
      simpa using ‹¬ c.overBudget = true›
  | succ fuel ih =>
    intro c c2 h
    unfold Cache.evictLoop at h
    split at h
    · obtain ⟨h1, h2⟩ := ih _ _ h
      exact ⟨h1, by rw [h2, Cache.RemoveOldest_maxBytes]⟩
    · cases h
      refine ⟨?_, rfl⟩
      simpa using ‹¬ c.overBudget = true›

/-- With a non-negative capacity the eviction loop ends within one iteration per entry. -/
theorem Cache.Inv.evictLoop_returns :
    ∀ (fuel : Nat) (c : Cache α), c.Inv → 0 ≤ c.maxBytes → c.ll.length ≤ fuel →
      ∃ c2, Cache.evictLoop fuel c = some c2 := by
  intro fuel
  induction fuel with
  | zero =>
    intro c h hmax hlen
    have hnil : c.ll = [] := List.length_eq_zero.mp (Nat.le_zero.mp hlen)
    have hb : c.nbytes = 0 := by rw [h.bytes, Cache.sizeSum, hnil]; exact wrap64_zero
    have : c.overBudget = false := by
      rw [Cache.overBudget_false_iff]; right; omega
    exact ⟨c, Cache.evictLoop_of_not_over this 0⟩
  | succ fuel ih =>
    intro c h hmax hlen
    unfold Cache.evictLoop
    by_cases hov : c.overBudget = true
    · rw [if_pos hov]
      apply ih _ h.removeOldest
      · rw [Cache.RemoveOldest_maxBytes]; exact hmax
      · rw [h.removeOldest_length]; omega
    · rw [if_neg hov]
      exact ⟨c, rfl⟩

/-- Under the invariant the first part of `Add` keeps every element of the list, only the
value of the element carrying the added key may change. -/
theorem Cache.Inv.insert_keeps {c : Cache α} (h : c.Inv) (k : String) (v : α) :
    ∀ e ∈ c.ll, ∃ e2 ∈ (c.insert k v).ll,
      e2.key = e.key ∧ e2.addr = e.addr ∧ (e.key ≠ k → e2 = e) := by
  intro x hx
  rcases h.lookup k with ⟨hg, _⟩ | ⟨e, l1, l2, hg, hf, hk, hl, _, hm⟩
  · rw [Cache.insert_new v hg]
    exact ⟨x, List.mem_cons_of_mem _ hx, rfl, rfl, fun _ => rfl⟩
  · rw [Cache.insert_existing h v hg hf hl hm]
    rw [hl] at hx
    rcases List.mem_append.mp hx with hx | hx
    · exact ⟨x, List.mem_cons_of_mem _ (List.mem_append_left _ hx), rfl, rfl, fun _ => rfl⟩
    · rcases List.mem_cons.mp hx with rfl | hx
      · exact ⟨{ x with value := v }, List.mem_cons_self _ _, rfl, rfl,
          fun hne => absurd hk hne⟩
      · exact ⟨x, List.mem_cons_of_mem _ (List.mem_append_right _ hx), rfl, rfl,
          fun _ => rfl⟩

theorem Cache.insert_calls (c : Cache α) (k : String) (v : α) :
    (c.insert k v).calls = c.calls := by
  unfold Cache.insert
  split
  · split <;> rfl
  · rfl

/-- C5: for a reachable cache with `maxBytes > 0`, `Add(key, value)` returns and leaves
`nbytes <= maxBytes`; with `maxBytes == 0` the eviction loop does not run: `Add` returns
the state after its insertion step, the callback is not called and every entry that was
present is still present. -/
theorem Cache.Add_capacity {c : Cache α} (hr : Reachable c) (k : String) (v : α) :
    (0 < c.maxBytes →
      ∃ c2, c.Add k v = some c2 ∧ c2.maxBytes = c.maxBytes ∧ c2.nbytes ≤ c2.maxBytes) ∧
    (c.maxBytes = 0 →
      c.Add k v = some (c.insert k v) ∧ (c.insert k v).calls = c.calls ∧
      ∀ e ∈ c.ll, ∃ e2 ∈ (c.insert k v).ll,
        e2.key = e.key ∧ e2.addr = e.addr ∧ (e.key ≠ k → e2 = e)) := by
  have hinv := hr.inv
  constructor
  · intro hpos
    have hmax : (c.insert k v).maxBytes = c.maxBytes := Cache.insert_maxBytes c k v
    obtain ⟨c2, hc2⟩ := Cache.Inv.evictLoop_returns (c.insert k v).ll.length (c.insert k v)
      (hinv.insert k v) (by rw [hmax]; omega) (le_refl _)
    obtain ⟨hov, hm2⟩ := Cache.evictLoop_result _ _ _ hc2
    refine ⟨c2, hc2, by rw [hm2, hmax], ?_⟩
    rcases (Cache.overBudget_false_iff c2).mp hov with h0 | hle
    · rw [hm2, hmax] at h0; omega
    · exact hle
  · intro hzero
    have hov : (c.insert k v).overBudget = false := by
      rw [Cache.overBudget_false_iff, Cache.insert_maxBytes]
      exact Or.inl hzero
    exact ⟨Cache.evictLoop_of_not_over hov _, Cache.insert_calls c k v,
      hinv.insert_keeps k v⟩

/-- Adding a fourth key `d` to the full example cache of capacity four, and a first key
to a fresh cache without bound. -/
theorem Cache.Add_capacity_witness :
    (∃ c2, abcCache.Add "d" { len := 1 } = some c2 ∧ c2.maxBytes = abcCache.maxBytes ∧
        c2.nbytes ≤ c2.maxBytes) ∧
    ((New 0 true : Cache Sized).Add "d" { len := 9 }
        = some ((New 0 true : Cache Sized).insert "d" { len := 9 }) ∧
      ((New 0 true : Cache Sized).insert "d" { len := 9 }).calls
        = (New 0 true : Cache Sized).calls ∧
      ∀ e ∈ (New 0 true : Cache Sized).ll,
        ∃ e2 ∈ ((New 0 true : Cache Sized).insert "d" { len := 9 }).ll,
          e2.key = e.key ∧ e2.addr = e.addr ∧ (e.key ≠ "d" → e2 = e)) :=
  ⟨(Cache.Add_capacity abcCache_reachable "d" { len := 1 }).1 (by decide),
    (Cache.Add_capacity (Reachable.new 0 true : Reachable (New 0 true : Cache Sized)) "d"
      ({ len := 9 } : Sized)).2 rfl⟩

end lru

namespace lru

variable {α : Type} [Value α]

/-- Under the invariant two elements of the list with the same key are the same. -/
theorem Cache.Inv.key_unique {c : Cache α} (h : c.Inv) {e1 e2 : list.Element α}
    (h1 : e1 ∈ c.ll) (h2 : e2 ∈ c.ll) (hk : e1.key = e2.key) : e1 = e2 :=
  List.inj_on_of_nodup_map h.keyNodup h1 h2 hk

/-- C6 fails as stated: in the cache without bound that holds `a` with a value of length
0, `nbytes` being 1, `Add(a)` with a value of length `2 ^ 63 - 1` does not change `nbytes`
by the difference `2 ^ 63 - 1` of the value lengths: the `int64` total wraps around to
`-2 ^ 63`. -/
theorem Cache.Add_existing_counterexample :
    Reachable zeroCache ∧ zeroCache.Holds "a" { len := 0 } ∧ zeroCache.maxBytes = 0 ∧
    zeroCache.nbytes = 1 ∧
    zeroCache.Add "a" { len := 9223372036854775807 } = some (overflowCache 0) ∧
    (overflowCache 0).nbytes = -9223372036854775808 ∧
    (overflowCache 0).nbytes
      ≠ zeroCache.nbytes
        + (Value.Len ({ len := 9223372036854775807 } : Sized)
          - Value.Len ({ len := 0 } : Sized)) :=
  ⟨zeroCache_reachable, ⟨{ addr := 0, key := "a", value := { len := 0 } }, by decide, rfl, rfl⟩,
    rfl, rfl, by decide, rfl, by decide⟩

/-- C6, as amended: in a reachable cache holding `key` with value `o`, an `Add(key, v)`
whose result stays within budget, `maxBytes == 0` or the `int64` value of
`nbytes + v.Len() - o.Len()` at most `maxBytes`, returns, leaves the number of entries
unchanged, sets `nbytes` to the `int64` value of `nbytes + v.Len() - o.Len()`, which is a
change by exactly `v.Len() - o.Len()` whenever that total lies in the range of `int64`,
makes `Get(key)` return `(v, true)` and puts the entry of `key` at the front of the recency
list. -/
theorem Cache.Add_existing {c : Cache α} (hr : Reachable c) {k : String} {o : α} (v : α)
    (hold : c.Holds k o)
    (hfit : c.maxBytes = 0 ∨
      wrap64 (c.nbytes + (Value.Len v - Value.Len o)) ≤ c.maxBytes) :
    ∃ c2, c.Add k v = some c2 ∧ c2.Len = c.Len ∧
      c2.nbytes = wrap64 (c.nbytes + (Value.Len v - Value.Len o)) ∧
      (-9223372036854775808 ≤ c.nbytes + (Value.Len v - Value.Len o) →
        c.nbytes + (Value.Len v - Value.Len o) < 9223372036854775808 →
        c2.nbytes = c.nbytes + (Value.Len v - Value.Len o)) ∧
      (c2.Get k).2 = some v ∧
      ∃ e rest, c2.ll = e :: rest ∧ e.key = k ∧ e.value = v := by
  have hinv := hr.inv
  obtain ⟨e0, he0, hk0, hv0⟩ := hold
  rcases hinv.lookup k with ⟨_, hno⟩ | ⟨e, l1, l2, hg, hf, hk, hl, _, hm⟩
  · exact absurd hk0 (hno e0 he0)
  · have hmem : e ∈ c.ll := by rw [hl]; simp
    have hee : e0 = e := hinv.key_unique he0 hmem (by rw [hk0, hk])
    subst hee
    have hins := Cache.insert_existing hinv v hg hf hl hm
    have hinv2 := hinv.insert k v
    have hnb : (c.insert k v).nbytes = wrap64 (c.nbytes + (Value.Len v - Value.Len o)) := by
      rw [hins, ← hv0]
      exact wrap64_add_wrap _ _
    have hov : (c.insert k v).overBudget = false := by
      rw [Cache.overBudget_false_iff, hnb, Cache.insert_maxBytes]
      exact hfit
    refine ⟨c.insert k v, Cache.evictLoop_of_not_over hov _, ?_, hnb, ?_, ?_, ?_⟩
    · rw [hins]
      show Int.ofNat (({ e0 with value := v } :: (l1 ++ l2)).length) = Int.ofNat c.ll.length
      rw [hl]; simp; omega
    · intro h1 h2
      rw [hnb, wrap64_of_range h1 h2]
    · have hg2 : GoMap.get? (c.insert k v).cache k
          = some ({ e0 with value := v } : list.Element α).addr := by
        rw [hins]; exact hg
      have hf2 : list.find (c.insert k v).ll ({ e0 with value := v } : list.Element α).addr
          = some { e0 with value := v } := by
        apply list.find_of_mem hinv2.addrNodup
        rw [hins]; exact List.mem_cons_self _ _
      rw [Cache.Get_hit hg2 hf2]
    · exact ⟨{ e0 with value := v }, l1 ++ l2, by rw [hins], hk, rfl⟩

/-- Replacing the value of `a` in the example cache by one of length 0. -/
theorem Cache.Add_existing_witness :
    ∃ c2, abcCache.Add "a" { len := 0 } = some c2 ∧ c2.Len = abcCache.Len ∧
      c2.nbytes = wrap64 (abcCache.nbytes
        + (Value.Len ({ len := 0 } : Sized) - Value.Len ({ len := 1 } : Sized))) ∧
      (-9223372036854775808 ≤ abcCache.nbytes
          + (Value.Len ({ len := 0 } : Sized) - Value.Len ({ len := 1 } : Sized)) →
        abcCache.nbytes
          + (Value.Len ({ len := 0 } : Sized) - Value.Len ({ len := 1 } : Sized))
          < 9223372036854775808 →
        c2.nbytes = abcCache.nbytes
          + (Value.Len ({ len := 0 } : Sized) - Value.Len ({ len := 1 } : Sized))) ∧
      (c2.Get "a").2 = some { len := 0 } ∧
      ∃ e rest, c2.ll = e :: rest ∧ e.key = "a" ∧ e.value = { len := 0 } :=
  Cache.Add_existing abcCache_reachable { len := 0 }
    ⟨{ addr := 0, key := "a", value := { len := 1 } }, by decide, rfl, rfl⟩
    (Or.inr (by decide))

/-- C7: on a reachable cache `Get(key)` returns `(v, true)` exactly when `key` is present
with value `v` and `(nil, false)` when it is absent; `nbytes`, `Len()`, the lookup table,
the callback record and the key-to-value contents are unchanged; on a miss the state is
unchanged, on a hit the element of `key` moves to the front of the recency list and the
other elements keep their relative order. -/
theorem Cache.Get_frame {c : Cache α} (hr : Reachable c) (k : String) :
    (∀ v, (c.Get k).2 = some v ↔ c.Holds k v) ∧
    ((c.Get k).2 = none ↔ ∀ v, ¬ c.Holds k v) ∧
    (c.Get k).1.nbytes = c.nbytes ∧ (c.Get k).1.Len = c.Len ∧
    (c.Get k).1.cache = c.cache ∧ (c.Get k).1.calls = c.calls ∧
    (c.Get k).1.maxBytes = c.maxBytes ∧
    (∀ k2 v2, (c.Get k).1.Holds k2 v2 ↔ c.Holds k2 v2) ∧
    (((c.Get k).2 = none ∧ (c.Get k).1 = c) ∨
      ∃ e l1 l2, c.ll = l1 ++ e :: l2 ∧ e.key = k ∧ (c.Get k).2 = some e.value ∧
        (c.Get k).1.ll = e :: (l1 ++ l2)) := by
  have hinv := hr.inv
  rcases hinv.lookup k with ⟨hg, hno⟩ | ⟨e, l1, l2, hg, hf, hk, hl, _, hm⟩
  · have habs : ∀ v, ¬ c.Holds k v := by
      rintro v ⟨x, hx, hxk, _⟩
      exact hno x hx hxk
    rw [Cache.Get_miss hg]
    refine ⟨?_, ?_, rfl, rfl, rfl, rfl, rfl, fun _ _ => Iff.rfl, Or.inl ⟨rfl, rfl⟩⟩
    · intro v
      constructor
      · intro h; cases h
      · intro h; exact absurd h (habs v)
    · exact ⟨fun _ => habs, fun _ => rfl⟩
  · have hmem : e ∈ c.ll := by rw [hl]; simp
    have hperm : (e :: (l1 ++ l2)).Perm c.ll := by
      rw [hl]; exact List.perm_middle.symm
    rw [Cache.Get_hit hg hf, hm]
    refine ⟨?_, ?_, rfl, ?_, rfl, rfl, rfl, ?_, Or.inr ⟨e, l1, l2, hl, hk, rfl, rfl⟩⟩
    · intro v
      constructor
      · intro h
        simp only [Option.some.injEq] at h
        exact ⟨e, hmem, hk, h⟩
      · rintro ⟨x, hx, hxk, hxv⟩
        have : x = e := hinv.key_unique hx hmem (by rw [hxk, hk])
        rw [← hxv, this]
    · constructor
      · intro h; cases h
      · intro h
        exact absurd ⟨e, hmem, hk, rfl⟩ (h e.value)
    · show Int.ofNat (e :: (l1 ++ l2)).length = Int.ofNat c.ll.length
      rw [hperm.length_eq]
    · intro k2 v2
      constructor
      · rintro ⟨x, hx, h1, h2⟩
        exact ⟨x, hperm.mem_iff.mp hx, h1, h2⟩
      · rintro ⟨x, hx, h1, h2⟩
        exact ⟨x, hperm.mem_iff.mpr hx, h1, h2⟩

/-- A hit on `a`, the older of the two entries of the example cache. -/
theorem Cache.Get_frame_witness :
    (∀ v, (abcCache.Get "a").2 = some v ↔ abcCache.Holds "a" v) ∧
    ((abcCache.Get "a").2 = none ↔ ∀ v, ¬ abcCache.Holds "a" v) ∧
    (abcCache.Get "a").1.nbytes = abcCache.nbytes ∧
    (abcCache.Get "a").1.Len = abcCache.Len ∧
    (abcCache.Get "a").1.cache = abcCache.cache ∧
    (abcCache.Get "a").1.calls = abcCache.calls ∧
    (abcCache.Get "a").1.maxBytes = abcCache.maxBytes ∧
    (∀ k2 v2, (abcCache.Get "a").1.Holds k2 v2 ↔ abcCache.Holds k2 v2) ∧
    (((abcCache.Get "a").2 = none ∧ (abcCache.Get "a").1 = abcCache) ∨
      ∃ e l1 l2, abcCache.ll = l1 ++ e :: l2 ∧ e.key = "a" ∧
        (abcCache.Get "a").2 = some e.value ∧
        (abcCache.Get "a").1.ll = e :: (l1 ++ l2)) :=
  Cache.Get_frame abcCache_reachable "a"

end lru

/-! ## Eviction order -/

namespace lru

variable {α : Type} [Value α]

theorem Cache.evictLoop_iterate :
    ∀ (fuel : Nat) (c c2 : Cache α), Cache.evictLoop fuel c = some c2 →
      ∃ n, c2 = Cache.RemoveOldest^[n] c := by
  intro fuel
  induction fuel with
  | zero =>
    intro c c2 h
    unfold Cache.evictLoop at h
    split at h
    · cases h
    · cases h; exact ⟨0, rfl⟩
  | succ fuel ih =>
    intro c c2 h
    unfold Cache.evictLoop at h
    split at h
    · obtain ⟨n, hn⟩ := ih _ _ h
      exact ⟨n + 1, by rw [hn, Function.iterate_succ_apply]⟩
    · cases h; exact ⟨0, rfl⟩

theorem RecencyOrdered.touchAt_of_ne {β : Type} {τ : String → Nat}
    {l : List (list.Element β)} (k : String) (t : Nat) (hne : ∀ e ∈ l, e.key ≠ k)
    (h : RecencyOrdered τ l) : RecencyOrdered (touchAt τ k t) l := by
  refine List.Pairwise.imp_of_mem ?_ h
  intro a b ha hb hab
  simp only [touchAt, hne a ha, hne b hb, if_false]
  exact hab

/-- Moving the element of key `k` to the front, or pushing a new element of key `k` in
front, at a time later than every touch so far keeps the list ordered by recency. -/
theorem RecencyOrdered.cons_touch {β : Type} {τ : String → Nat}
    {l : List (list.Element β)} {e : list.Element β} {t : Nat}
    (hne : ∀ x ∈ l, x.key ≠ e.key) (hb : ∀ x ∈ l, τ x.key ≤ t)
    (h : RecencyOrdered τ l) :
    RecencyOrdered (touchAt τ e.key (t + 1)) (e :: l) ∧
      ∀ x ∈ e :: l, touchAt τ e.key (t + 1) x.key ≤ t + 1 := by
  constructor
  · refine List.pairwise_cons.mpr ⟨?_, RecencyOrdered.touchAt_of_ne e.key (t + 1) hne h⟩
    intro x hx
    have := hb x hx
    simp only [touchAt, hne x hx, if_false, if_true]
    omega
  · intro x hx
    rcases List.mem_cons.mp hx with rfl | hx
    · simp [touchAt]
    · have := hb x hx
      simp only [touchAt, hne x hx, if_false]
      omega

theorem Cache.Inv.others_ne {c : Cache α} (h : c.Inv) {e : list.Element α}
    {l1 l2 : List (list.Element α)} (hl : c.ll = l1 ++ e :: l2) :
    ∀ x ∈ l1 ++ l2, x.key ≠ e.key := by
  have hK := h.keyNodup
  rw [hl] at hK
  have hK2 : ((e :: (l1 ++ l2)).map (fun e => e.key)).Nodup :=
    ((@List.perm_middle _ e l1 l2).map _).nodup_iff.mp hK
  rw [List.map_cons, List.nodup_cons] at hK2
  intro x hx hxe
  exact hK2.1 (hxe ▸ List.mem_map_of_mem (fun e => e.key) hx)

theorem sublist_middle {β : Type} (l1 l2 : List β) (e : β) :
    (l1 ++ l2).Sublist (l1 ++ e :: l2) :=
  (List.sublist_cons_self e l2).append_left l1

/-- The insertion step of `Add` at time `t + 1` keeps the list ordered by recency. -/
theorem Cache.Inv.insert_ordered {c : Cache α} (h : c.Inv) {τ : String → Nat} {t : Nat}
    (ho : RecencyOrdered τ c.ll) (hb : ∀ x ∈ c.ll, τ x.key ≤ t) (k : String) (v : α) :
    RecencyOrdered (touchAt τ k (t + 1)) (c.insert k v).ll ∧
      ∀ x ∈ (c.insert k v).ll, touchAt τ k (t + 1) x.key ≤ t + 1 := by
  rcases h.lookup k with ⟨hg, hno⟩ | ⟨e, l1, l2, hg, hf, hk, hl, _, hm⟩
  · rw [Cache.insert_new v hg]
    have hne : ∀ x ∈ c.ll,
        x.key ≠ ({ addr := c.nextAddr, key := k, value := v } : list.Element α).key := hno
    exact RecencyOrdered.cons_touch hne hb ho
  · rw [Cache.insert_existing h v hg hf hl hm]
    have hsub := sublist_middle l1 l2 e
    rw [← hl] at hsub
    have hne0 := h.others_ne hl
    have hne : ∀ x ∈ l1 ++ l2, x.key ≠ ({ e with value := v } : list.Element α).key :=
      hne0
    have := RecencyOrdered.cons_touch hne (fun x hx => hb x (hsub.subset hx))
      (List.Pairwise.sublist hsub ho)
    rw [← hk]
    exact this

/-- A call of `Get` at time `t + 1` keeps the list ordered by recency. -/
theorem Cache.Inv.get_ordered {c : Cache α} (h : c.Inv) {τ : String → Nat} {t : Nat}
    (ho : RecencyOrdered τ c.ll) (hb : ∀ x ∈ c.ll, τ x.key ≤ t) (k : String) :
    RecencyOrdered (if (c.Get k).2.isSome then touchAt τ k (t + 1) else τ) (c.Get k).1.ll ∧
      ∀ x ∈ (c.Get k).1.ll,
        (if (c.Get k).2.isSome then touchAt τ k (t + 1) else τ) x.key ≤ t + 1 := by
  rcases h.lookup k with ⟨hg, _⟩ | ⟨e, l1, l2, hg, hf, hk, hl, _, hm⟩
  · rw [Cache.Get_miss hg]
    simp only [Option.isSome_none, Bool.false_eq_true, if_false]
    exact ⟨ho, fun x hx => Nat.le_succ_of_le (hb x hx)⟩
  · rw [Cache.Get_hit hg hf, hm]
    simp only [Option.isSome_some, if_true]
    have hsub := sublist_middle l1 l2 e
    rw [← hl] at hsub
    have := RecencyOrdered.cons_touch (h.others_ne hl) (fun x hx => hb x (hsub.subset hx))
      (List.Pairwise.sublist hsub ho)
    rw [← hk]
    exact this

theorem Cache.Inv.removeOldest_sublist {c : Cache α} (h : c.Inv) :
    c.RemoveOldest.ll.Sublist c.ll := by
  rcases c.ll_cases with hnil | ⟨l1, e, hl⟩
  · rw [Cache.RemoveOldest_empty hnil]
  · rw [Cache.RemoveOldest_back h hl, hl]
    exact List.sublist_append_left l1 [e]

theorem Cache.Inv.iterate_removeOldest {c : Cache α} (h : c.Inv) (n : Nat) :
    (Cache.RemoveOldest^[n] c).Inv ∧ (Cache.RemoveOldest^[n] c).ll.Sublist c.ll := by
  induction n generalizing c with
  | zero => exact ⟨h, List.Sublist.refl _⟩
  | succ n ih =>
    rw [Function.iterate_succ_apply]
    obtain ⟨h1, h2⟩ := ih h.removeOldest
    exact ⟨h1, h2.trans h.removeOldest_sublist⟩

/-- Every timed reachable state satisfies the invariant and is ordered by recency. -/
theorem TimedReach.ordered {c : Cache α} {t : Nat} {τ : String → Nat}
    (h : TimedReach c t τ) :
    c.Inv ∧ RecencyOrdered τ c.ll ∧ ∀ x ∈ c.ll, τ x.key ≤ t := by
  induction h with
  | new maxBytes onEvicted =>
    refine ⟨New_inv maxBytes onEvicted, ?_, ?_⟩
    · simp [New, RecencyOrdered]
    · simp [New]
  | add c c1 t τ key value _ hadd ih =>
    obtain ⟨hinv, ho, hb⟩ := ih
    obtain ⟨ho2, hb2⟩ := hinv.insert_ordered ho hb key value
    obtain ⟨n, hn⟩ := Cache.evictLoop_iterate _ _ _ hadd
    obtain ⟨hinv3, hsub⟩ := (hinv.insert key value).iterate_removeOldest n
    rw [← hn] at hinv3 hsub
    exact ⟨hinv3, List.Pairwise.sublist hsub ho2, fun x hx => hb2 x (hsub.subset hx)⟩
  | get c t τ key _ ih =>
    obtain ⟨hinv, ho, hb⟩ := ih
    obtain ⟨ho2, hb2⟩ := hinv.get_ordered ho hb key
    exact ⟨hinv.get key, ho2, hb2⟩
  | removeOldest c t τ _ ih =>
    obtain ⟨hinv, ho, hb⟩ := ih
    have hsub := hinv.removeOldest_sublist
    exact ⟨hinv.removeOldest, List.Pairwise.sublist hsub ho,
      fun x hx => Nat.le_succ_of_le (hb x (hsub.subset hx))⟩

/-- On a list ordered by recency `RemoveOldest` unlinks the back element, drops its key
from the lookup table, and every other element was touched later than it. -/
theorem Cache.Inv.removeOldest_least {c : Cache α} (h : c.Inv) {τ : String → Nat}
    (ho : RecencyOrdered τ c.ll) {e : list.Element α} (hb : list.Back c.ll = some e) :
    c.ll = c.RemoveOldest.ll ++ [e] ∧
      GoMap.get? c.RemoveOldest.cache e.key = none ∧
      (c.OnEvicted = true → c.RemoveOldest.calls = c.calls ++ [(e.key, e.value)]) ∧
      ∀ x ∈ c.RemoveOldest.ll, τ e.key < τ x.key := by
  have hl := list.Back_split hb
  rw [Cache.RemoveOldest_back h hl]
  refine ⟨hl, ?_, ?_, ?_⟩
  · show GoMap.get? (GoMap.delete c.cache e.key) e.key = none
    rw [GoMap.get?_delete]; simp
  · intro hcb
    show (if c.OnEvicted then c.calls ++ [(e.key, e.value)] else c.calls) = _
    rw [if_pos hcb]
  · intro x hx
    show τ e.key < τ x.key
    unfold RecencyOrdered at ho
    rw [hl, List.pairwise_append] at ho
    exact ho.2.2 x hx e (List.mem_singleton_self e)

end lru

namespace lru

variable {α : Type} [Value α]

/-- C4: in every cache state reached by calls of `Add`, `Get` and `RemoveOldest`, with `τ`
the times of the most recent touches, `RemoveOldest` removes the back element `e`, and
every entry that stays was touched later than `e`; `Add` returns its insertion step
followed by some number of `RemoveOldest` steps, and each of these steps again removes the
entry touched least recently, the added key counting as touched by this call.  On a cache
with room for two entries the calls `Add(a), Add(b), Get(a), Add(c)` evict `b` and keep
`a`. -/
theorem TimedReach.evicts_least_recent {c : Cache α} {t : Nat} {τ : String → Nat}
    (h : TimedReach c t τ) :
    (∀ e, list.Back c.ll = some e →
      c.ll = c.RemoveOldest.ll ++ [e] ∧
      GoMap.get? c.RemoveOldest.cache e.key = none ∧
      (c.OnEvicted = true → c.RemoveOldest.calls = c.calls ++ [(e.key, e.value)]) ∧
      ∀ x ∈ c.RemoveOldest.ll, τ e.key < τ x.key) ∧
    (∀ key value c1, c.Add key value = some c1 →
      ∃ n, c1 = Cache.RemoveOldest^[n] (c.insert key value)) ∧
    (∀ key value n e,
      list.Back (Cache.RemoveOldest^[n] (c.insert key value)).ll = some e →
      (Cache.RemoveOldest^[n] (c.insert key value)).ll
        = (Cache.RemoveOldest^[n] (c.insert key value)).RemoveOldest.ll ++ [e] ∧
      GoMap.get? (Cache.RemoveOldest^[n] (c.insert key value)).RemoveOldest.cache e.key
        = none ∧
      ∀ x ∈ (Cache.RemoveOldest^[n] (c.insert key value)).RemoveOldest.ll,
        touchAt τ key (t + 1) e.key < touchAt τ key (t + 1) x.key) ∧
    ((New 4 true : Cache Sized).run abcTrace = some abcCache ∧
      abcCache.calls = [("b", { len := 1 })] ∧
      abcCache.Holds "a" { len := 1 } ∧ ∀ v, ¬ abcCache.Holds "b" v) := by
  obtain ⟨hinv, ho, hb⟩ := h.ordered
  refine ⟨?_, ?_, ?_, ?_⟩
  · intro e he
    exact hinv.removeOldest_least ho he
  · intro key value c1 hadd
    exact Cache.evictLoop_iterate _ _ _ hadd
  · intro key value n e he
    obtain ⟨ho2, _⟩ := hinv.insert_ordered ho hb key value
    obtain ⟨hinv3, hsub⟩ := (hinv.insert key value).iterate_removeOldest n
    obtain ⟨h1, h2, _, h4⟩ :=
      hinv3.removeOldest_least (List.Pairwise.sublist hsub ho2) he
    exact ⟨h1, h2, h4⟩
  · refine ⟨by decide, rfl, ⟨{ addr := 0, key := "a", value := { len := 1 } },
      by decide, rfl, rfl⟩, ?_⟩
    rintro v ⟨x, hx, hxk, _⟩
    revert hxk
    have : ∀ y ∈ abcCache.ll, y.key ≠ "b" := by decide
    exact this x hx

theorem abCache_timed : TimedReach abCache 2 abTouch :=
  TimedReach.add aCache abCache 1 (touchAt (fun _ => 0) "a" 1) "b" { len := 1 }
    (TimedReach.add (New 4 true) aCache 0 (fun _ => 0) "a" { len := 1 }
      (TimedReach.new 4 true) (by decide))
    (by decide)

/-- After `Add(a), Add(b)` the entry removed by `RemoveOldest` is `a`, touched at time 1,
and `b`, touched at time 2, stays. -/
theorem TimedReach.evicts_least_recent_witness :
    abCache.ll
        = abCache.RemoveOldest.ll ++ [{ addr := 0, key := "a", value := { len := 1 } }] ∧
      GoMap.get? abCache.RemoveOldest.cache "a" = none ∧
      (abCache.OnEvicted = true →
        abCache.RemoveOldest.calls = abCache.calls ++ [("a", { len := 1 })]) ∧
      ∀ x ∈ abCache.RemoveOldest.ll, abTouch "a" < abTouch x.key :=
  (TimedReach.evicts_least_recent abCache_timed).1
    { addr := 0, key := "a", value := { len := 1 } } (by decide)

end lru

/-! ## The cache group -/

namespace lru

variable {α : Type} [Value α]

theorem New_get {β : Type} (maxBytes : Int) (onEvicted : Bool) (k : String) :
    (New maxBytes onEvicted : Cache β).Get k = (New maxBytes onEvicted, none) := rfl

theorem New_add (maxBytes : Int) (onEvicted : Bool) (k : String) (v : α)
    (hv : 0 ≤ Value.Len v)
    (hfit : maxBytes = 0 ∨ Int.ofNat k.utf8ByteSize + Value.Len v ≤ maxBytes) :
    (New maxBytes onEvicted : Cache α).Add k v = some (firstEntry maxBytes onEvicted k v) := by
  have hins : (New maxBytes onEvicted : Cache α).insert k v
      = firstEntry maxBytes onEvicted k v := rfl
  unfold Cache.Add
  rw [hins]
  apply Cache.evictLoop_of_not_over
  rw [Cache.overBudget_false_iff]
  rcases hfit with h | h
  · exact Or.inl h
  · right
    show wrap64 (0 + wrap64 (Int.ofNat k.utf8ByteSize + Value.Len v)) ≤ maxBytes
    have hk : (0 : Int) ≤ Int.ofNat k.utf8ByteSize := Int.ofNat_zero_le _
    have hle := @wrap64_le_self (Int.ofNat k.utf8ByteSize + Value.Len v) (by omega)
    rw [wrap64_add_wrap, Int.zero_add]
    omega

theorem firstEntry_get (maxBytes : Int) (onEvicted : Bool) (k : String) (v : α) :
    (firstEntry maxBytes onEvicted k v).Get k
      = (firstEntry maxBytes onEvicted k v, some v) := by
  simp [firstEntry, Cache.Get, GoMap.get?, list.find, list.MoveToFront, list.Remove]

end lru

namespace geecache

variable {ε : Type}

theorem copy_replicate (b : List UInt8) : copy (List.replicate b.length 0) b = b := by
  simp [copy]

theorem cloneBytes_eq (b : List UInt8) : cloneBytes b = b := copy_replicate b

/-- C8: on a group fresh from `NewGroup`, for a non-empty key `k` for which the getter
returns bytes `b` that fit the capacity, the first `Get(k)` returns a `ByteView` of `b`
after exactly one call of the getter, and the `Get(k)` that follows returns the same bytes
from the cache, the number of getter calls staying 1. -/
theorem Group.Get_then_cached (groups : GoMap String (geecache.Group ε)) (name : String)
    (cacheBytes : Int) (getter : String → Except ε (List UInt8)) (k : String)
    (b : List UInt8) (hk : k ≠ "") (hload : getter k = Except.ok b)
    (hfit : cacheBytes = 0 ∨ Int.ofNat k.utf8ByteSize + Int.ofNat b.length ≤ cacheBytes) :
    ∃ g reg g1 g2, NewGroup groups name cacheBytes (some getter) = Except.ok (g, reg) ∧
      g.mainCache.lru.ll = [] ∧
      g.Get k = some (g1, { b := b }, none) ∧ getterCalls g1.events = 1 ∧
      g1.Get k = some (g2, { b := b }, none) ∧ getterCalls g2.events = 1 ∧
      g2.events = g1.events ++ [Event.cacheGet k] := by
  have hadd := lru.New_add cacheBytes false k ({ b := b } : ByteView)
    (Int.ofNat_zero_le b.length) hfit
  refine ⟨{ name := name, getter := getter, mainCache := cache.make cacheBytes, events := [] },
    _, { name := name, getter := getter,
         mainCache := { cacheBytes := cacheBytes,
                        lru := lru.firstEntry cacheBytes false k { b := b } },
         events := [Event.cacheGet k, Event.getterGet k, Event.cacheAdd k] },
    { name := name, getter := getter,
      mainCache := { cacheBytes := cacheBytes,
                     lru := lru.firstEntry cacheBytes false k { b := b } },
      events := [Event.cacheGet k, Event.getterGet k, Event.cacheAdd k, Event.cacheGet k] },
    rfl, rfl, ?_, ?_, ?_, ?_, ?_⟩
  · simp only [Group.Get, hk, if_false, cache.get, cache.make, lru.New_get, Group.load,
      Group.getLocally, hload, cloneBytes_eq, Group.populateCache, cache.add, hadd,
      Option.map_some', List.nil_append, List.cons_append]
  · simp [getterCalls]
  · simp only [Group.Get, hk, if_false, cache.get, lru.firstEntry_get, List.cons_append,
      List.nil_append]
  · simp [getterCalls]
  · rfl

/-- The example server: capacity 2048, key `Tom`, score `630`. -/
theorem Group.Get_then_cached_witness :
    ∃ g reg g1 g2, NewGroup ([] : GoMap String (geecache.Group String)) "scores" 2048
        (some scoreDb) = Except.ok (g, reg) ∧
      g.mainCache.lru.ll = [] ∧
      g.Get "Tom" = some (g1, { b := [54, 51, 48] }, none) ∧ getterCalls g1.events = 1 ∧
      g1.Get "Tom" = some (g2, { b := [54, 51, 48] }, none) ∧ getterCalls g2.events = 1 ∧
      g2.events = g1.events ++ [Event.cacheGet "Tom"] :=
  Group.Get_then_cached [] "scores" 2048 scoreDb "Tom" [54, 51, 48] (by decide) rfl
    (Or.inr (by decide))

end geecache

namespace geecache

variable {ε : Type}

/-- One failing `Get`: the getter error comes back as it is with an empty `ByteView`, and
the group only records the probe of the cache and the call of the getter. -/
theorem Group.Get_error_step (g : geecache.Group ε) (k : String) (e : ε) (hk : k ≠ "")
    (hmiss : GoMap.get? g.mainCache.lru.cache k = none)
    (herr : g.getter k = Except.error e) :
    g.Get k = some ({ g with events := g.events ++ [Event.cacheGet k, Event.getterGet k] },
      { b := [] }, some (GoError.fromGetter e)) := by
  have hget : g.mainCache.lru.Get k = (g.mainCache.lru, none) := lru.Cache.Get_miss hmiss
  simp only [Group.Get, hk, if_false, cache.get, hget, Group.load, Group.getLocally, herr,
    List.append_assoc, List.singleton_append]

theorem getterCalls_append (l1 l2 : List Event) :
    getterCalls (l1 ++ l2) = getterCalls l1 + getterCalls l2 := by
  simp [getterCalls]

/-- C9: when a non-empty key `k` is not in the main cache and the getter fails on `k` with
error `e`, `Get(k)` returns `e` itself with an empty `ByteView` and leaves the main cache
as it was; hence each of `n` successive calls `Get(k)` calls the getter once more and
returns the same error. -/
theorem Group.Get_load_error (g : geecache.Group ε) (k : String) (e : ε) (hk : k ≠ "")
    (hmiss : GoMap.get? g.mainCache.lru.cache k = none)
    (herr : g.getter k = Except.error e) :
    (∃ g1, g.Get k = some (g1, { b := [] }, some (GoError.fromGetter e)) ∧
      g1.mainCache = g.mainCache ∧
      GoMap.get? g1.mainCache.lru.cache k = none ∧
      getterCalls g1.events = getterCalls g.events + 1) ∧
    ∀ n, ∃ gn, g.GetTimes k n
        = some (gn, List.replicate n ({ b := [] }, some (GoError.fromGetter e))) ∧
      gn.mainCache = g.mainCache ∧
      getterCalls gn.events = getterCalls g.events + n := by
  constructor
  · refine ⟨_, Group.Get_error_step g k e hk hmiss herr, rfl, hmiss, ?_⟩
    simp [getterCalls]
  · intro n
    induction n generalizing g with
    | zero => exact ⟨g, rfl, rfl, rfl⟩
    | succ n ih =>
      obtain ⟨gn, h1, h2, h3⟩ :=
        ih { g with events := g.events ++ [Event.cacheGet k, Event.getterGet k] } hmiss herr
      refine ⟨gn, ?_, h2, ?_⟩
      · simp only [Group.GetTimes, Group.Get_error_step g k e hk hmiss herr, h1,
          List.replicate_succ]
      · rw [h3, getterCalls_append]
        simp [getterCalls]
        omega

/-- The example group before any request, capacity 2048, asked three times for a key
that its loader does not know. -/
theorem Group.Get_load_error_witness :
    ∃ gn, (geecache.Group.mk "scores" scoreDb (cache.make 2048) []).GetTimes "Missing" 3
        = some (gn, List.replicate 3
            ({ b := [] }, some (GoError.fromGetter "Missing not exist"))) ∧
      gn.mainCache = cache.make 2048 ∧
      getterCalls gn.events = getterCalls [] + 3 :=
  (Group.Get_load_error (geecache.Group.mk "scores" scoreDb (cache.make 2048) []) "Missing"
    "Missing not exist" (by decide) rfl rfl).2 3

/-- C10: `Get` of the empty key returns an error built in `Get` and an empty `ByteView`
and leaves the group as it was, no probe of the main cache and no call of the getter being
recorded; for a non-empty key an error returned by `Get` is never that one but the error
returned by the getter for this key. -/
theorem Group.Get_empty_key (g : geecache.Group ε) :
    g.Get "" = some (g, { b := [] }, some (GoError.errorf "key is required")) ∧
    ∀ k, k ≠ "" → ∀ g1 v err, g.Get k = some (g1, v, some err) →
      (∀ msg, err ≠ GoError.errorf msg) ∧
      ∃ e, g.getter k = Except.error e ∧ err = GoError.fromGetter e := by
  constructor
  · simp [Group.Get]
  · intro k hk g1 v err hget
    have hex : ∃ e, g.getter k = Except.error e ∧ err = GoError.fromGetter e := by
      simp only [Group.Get, hk, if_false, Group.load, Group.getLocally] at hget
      split at hget
      · simp at hget
      · split at hget
        · rename_i e he
          simp only [Option.some.injEq, Prod.mk.injEq] at hget
          exact ⟨e, he, hget.2.2.symm⟩
        · simp only [Option.map_eq_some'] at hget
          obtain ⟨_, _, h⟩ := hget
          simp at h
    obtain ⟨e, he, herr⟩ := hex
    refine ⟨?_, e, he, herr⟩
    intro msg hmsg
    rw [herr] at hmsg
    cases hmsg

/-- The example group asked for the empty key and for a key that its loader does not
know. -/
theorem Group.Get_empty_key_witness :
    (geecache.Group.mk "scores" scoreDb (cache.make 2048) []).Get ""
      = some (geecache.Group.mk "scores" scoreDb (cache.make 2048) [], { b := [] },
          some (GoError.errorf "key is required")) ∧
    (∀ msg, GoError.fromGetter "Missing not exist" ≠ GoError.errorf msg) ∧
    ∃ e, scoreDb "Missing" = Except.error e ∧
      GoError.fromGetter "Missing not exist" = GoError.fromGetter e :=
  ⟨(Group.Get_empty_key (geecache.Group.mk "scores" scoreDb (cache.make 2048) [])).1,
    (Group.Get_empty_key (geecache.Group.mk "scores" scoreDb (cache.make 2048) [])).2
      "Missing" (by decide) _ _ _
      (Group.Get_error_step (geecache.Group.mk "scores" scoreDb (cache.make 2048) [])
        "Missing" "Missing not exist" (by decide) rfl rfl)⟩

end geecache

/-! ## Adequacy of the iteration bounds and of the reading through the list -/

theorem searchLoop_fuel (f : Nat → Bool) :
    ∀ fuel fuel2 i j, j - i ≤ fuel → j - i ≤ fuel2 →
      searchLoop f fuel i j = searchLoop f fuel2 i j := by
  intro fuel
  induction fuel with
  | zero =>
    intro fuel2 i j h1 _
    have hij : ¬ i < j := by omega
    cases fuel2 with
    | zero => rfl
    | succ n => simp [searchLoop, hij]
  | succ fuel ih =>
    intro fuel2 i j h1 h2
    by_cases hij : i < j
    · cases fuel2 with
      | zero => omega
      | succ n =>
        simp only [searchLoop, hij, if_true]
        cases f ((i + j) / 2) with
        | false =>
          simp only [Bool.not_false, if_true]
          exact ih n _ _ (by omega) (by omega)
        | true =>
          simp only [Bool.not_true, Bool.false_eq_true, if_false]
          exact ih n _ _ (by omega) (by omega)
    · cases fuel2 with
      | zero => simp [searchLoop, hij]
      | succ n => simp [searchLoop, hij]

namespace lru

variable {α : Type} [Value α]

theorem Cache.RemoveOldest_length (c : Cache α) :
    c.RemoveOldest.ll.length = c.ll.length - 1 := by
  rcases c.ll_cases with hnil | ⟨l1, e, hl⟩
  · rw [Cache.RemoveOldest_empty hnil, hnil]; rfl
  · have hb : list.Back c.ll = some e := by
      rw [hl]; exact List.getLast?_concat _
    have hmem : e ∈ c.ll := by rw [hl]; simp
    simp only [Cache.RemoveOldest, hb, list.Remove]
    rw [List.length_eraseP_of_mem hmem (by simp)]

theorem Cache.evictLoop_some_stable :
    ∀ (fuel k : Nat) (c c2 : Cache α), Cache.evictLoop fuel c = some c2 →
      Cache.evictLoop (fuel + k) c = some c2 := by
  intro fuel
  induction fuel with
  | zero =>
    intro k c c2 h
    unfold Cache.evictLoop at h
    split at h
    · cases h
    · cases h
      exact Cache.evictLoop_of_not_over (by simpa using ‹¬ c.overBudget = true›) _
  | succ fuel ih =>
    intro k c c2 h
    unfold Cache.evictLoop at h
    have hk : fuel + 1 + k = (fuel + k) + 1 := by omega
    rw [hk]
    unfold Cache.evictLoop
    split at h
    · rename_i hov
      rw [if_pos hov]
      exact ih k _ _ h
    · rename_i hov
      rw [if_neg hov]
      exact h

theorem Cache.evictLoop_empty_none {c : Cache α} (hnil : c.ll = [])
    (hov : c.overBudget = true) : ∀ fuel, Cache.evictLoop fuel c = none := by
  intro fuel
  induction fuel with
  | zero => simp [Cache.evictLoop, hov]
  | succ n ih =>
    unfold Cache.evictLoop
    rw [if_pos hov, Cache.RemoveOldest_empty hnil]
    exact ih

/-- When the eviction loop has not ended after one iteration per entry it never ends. -/
theorem Cache.evictLoop_none_stable :
    ∀ (fuel : Nat) (c : Cache α), c.ll.length ≤ fuel → Cache.evictLoop fuel c = none →
      ∀ fuel2, Cache.evictLoop fuel2 c = none := by
  intro fuel
  induction fuel with
  | zero =>
    intro c hlen h
    have hnil : c.ll = [] := List.length_eq_zero.mp (Nat.le_zero.mp hlen)
    have hov : c.overBudget = true := by
      unfold Cache.evictLoop at h
      split at h
      · assumption
      · cases h
    exact Cache.evictLoop_empty_none hnil hov
  | succ fuel ih =>
    intro c hlen h
    unfold Cache.evictLoop at h
    split at h
    · rename_i hov
      have hrec := ih c.RemoveOldest (by rw [Cache.RemoveOldest_length]; omega) h
      intro fuel2
      cases fuel2 with
      | zero => simp [Cache.evictLoop, hov]
      | succ n =>
        unfold Cache.evictLoop
        rw [if_pos hov]
        exact hrec n
    · cases h

/-- `Add` returns `c2` exactly when the eviction loop, given enough iterations, ends in
`c2`. -/
theorem Cache.Add_eq_some_iff (c c2 : Cache α) (k : String) (v : α) :
    c.Add k v = some c2 ↔ ∃ fuel, Cache.evictLoop fuel (c.insert k v) = some c2 := by
  constructor
  · intro h
    exact ⟨_, h⟩
  · rintro ⟨fuel, h⟩
    unfold Cache.Add
    cases hL : Cache.evictLoop (c.insert k v).ll.length (c.insert k v) with
    | none =>
      have := Cache.evictLoop_none_stable _ _ (le_refl _) hL fuel
      rw [this] at h
      cases h
    | some c3 =>
      have h1 := Cache.evictLoop_some_stable _ (c.insert k v).ll.length _ _ h
      have h2 := Cache.evictLoop_some_stable _ fuel _ _ hL
      rw [Nat.add_comm] at h2
      rw [h1] at h2
      exact h2.symm

/-- `Add` does not return exactly when the eviction loop never ends. -/
theorem Cache.Add_eq_none_iff (c : Cache α) (k : String) (v : α) :
    c.Add k v = none ↔ ∀ fuel, Cache.evictLoop fuel (c.insert k v) = none := by
  constructor
  · intro h
    exact Cache.evictLoop_none_stable _ _ (le_refl _) h
  · intro h
    exact h _

/-- In a reachable state every address in the lookup table is the address of an element
of the list, so the reads through the list in `Get` and `Add` always succeed. -/
theorem Reachable.table_linked {c : Cache α} (h : Reachable c) {k : String} {a : Nat}
    (hg : GoMap.get? c.cache k = some a) :
    ∃ e, list.find c.ll a = some e ∧ e.key = k := by
  obtain ⟨e, he, hk, hea⟩ := (h.inv.table k a).mp hg
  exact ⟨e, hea ▸ list.find_of_mem h.inv.addrNodup he, hk⟩

end lru

/-! ## Ring positions and their owners -/

namespace consistentHash

/-- The virtual positions of a node only depend on the hash function and the number of
replicas. -/
theorem Map.virtualHashes_congr {m1 m2 : Map} (hf : m1.hashFunc = m2.hashFunc)
    (hr : m1.virtualNodeReplicas = m2.virtualNodeReplicas) (id : String) :
    m1.virtualHashes id = m2.virtualHashes id := by
  unfold Map.virtualHashes Map.hashOf
  rw [hf, hr]

theorem lastOwner_congr {m1 m2 : Map} (hf : m1.hashFunc = m2.hashFunc)
    (hr : m1.virtualNodeReplicas = m2.virtualNodeReplicas) (procs : List String) (h : Int) :
    lastOwner m1 procs h = lastOwner m2 procs h := by
  unfold lastOwner
  have : (fun id => decide (h ∈ m1.virtualHashes id))
      = (fun id => decide (h ∈ m2.virtualHashes id)) := by
    funext id
    rw [Map.virtualHashes_congr hf hr]
  rw [this]

theorem lastOwner_append (m : Map) (l1 l2 : List String) (h : Int) :
    lastOwner m (l1 ++ l2) h = (lastOwner m l2 h).or (lastOwner m l1 h) := by
  unfold lastOwner
  rw [List.filter_append, List.getLast?_append]

theorem lastOwner_mem {m : Map} {procs : List String} {h : Int} {id : String}
    (hl : lastOwner m procs h = some id) : id ∈ procs ∧ h ∈ m.virtualHashes id := by
  unfold lastOwner at hl
  have hmem := List.mem_of_getLast?_eq_some hl
  rw [List.mem_filter] at hmem
  exact ⟨hmem.1, by simpa using hmem.2⟩

theorem lastOwner_isSome {m : Map} {procs : List String} {h : Int} {id : String}
    (hid : id ∈ procs) (hh : h ∈ m.virtualHashes id) :
    ∃ id2, lastOwner m procs h = some id2 := by
  unfold lastOwner
  have hmem : id ∈ procs.filter (fun id => decide (h ∈ m.virtualHashes id)) := by
    rw [List.mem_filter]
    exact ⟨hid, by simpa using hh⟩
  cases hl : (procs.filter (fun id => decide (h ∈ m.virtualHashes id))).getLast? with
  | some id2 => exact ⟨id2, rfl⟩
  | none =>
    rw [List.getLast?_eq_none_iff] at hl
    rw [hl] at hmem
    cases hmem

/-- Effect of the inner loop of `Add` for one node. -/
theorem Map.addNode_spec (m : Map) (id : String) :
    (m.addNode id).hashFunc = m.hashFunc ∧
    (m.addNode id).virtualNodeReplicas = m.virtualNodeReplicas ∧
    (m.addNode id).hashRing = m.hashRing ++ m.virtualHashes id ∧
    ∀ x, GoMap.get? (m.addNode id).nodeMap x
      = (lastOwner m [id] x).or (GoMap.get? m.nodeMap x) := by
  obtain ⟨h1, h2, h3, h4⟩ :=
    Map.foldl_addVirtual id (List.range m.virtualNodeReplicas.toNat) m
  refine ⟨h1, h2, h3, ?_⟩
  intro x
  have := h4 x
  unfold Map.addNode
  rw [this]
  unfold lastOwner Map.virtualHashes
  by_cases hx : x ∈ List.map (fun i => m.hashOf (toString i ++ id))
      (List.range m.virtualNodeReplicas.toNat)
  · simp [hx]
  · simp [hx]

/-- Effect of the outer loop of `Add`. -/
theorem Map.foldl_addNode_spec (keys : List String) :
    ∀ m : Map,
      (keys.foldl Map.addNode m).hashFunc = m.hashFunc ∧
      (keys.foldl Map.addNode m).virtualNodeReplicas = m.virtualNodeReplicas ∧
      (keys.foldl Map.addNode m).hashRing = m.hashRing ++ keys.flatMap m.virtualHashes ∧
      ∀ x, GoMap.get? (keys.foldl Map.addNode m).nodeMap x
        = (lastOwner m keys x).or (GoMap.get? m.nodeMap x) := by
  induction keys with
  | nil =>
    intro m
    simp [lastOwner]
  | cons id keys ih =>
    intro m
    obtain ⟨g1, g2, g3, g4⟩ := Map.addNode_spec m id
    obtain ⟨h1, h2, h3, h4⟩ := ih (m.addNode id)
    have hvh : (m.addNode id).virtualHashes = m.virtualHashes := by
      funext k; exact Map.virtualHashes_congr g1 g2 k
    simp only [List.foldl_cons]
    refine ⟨h1.trans g1, h2.trans g2, ?_, ?_⟩
    · rw [h3, g3, hvh, List.flatMap_cons, List.append_assoc]
    · intro x
      rw [h4 x, g4 x, lastOwner_congr g1 g2]
      have : id :: keys = [id] ++ keys := rfl
      rw [this, lastOwner_append, Option.or_assoc]

/-- Effect of one call of `Add`. -/
theorem Map.Add_spec (m : Map) (keys : List String) :
    (m.Add keys).hashFunc = m.hashFunc ∧
    (m.Add keys).virtualNodeReplicas = m.virtualNodeReplicas ∧
    (m.Add keys).hashRing.Perm (m.hashRing ++ keys.flatMap m.virtualHashes) ∧
    ∀ x, GoMap.get? (m.Add keys).nodeMap x
      = (lastOwner m keys x).or (GoMap.get? m.nodeMap x) := by
  obtain ⟨h1, h2, h3, h4⟩ := Map.foldl_addNode_spec keys m
  refine ⟨h1, h2, ?_, h4⟩
  show (sortInts (keys.foldl Map.addNode m).hashRing).Perm _
  rw [h3]
  exact sortInts_perm _

/-- Effect of a sequence of calls of `Add`: the ring is a rearrangement of the old ring
and all the virtual positions of the nodes processed, and each position is owned by the
node processed last among those having a virtual node there. -/
theorem Map.AddAll_spec (calls : List (List String)) :
    ∀ m : Map,
      (m.AddAll calls).hashFunc = m.hashFunc ∧
      (m.AddAll calls).virtualNodeReplicas = m.virtualNodeReplicas ∧
      (m.AddAll calls).hashRing.Perm (m.hashRing ++ calls.flatten.flatMap m.virtualHashes) ∧
      ∀ x, GoMap.get? (m.AddAll calls).nodeMap x
        = (lastOwner m calls.flatten x).or (GoMap.get? m.nodeMap x) := by
  induction calls with
  | nil =>
    intro m
    simp [Map.AddAll, lastOwner]
  | cons keys calls ih =>
    intro m
    obtain ⟨g1, g2, g3, g4⟩ := Map.Add_spec m keys
    obtain ⟨h1, h2, h3, h4⟩ := ih (m.Add keys)
    have hvh : (m.Add keys).virtualHashes = m.virtualHashes := by
      funext k; exact Map.virtualHashes_congr g1 g2 k
    have hall : m.AddAll (keys :: calls) = (m.Add keys).AddAll calls := rfl
    rw [hall]
    refine ⟨h1.trans g1, h2.trans g2, ?_, ?_⟩
    · rw [hvh] at h3
      refine h3.trans ?_
      rw [List.flatten_cons, List.flatMap_append, ← List.append_assoc]
      exact List.Perm.append_right _ g3
    · intro x
      rw [h4 x, g4 x, lastOwner_congr g1 g2, List.flatten_cons, lastOwner_append,
        Option.or_assoc]

end consistentHash

namespace consistentHash

/-- C19: after any sequence of `Add` calls on a new `Map`, `nodeMap` maps each ring
position `h` to the node id processed last (latest call, latest argument) among the ids
having a virtual node `strconv.Itoa(i) + id`, `0 <= i < replicas`, that hashes to `h`, so
that the mapping of an earlier node for a colliding hash is overwritten; the value `h`
occurs in `hashRing` once per virtual node inserted at `h`. -/
theorem Map.AddAll_last_wins (replicas : Int) (fn : Option HashFunc)
    (calls : List (List String)) (h : Int) :
    GoMap.get? ((NewMap replicas fn).AddAll calls).nodeMap h
      = lastOwner (NewMap replicas fn) calls.flatten h ∧
    (∀ l1 id l2, calls.flatten = l1 ++ id :: l2 →
      h ∈ (NewMap replicas fn).virtualHashes id →
      (∀ x ∈ l2, h ∉ (NewMap replicas fn).virtualHashes x) →
      GoMap.get? ((NewMap replicas fn).AddAll calls).nodeMap h = some id) ∧
    ((NewMap replicas fn).AddAll calls).hashRing.count h
      = (calls.flatten.flatMap (NewMap replicas fn).virtualHashes).count h := by
  obtain ⟨_, _, h3, h4⟩ := Map.AddAll_spec calls (NewMap replicas fn)
  have hget : GoMap.get? ((NewMap replicas fn).AddAll calls).nodeMap h
      = lastOwner (NewMap replicas fn) calls.flatten h := by
    rw [h4 h]
    show (lastOwner (NewMap replicas fn) calls.flatten h).or none = _
    rw [Option.or_none]
  refine ⟨hget, ?_, ?_⟩
  · intro l1 id l2 hsplit hid hrest
    rw [hget, hsplit]
    have hcons : l1 ++ id :: l2 = l1 ++ ([id] ++ l2) := rfl
    rw [hcons, lastOwner_append, lastOwner_append]
    have h2 : lastOwner (NewMap replicas fn) l2 h = none := by
      unfold lastOwner
      rw [List.getLast?_eq_none_iff, List.filter_eq_nil_iff]
      intro x hx
      simpa using hrest x hx
    have h1 : lastOwner (NewMap replicas fn) [id] h = some id := by
      unfold lastOwner
      simp [hid]
    rw [h2, h1]
    rfl
  · have := h3.count_eq h
    rw [this]
    show ([] ++ _ : List Int).count h = _
    rw [List.nil_append]

/-- Two calls on a ring of two replicas under `lengthHash`: `a` and `c` both have their
virtual nodes at position 20, and `c`, processed last, owns it. -/
theorem Map.AddAll_last_wins_witness :
    GoMap.get? ((NewMap 2 (some lengthHash)).AddAll [["a"], ["bbb", "c"]]).nodeMap 20
      = some "c" :=
  (Map.AddAll_last_wins 2 (some lengthHash) [["a"], ["bbb", "c"]] 20).2.1
    ["a", "bbb"] "c" [] (by decide) (by decide) (by decide)

/-- Every ring position of a map built from a new one is owned by one of the nodes
processed. -/
theorem Map.AddAll_owner_mem (replicas : Int) (fn : Option HashFunc)
    (calls : List (List String)) {r : Int}
    (hr : r ∈ ((NewMap replicas fn).AddAll calls).hashRing) :
    ∃ id ∈ calls.flatten, ((NewMap replicas fn).AddAll calls).nodeAt r = id := by
  obtain ⟨_, _, h3, h4⟩ := Map.AddAll_spec calls (NewMap replicas fn)
  have hmem := h3.mem_iff.mp hr
  have hmem2 : r ∈ calls.flatten.flatMap (NewMap replicas fn).virtualHashes := by
    simpa [NewMap] using hmem
  obtain ⟨id, hid, hrid⟩ := List.mem_flatMap.mp hmem2
  obtain ⟨id2, hl⟩ := lastOwner_isSome hid hrid
  refine ⟨id2, (lastOwner_mem hl).1, ?_⟩
  unfold Map.nodeAt
  rw [h4 r, hl]
  rfl

/-- C15: `Get` on a new `Map` returns the empty string, and so it does after `Add` calls
that contributed no virtual node because no node id was passed or `replicas <= 0`; on a
ring built with `replicas >= 1` from at least one node id, all ids being non-empty, `Get`
never returns the empty string. -/
theorem Map.Get_sentinel (replicas : Int) (fn : Option HashFunc)
    (calls : List (List String)) (key : String) :
    (NewMap replicas fn).Get key = "" ∧
    ((replicas ≤ 0 ∨ calls.flatten = []) →
      ((NewMap replicas fn).AddAll calls).hashRing = [] ∧
      ((NewMap replicas fn).AddAll calls).Get key = "") ∧
    ((1 ≤ replicas ∧ calls.flatten ≠ [] ∧ ∀ id ∈ calls.flatten, id ≠ "") →
      ((NewMap replicas fn).AddAll calls).hashRing ≠ [] ∧
      ((NewMap replicas fn).AddAll calls).Get key ≠ "") := by
  obtain ⟨_, _, h3, _⟩ := Map.AddAll_spec calls (NewMap replicas fn)
  have h3b : ((NewMap replicas fn).AddAll calls).hashRing.Perm
      (calls.flatten.flatMap (NewMap replicas fn).virtualHashes) := by
    simpa [NewMap] using h3
  refine ⟨Map.Get_empty _ rfl _, ?_, ?_⟩
  · intro hcase
    have hnil : calls.flatten.flatMap (NewMap replicas fn).virtualHashes = [] := by
      rcases hcase with hrep | hno
      · rw [List.flatMap_eq_nil_iff]
        intro id _
        have : replicas.toNat = 0 := Int.toNat_eq_zero.mpr hrep
        simp [Map.virtualHashes, NewMap, this]
      · rw [hno]; rfl
    rw [hnil] at h3b
    have hring := h3b.eq_nil
    exact ⟨hring, Map.Get_empty _ hring _⟩
  · rintro ⟨hrep, hne, hids⟩
    have hring : ((NewMap replicas fn).AddAll calls).hashRing ≠ [] := by
      intro hnil
      rw [hnil] at h3b
      have hflat := h3b.symm.eq_nil
      obtain ⟨id, hid⟩ := List.exists_mem_of_ne_nil _ hne
      have hvh := List.flatMap_eq_nil_iff.mp hflat id hid
      have hpos : 0 < replicas.toNat := by omega
      simp only [Map.virtualHashes, NewMap, List.map_eq_nil_iff, List.range_eq_nil] at hvh
      omega
    refine ⟨hring, ?_⟩
    have hbuilt : ((NewMap replicas fn).AddAll calls).hashRing.Sorted (fun a b => a ≤ b) := by
      have : ∀ (cs : List (List String)) (m : Map), m.Built → (m.AddAll cs).Built := by
        intro cs
        induction cs with
        | nil => intro m hm; exact hm
        | cons ks cs ih => intro m hm; exact ih (m.Add ks) (Map.Built.add m ks hm)
      exact (this calls _ (Map.Built.new replicas fn)).sorted
    obtain ⟨r, hsucc, hget⟩ := Map.Get_isSuccessor _ hbuilt hring key
    obtain ⟨id, hid, hnode⟩ := Map.AddAll_owner_mem replicas fn calls hsucc.1
    rw [hget, hnode]
    exact hids id hid

/-- No node passed to `Add`, and the ring of `exampleRing` built from `a` and `bbb`. -/
theorem Map.Get_sentinel_witness :
    (((NewMap 2 (some lengthHash)).AddAll [[]]).hashRing = [] ∧
      ((NewMap 2 (some lengthHash)).AddAll [[]]).Get "xx" = "") ∧
    (((NewMap 2 (some lengthHash)).AddAll [["a", "bbb"]]).hashRing ≠ [] ∧
      ((NewMap 2 (some lengthHash)).AddAll [["a", "bbb"]]).Get "xx" ≠ "") :=
  ⟨(Map.Get_sentinel 2 (some lengthHash) [[]] "xx").2.1 (Or.inr rfl),
    (Map.Get_sentinel 2 (some lengthHash) [["a", "bbb"]] "xx").2.2
      ⟨by decide, by decide, by decide⟩⟩

end consistentHash

/-! ## The default hash function -/

namespace consistentHash

/-- The standard check value of CRC-32: the checksum of `123456789` is `0xCBF43926`. -/
theorem crc32ChecksumIEEE_check : crc32ChecksumIEEE "123456789" = 0xCBF43926 := by
  decide!

end consistentHash

/-! ## The pool of peers -/

namespace geecache

theorem string_append_right_cancel {a b c : String} (h : a ++ c = b ++ c) : a = b := by
  have hd : (a ++ c).data = (b ++ c).data := by rw [h]
  rw [String.data_append, String.data_append] at hd
  exact String.ext (List.append_cancel_right hd)

/-- The table of getters built by the loop of `Set`. -/
theorem foldl_set_getters (bp : String) (nodes : List String) :
    ∀ (acc : GoMap String httpGetter) (n : String),
      GoMap.get? (nodes.foldl
        (fun m node => GoMap.set m node { baseURL := node ++ bp }) acc) n
        = if n ∈ nodes then some { baseURL := n ++ bp } else GoMap.get? acc n := by
  induction nodes with
  | nil => intro acc n; simp
  | cons x xs ih =>
    intro acc n
    simp only [List.foldl_cons]
    rw [ih, GoMap.get?_set]
    by_cases h1 : n ∈ xs
    · simp [h1]
    · by_cases h2 : n = x
      · simp [h2]
      · simp [h1, h2]

theorem HTTPPool.Set_getters (p : HTTPPool) (nodes : List String) (n : String) :
    GoMap.get? (p.Set nodes).httpGetters n
      = if n ∈ nodes then some { baseURL := n ++ p.basePath } else none := by
  have := foldl_set_getters p.basePath nodes [] n
  exact this

/-- The owner of a key on the ring built by `Set` is one of the nodes passed, or the empty
string when the ring is empty. -/
theorem Set_owner (nodes : List String) (key : String) :
    ((consistentHash.NewMap defaultReplicas none).Add nodes).Get key = "" ∨
      ((consistentHash.NewMap defaultReplicas none).Add nodes).Get key ∈ nodes := by
  have hs : (consistentHash.NewMap defaultReplicas none).hashRing.Sorted
      (fun a b => a ≤ b) := (consistentHash.Map.Built.new _ _).sorted
  rcases consistentHash.Map.Add_owner _ hs nodes key with h | h
  · left
    rw [h]
    exact consistentHash.Map.Get_empty _ rfl _
  · exact Or.inr h

/-- C11: after `Set(nodes...)`, `SelectNode(key)` returns `(client, true)` exactly when the
ring owner of `key` is non-empty and differs from `p.self`, the client then being the
`httpGetter` of that owner with `baseURL = owner + basePath`; otherwise it returns
`(nil, false)`.  A client returned is never the one of the pool's own address. -/
theorem HTTPPool.SelectNode_spec (p : HTTPPool) (nodes : List String) (key : String) :
    (((p.Set nodes).owner key ≠ "" ∧ (p.Set nodes).owner key ≠ p.self) →
      (p.Set nodes).SelectNode key
        = Except.ok (some { baseURL := (p.Set nodes).owner key ++ p.basePath }, true)) ∧
    (¬ ((p.Set nodes).owner key ≠ "" ∧ (p.Set nodes).owner key ≠ p.self) →
      (p.Set nodes).SelectNode key = Except.ok (none, false)) ∧
    (∀ client, (p.Set nodes).SelectNode key = Except.ok (client, true) →
      client = some { baseURL := (p.Set nodes).owner key ++ p.basePath } ∧
      (p.Set nodes).owner key ≠ "" ∧ (p.Set nodes).owner key ≠ p.self ∧
      client ≠ some { baseURL := p.self ++ p.basePath }) := by
  have hown : (p.Set nodes).owner key
      = ((consistentHash.NewMap defaultReplicas none).Add nodes).Get key := rfl
  have hsel : (p.Set nodes).SelectNode key
      = if ((p.Set nodes).owner key ≠ "" ∧ (p.Set nodes).owner key ≠ p.self)
        then Except.ok (GoMap.get? (p.Set nodes).httpGetters ((p.Set nodes).owner key), true)
        else Except.ok (none, false) := rfl
  have hget : (p.Set nodes).owner key ≠ "" →
      GoMap.get? (p.Set nodes).httpGetters ((p.Set nodes).owner key)
        = some { baseURL := (p.Set nodes).owner key ++ p.basePath } := by
    intro hne
    have hmem : (p.Set nodes).owner key ∈ nodes := by
      rcases Set_owner nodes key with h | h
      · rw [hown] at hne; exact absurd h hne
      · rw [hown]; exact h
    rw [HTTPPool.Set_getters, if_pos hmem]
  refine ⟨?_, ?_, ?_⟩
  · intro hc
    rw [hsel, if_pos hc, hget hc.1]
  · intro hc
    rw [hsel, if_neg hc]
  · intro client hres
    rw [hsel] at hres
    by_cases hc : (p.Set nodes).owner key ≠ "" ∧ (p.Set nodes).owner key ≠ p.self
    · rw [if_pos hc, hget hc.1] at hres
      simp only [Except.ok.injEq, Prod.mk.injEq, and_true] at hres
      refine ⟨hres.symm, hc.1, hc.2, ?_⟩
      rw [← hres]
      intro heq
      simp only [Option.some.injEq, httpGetter.mk.injEq] at heq
      exact hc.2 (string_append_right_cancel heq)
    · rw [if_neg hc] at hres
      simp at hres

theorem examplePool_owner : examplePool.owner "kk" = "http://localhost:8002" := by
  decide!

/-- The first example server asked for the key `kk`, which the second server owns. -/
theorem HTTPPool.SelectNode_spec_witness :
    examplePool.SelectNode "kk"
      = Except.ok (some { baseURL := examplePool.owner "kk" ++ "/_cache/" }, true) :=
  (HTTPPool.SelectNode_spec (NewHTTPPool "http://localhost:8001")
    ["http://localhost:8001", "http://localhost:8002"] "kk").1
    ⟨by rw [show ((NewHTTPPool "http://localhost:8001").Set
          ["http://localhost:8001", "http://localhost:8002"]) = examplePool from rfl,
        examplePool_owner]; decide,
      by rw [show ((NewHTTPPool "http://localhost:8001").Set
          ["http://localhost:8001", "http://localhost:8002"]) = examplePool from rfl,
        examplePool_owner]; decide⟩

end geecache

namespace consistentHash

theorem getLast?_filter_eq_some {β : Type} (q : β → Bool) (n : β) :
    ∀ l : List β, (l.filter q).getLast? = some n →
      ∃ l1 l2, l = l1 ++ n :: l2 ∧ q n = true ∧ ∀ x ∈ l2, q x = false := by
  intro l
  induction l using List.reverseRecOn with
  | nil => intro h; simp at h
  | append_singleton l a ih =>
    intro h
    rw [List.filter_append] at h
    by_cases hq : q a = true
    · have hf : [a].filter q = [a] := by simp [hq]
      rw [hf, List.getLast?_concat] at h
      cases h
      exact ⟨l, [], rfl, hq, by simp⟩
    · have hf : [a].filter q = [] := by simp [hq]
      rw [hf, List.append_nil] at h
      obtain ⟨l1, l2, h1, h2, h3⟩ := ih h
      refine ⟨l1, l2 ++ [a], by rw [h1]; simp, h2, ?_⟩
      intro x hx
      rcases List.mem_append.mp hx with hx | hx
      · exact h3 x hx
      · simp only [List.mem_singleton] at hx
        rw [hx]
        simpa using hq

/-- The node `n` owns position `h` exactly when it has a virtual node there and no node
after it in processing order has one. -/
theorem lastOwner_eq_some_iff (m : Map) (procs : List String) (h : Int) (n : String) :
    lastOwner m procs h = some n ↔
      ∃ l1 l2, procs = l1 ++ n :: l2 ∧ h ∈ m.virtualHashes n ∧
        ∀ x ∈ l2, h ∉ m.virtualHashes x := by
  constructor
  · intro hl
    obtain ⟨l1, l2, h1, h2, h3⟩ := getLast?_filter_eq_some _ n procs hl
    refine ⟨l1, l2, h1, by simpa using h2, ?_⟩
    intro x hx
    simpa using h3 x hx
  · rintro ⟨l1, l2, h1, h2, h3⟩
    rw [h1]
    have hcons : l1 ++ n :: l2 = l1 ++ ([n] ++ l2) := rfl
    rw [hcons, lastOwner_append, lastOwner_append]
    have e2 : lastOwner m l2 h = none := by
      unfold lastOwner
      rw [List.getLast?_eq_none_iff, List.filter_eq_nil_iff]
      intro x hx
      simpa using h3 x hx
    have e1 : lastOwner m [n] h = some n := by
      unfold lastOwner
      simp [h2]
    rw [e2, e1]
    rfl

end consistentHash

namespace geecache

theorem Set_nodeMap (nodes : List String) (h : Int) :
    GoMap.get? ((consistentHash.NewMap defaultReplicas none).Add nodes).nodeMap h
      = consistentHash.lastOwner (consistentHash.NewMap defaultReplicas none) nodes h := by
  obtain ⟨_, _, _, h4⟩ :=
    consistentHash.Map.Add_spec (consistentHash.NewMap defaultReplicas none) nodes
  rw [h4 h]
  show (consistentHash.lastOwner _ nodes h).or none = _
  rw [Option.or_none]

/-- C12, as amended: after every call `Set(nodes...)`, also one following an earlier
`Set`, the keys of `httpGetters` are exactly the addresses passed to that call and every
node id among the values of `nodeMap` is one of them; an address passed is among these
values exactly when it has a virtual node at some ring position at which no address later
in the list has one; the ring and the getters are those built from `nodes` alone. -/
theorem HTTPPool.Set_ids (p : HTTPPool) (earlier nodes : List String) :
    ∃ m, (p.Set nodes).nodes = some m ∧
      (∀ n, (∃ g, GoMap.get? (p.Set nodes).httpGetters n = some g) ↔ n ∈ nodes) ∧
      (∀ h n, GoMap.get? m.nodeMap h = some n →
        ∃ g, GoMap.get? (p.Set nodes).httpGetters n = some g) ∧
      (∀ n, (∃ h, GoMap.get? m.nodeMap h = some n) ↔
        ∃ h l1 l2, nodes = l1 ++ n :: l2 ∧ h ∈ m.virtualHashes n ∧
          ∀ x ∈ l2, h ∉ m.virtualHashes x) ∧
      ((p.Set earlier).Set nodes).nodes = some m ∧
      ((p.Set earlier).Set nodes).httpGetters = (p.Set nodes).httpGetters := by
  have hkeys : ∀ n, (∃ g, GoMap.get? (p.Set nodes).httpGetters n = some g) ↔ n ∈ nodes := by
    intro n
    rw [HTTPPool.Set_getters]
    by_cases hn : n ∈ nodes
    · simp [hn]
    · simp [hn]
  obtain ⟨g1, g2, _, _⟩ :=
    consistentHash.Map.Add_spec (consistentHash.NewMap defaultReplicas none) nodes
  have hvh : ((consistentHash.NewMap defaultReplicas none).Add nodes).virtualHashes
      = (consistentHash.NewMap defaultReplicas none).virtualHashes := by
    funext k; exact consistentHash.Map.virtualHashes_congr g1 g2 k
  refine ⟨(consistentHash.NewMap defaultReplicas none).Add nodes, rfl, hkeys, ?_, ?_,
    rfl, rfl⟩
  · intro h n hget
    rw [Set_nodeMap] at hget
    exact (hkeys n).mpr (consistentHash.lastOwner_mem hget).1
  · intro n
    rw [hvh]
    constructor
    · rintro ⟨h, hget⟩
      rw [Set_nodeMap] at hget
      exact ⟨h, (consistentHash.lastOwner_eq_some_iff _ nodes h n).mp hget⟩
    · rintro ⟨h, hrest⟩
      exact ⟨h, by
        rw [Set_nodeMap]
        exact (consistentHash.lastOwner_eq_some_iff _ nodes h n).mpr hrest⟩

theorem collidingNames_hash :
    ∀ q ∈ (List.range 50).zip collidingNames,
      (consistentHash.NewMap defaultReplicas none).hashOf ("0" ++ q.2)
        = (consistentHash.NewMap defaultReplicas none).hashOf
            (toString q.1 ++ "http://localhost:8001") := by
  decide!

theorem collidingNames_index :
    ∀ i ∈ List.range 50, ∃ q ∈ (List.range 50).zip collidingNames, q.1 = i := by
  decide

theorem collidingNames_fresh : "http://localhost:8001" ∉ collidingNames := by
  decide

/-- Every virtual position of the first example server is also a virtual position of one
of the `collidingNames`. -/
theorem collidingNames_cover (h : Int)
    (hh : h ∈ (consistentHash.NewMap defaultReplicas none).virtualHashes
      "http://localhost:8001") :
    ∃ b ∈ collidingNames,
      h ∈ (consistentHash.NewMap defaultReplicas none).virtualHashes b := by
  obtain ⟨i, hi, hih⟩ := List.mem_map.mp hh
  have hi50 : i ∈ List.range 50 := hi
  obtain ⟨q, hq, hqi⟩ := collidingNames_index i hi50
  have hcol := collidingNames_hash q hq
  refine ⟨q.2, (List.of_mem_zip hq).2, ?_⟩
  refine List.mem_map.mpr ⟨0, ?_, ?_⟩
  · show 0 ∈ List.range 50
    decide
  · rw [← hih, ← hqi]
    exact hcol

/-- C12 fails as stated: after `Set(collidingNodes...)` the address `http://localhost:8001`
was passed and is a key of `httpGetters`, but no ring position is mapped to it by
`nodeMap`, each of its 50 virtual nodes being overwritten by a later node. -/
theorem HTTPPool.Set_ids_counterexample :
    "http://localhost:8001" ∈ collidingNodes ∧
    (∃ g, GoMap.get? ((NewHTTPPool "http://localhost:8001").Set collidingNodes).httpGetters
      "http://localhost:8001" = some g) ∧
    ∀ m, ((NewHTTPPool "http://localhost:8001").Set collidingNodes).nodes = some m →
      ∀ h, GoMap.get? m.nodeMap h ≠ some "http://localhost:8001" := by
  have hmem : "http://localhost:8001" ∈ collidingNodes := List.mem_cons_self _ _
  refine ⟨hmem, ?_, ?_⟩
  · rw [HTTPPool.Set_getters, if_pos hmem]
    exact ⟨_, rfl⟩
  · intro m hm h hget
    have hm2 : m = (consistentHash.NewMap defaultReplicas none).Add collidingNodes := by
      have : some ((consistentHash.NewMap defaultReplicas none).Add collidingNodes)
          = some m := hm
      exact (Option.some.inj this).symm
    rw [hm2, Set_nodeMap] at hget
    have hsplit : collidingNodes = ["http://localhost:8001"] ++ collidingNames := rfl
    rw [hsplit, consistentHash.lastOwner_append] at hget
    cases hl : consistentHash.lastOwner (consistentHash.NewMap defaultReplicas none)
        collidingNames h with
    | some b =>
      rw [hl] at hget
      simp only [Option.or_some, Option.some.injEq] at hget
      have := (consistentHash.lastOwner_mem hl).1
      rw [hget] at this
      exact collidingNames_fresh this
    | none =>
      rw [hl] at hget
      simp only [Option.none_or] at hget
      have hh := (consistentHash.lastOwner_mem hget).2
      obtain ⟨b, hb, hbh⟩ := collidingNames_cover h hh
      obtain ⟨id2, hid2⟩ := consistentHash.lastOwner_isSome hb hbh
      rw [hl] at hid2
      cases hid2

/-- The pool of the first example server after a second `Set`. -/
theorem HTTPPool.Set_ids_witness :
    ∃ m, (examplePool.Set ["http://localhost:8002"]).nodes = some m ∧
      (∀ n, (∃ g, GoMap.get? (examplePool.Set ["http://localhost:8002"]).httpGetters n
          = some g) ↔ n ∈ ["http://localhost:8002"]) ∧
      (∀ h n, GoMap.get? m.nodeMap h = some n →
        ∃ g, GoMap.get? (examplePool.Set ["http://localhost:8002"]).httpGetters n = some g) ∧
      (∀ n, (∃ h, GoMap.get? m.nodeMap h = some n) ↔
        ∃ h l1 l2, ["http://localhost:8002"] = l1 ++ n :: l2 ∧ h ∈ m.virtualHashes n ∧
          ∀ x ∈ l2, h ∉ m.virtualHashes x) ∧
      ((examplePool.Set ["http://localhost:8003"]).Set ["http://localhost:8002"]).nodes
        = some m ∧
      ((examplePool.Set ["http://localhost:8003"]).Set ["http://localhost:8002"]).httpGetters
        = (examplePool.Set ["http://localhost:8002"]).httpGetters :=
  HTTPPool.Set_ids examplePool ["http://localhost:8003"] ["http://localhost:8002"]

end geecache

/-! ## Request paths -/

theorem utf8Go_ge_length (cs : List Char) : cs.length ≤ String.utf8ByteSize.go cs := by
  induction cs with
  | nil => simp [String.utf8ByteSize.go]
  | cons c cs ih =>
    have := Char.utf8Size_pos c
    simp only [String.utf8ByteSize.go, List.length_cons]
    omega

theorem utf8ByteSize_ge_length (s : String) : s.data.length ≤ s.utf8ByteSize := by
  cases s with
  | mk cs => exact utf8Go_ge_length cs

theorem cutFirst_eq_none_iff (sep : Char) (s : List Char) :
    cutFirst sep s = none ↔ sep ∉ s := by
  induction s with
  | nil => simp [cutFirst]
  | cons c cs ih =>
    by_cases hc : c = sep
    · simp [cutFirst, hc]
    · have hne : ¬ sep = c := fun h => hc h.symm
      simp [cutFirst, hc, hne, ih]

theorem cutFirst_count {sep : Char} {s a rest : List Char}
    (h : cutFirst sep s = some (a, rest)) : s.count sep = rest.count sep + 1 := by
  induction s generalizing a with
  | nil => simp [cutFirst] at h
  | cons c cs ih =>
    by_cases hc : c = sep
    · simp only [cutFirst, hc, if_true, Option.some.injEq, Prod.mk.injEq] at h
      rw [hc, ← h.2]
      simp
    · simp only [cutFirst, hc, if_false, Option.map_eq_some', Prod.mk.injEq] at h
      obtain ⟨q, hq, _, hq2⟩ := h
      have := ih (a := q.1) (by rw [hq, ← hq2])
      rw [List.count_cons_of_ne (fun h => hc h.symm)]
      exact this

/-- The loop of `SplitN` returns one substring more than the cuts it makes. -/
theorem splitLoop_length (sep : Char) :
    ∀ (k : Nat) (s : List Char), (splitLoop sep k s).length = min k (s.count sep) + 1 := by
  intro k
  induction k with
  | zero => intro s; simp [splitLoop]
  | succ k ih =>
    intro s
    cases hc : cutFirst sep s with
    | none =>
      have : s.count sep = 0 :=
        List.count_eq_zero.mpr ((cutFirst_eq_none_iff sep s).mp hc)
      simp [splitLoop, hc, this]
    | some q =>
      obtain ⟨a, rest⟩ := q
      have hcount := cutFirst_count hc
      simp only [splitLoop, hc, List.length_cons, ih rest, hcount]
      omega

/-- The number of cuts `SplitN` is allowed to make. -/
theorem SplitN_eq (s : String) (sep : Char) (n : Int) (hn : n ≠ 0) :
    SplitN s sep n = (splitLoop sep
      ((if (if n < 0 then Int.ofNat (s.data.count sep) + 1 else n)
            > Int.ofNat s.utf8ByteSize + 1
        then Int.ofNat s.utf8ByteSize + 1
        else (if n < 0 then Int.ofNat (s.data.count sep) + 1 else n)).toNat - 1)
      s.data).map String.mk := by
  unfold SplitN
  rw [if_neg hn]

/-- The number of segments of a string is the number of its separators plus one. -/
theorem Split_length (s : String) (sep : Char) :
    (Split s sep).length = s.data.count sep + 1 := by
  have h1 : s.data.count sep ≤ s.utf8ByteSize :=
    le_trans (List.count_le_length _ _) (utf8ByteSize_ge_length s)
  unfold Split
  rw [SplitN_eq s sep (-1) (by decide), List.length_map, splitLoop_length]
  have hneg : ((-1 : Int) < 0) := by decide
  rw [if_pos hneg]
  simp only [Int.ofNat_eq_coe]
  split <;> omega

/-- With `n = 2`, `SplitN` cuts a string at its first separator and nowhere else. -/
theorem SplitN_two (s : String) (sep : Char) :
    (sep ∉ s.data → SplitN s sep 2 = [s]) ∧
    (∀ a rest, cutFirst sep s.data = some (a, rest) →
      SplitN s sep 2 = [String.mk a, String.mk rest]) := by
  have hbytes := utf8ByteSize_ge_length s
  rw [SplitN_eq s sep 2 (by decide)]
  constructor
  · intro hno
    have hc := (cutFirst_eq_none_iff sep s.data).mpr hno
    have : ∀ k, splitLoop sep k s.data = [s.data] := by
      intro k
      cases k <;> simp [splitLoop, hc]
    rw [this]
    rfl
  · intro a rest hc
    have hpos : 1 ≤ s.data.length := by
      cases hs : s.data with
      | nil => rw [hs] at hc; simp [cutFirst] at hc
      | cons c cs => simp
    have hneg : ¬ ((2 : Int) < 0) := by decide
    rw [if_neg hneg]
    have hk : (if (2 : Int) > Int.ofNat s.utf8ByteSize + 1
        then Int.ofNat s.utf8ByteSize + 1 else 2).toNat - 1 = 1 := by
      simp only [Int.ofNat_eq_coe]
      split <;> omega
    rw [hk]
    simp [splitLoop, hc]

namespace geecache

variable {ε : Type}

/-- C13, as amended: for a request path starting with `basePath`, `ServeHTTP` answers 400
exactly when the remainder of the path has no `/`, that is has a single segment; a
remainder with a `/` is cut at its first `/` into group and key, whatever the number of
its segments, and the answer is then never 400. -/
theorem HTTPPool.ServeHTTP_bad_request (p : HTTPPool)
    (groups : GoMap String (geecache.Group ε)) (path : String)
    (hpre : strings_hasPrefix path p.basePath = true) :
    ((p.ServeHTTP groups path).status = some 400 ↔
      (Split (String.mk (path.data.drop p.basePath.data.length)) '/').length = 1) ∧
    ((Split (String.mk (path.data.drop p.basePath.data.length)) '/').length = 1 →
      p.ServeHTTP groups path
        = Served.done { status := 400, body := Body.text "bad request" } groups) ∧
    (∀ a rest, cutFirst '/' (path.data.drop p.basePath.data.length) = some (a, rest) →
      SplitN (String.mk (path.data.drop p.basePath.data.length)) '/' 2
        = [String.mk a, String.mk rest] ∧
      (p.ServeHTTP groups path).status ≠ some 400) := by
  have hseg : (Split (String.mk (path.data.drop p.basePath.data.length)) '/').length = 1 ↔
      '/' ∉ path.data.drop p.basePath.data.length := by
    rw [Split_length]
    show List.count '/' (path.data.drop p.basePath.data.length) + 1 = 1 ↔ _
    rw [← List.count_eq_zero]
    omega
  have hserve : p.ServeHTTP groups path
      = (let parts := SplitN (String.mk (path.data.drop p.basePath.data.length)) '/' 2
        if parts.length ≠ 2 then
          Served.done { status := 400, body := Body.text "bad request" } groups
        else
          match GetGroup groups (parts.getD 0 "") with
          | none =>
            Served.done { status := 404,
                          body := Body.text ("no such group: " ++ parts.getD 0 "") } groups
          | some group =>
            match group.Get (parts.getD 1 "") with
            | none => Served.hang
            | some (g1, _, some err) =>
              Served.done { status := 500, body := Body.errorText err }
                (GoMap.set groups (parts.getD 0 "") g1)
            | some (g1, view, none) =>
              Served.done { status := 200, body := Body.bytes view.ByteSlice }
                (GoMap.set groups (parts.getD 0 "") g1)) := by
    unfold HTTPPool.ServeHTTP
    rw [hpre]
    rfl
  have hbad : '/' ∉ path.data.drop p.basePath.data.length →
      p.ServeHTTP groups path
        = Served.done { status := 400, body := Body.text "bad request" } groups := by
    intro hno
    have h1 := (SplitN_two (String.mk (path.data.drop p.basePath.data.length)) '/').1 hno
    rw [hserve, h1]
    rfl
  have hok : ∀ a rest,
      cutFirst '/' (path.data.drop p.basePath.data.length) = some (a, rest) →
      (p.ServeHTTP groups path).status ≠ some 400 := by
    intro a rest hc
    have h2 := (SplitN_two (String.mk (path.data.drop p.basePath.data.length)) '/').2
      a rest hc
    rw [hserve, h2]
    simp only [List.length_cons, List.length_nil, ne_eq, not_true_eq_false, if_false]
    split
    · simp [Served.status]
    · split <;> simp [Served.status]
  refine ⟨?_, ?_, ?_⟩
  · constructor
    · intro hst
      rw [hseg]
      intro hin
      cases hc : cutFirst '/' (path.data.drop p.basePath.data.length) with
      | none => exact ((cutFirst_eq_none_iff _ _).mp hc) hin
      | some q => exact hok q.1 q.2 hc hst
    · intro h1
      rw [hbad (hseg.mp h1)]
      rfl
  · intro h1
    exact hbad (hseg.mp h1)
  · intro a rest hc
    exact ⟨(SplitN_two (String.mk (path.data.drop p.basePath.data.length)) '/').2 a rest hc,
      hok a rest hc⟩

/-- C13 fails as stated: the remainder `scores/a/b` has three segments, yet the request is
not answered 400; it is served as group `scores` and key `a/b`, here with status 500 as
the loader does not know that key. -/
theorem HTTPPool.ServeHTTP_counterexample :
    strings_hasPrefix "/_cache/scores/a/b" (NewHTTPPool "localhost:9999").basePath = true ∧
    Split "scores/a/b" '/' = ["scores", "a", "b"] ∧
    SplitN "scores/a/b" '/' 2 = ["scores", "a/b"] ∧
    ((NewHTTPPool "localhost:9999").ServeHTTP exampleGroups "/_cache/scores/a/b").status
      = some 500 := by
  decide

/-- A request for the remainder `scores`, of a single segment, and one for `scores/Tom`. -/
theorem HTTPPool.ServeHTTP_bad_request_witness :
    (NewHTTPPool "localhost:9999").ServeHTTP exampleGroups "/_cache/scores"
        = Served.done { status := 400, body := Body.text "bad request" } exampleGroups ∧
    ((NewHTTPPool "localhost:9999").ServeHTTP exampleGroups "/_cache/scores/Tom").status
        ≠ some 400 :=
  ⟨(HTTPPool.ServeHTTP_bad_request (NewHTTPPool "localhost:9999") exampleGroups
      "/_cache/scores" (by decide)).2.1 (by decide),
    ((HTTPPool.ServeHTTP_bad_request (NewHTTPPool "localhost:9999") exampleGroups
      "/_cache/scores/Tom" (by decide)).2.2 _ _ (by decide : cutFirst '/'
        ("/_cache/scores/Tom".data.drop
          (NewHTTPPool "localhost:9999").basePath.data.length)
        = some ("scores".data, "Tom".data))).2⟩

end geecache

/-! ## Lockstep of list and lookup table, empty caches -/

namespace GoMap

variable {κ ν : Type} [DecidableEq κ]

theorem get?_isSome_iff (m : GoMap κ ν) (k : κ) :
    (∃ a, get? m k = some a) ↔ k ∈ m.map (fun p => p.1) := by
  induction m with
  | nil => simp [get?]
  | cons p rest ih =>
    obtain ⟨k1, v1⟩ := p
    by_cases h : k1 = k
    · simp [get?, h]
    · have h2 : ¬ k = k1 := fun e => h e.symm
      simp only [get?, h, if_false, ih, List.map_cons, List.mem_cons, h2, false_or]

end GoMap

namespace lru

variable {α : Type} [Value α]

theorem Cache.Inv.table_keys {c : Cache α} (h : c.Inv) :
    (c.cache.map (fun p => p.1)).Perm (c.ll.map (fun e => e.key)) := by
  rw [List.perm_ext_iff_of_nodup h.tableNodup h.keyNodup]
  intro k
  rw [← GoMap.get?_isSome_iff]
  constructor
  · rintro ⟨a, ha⟩
    obtain ⟨e, he, hk, _⟩ := (h.table k a).mp ha
    exact hk ▸ List.mem_map_of_mem (fun e => e.key) he
  · intro hk
    obtain ⟨e, he, hek⟩ := List.mem_map.mp hk
    exact ⟨e.addr, (h.table k e.addr).mpr ⟨e, he, hek, rfl⟩⟩

theorem Cache.Inv.table_length {c : Cache α} (h : c.Inv) :
    c.cache.length = c.ll.length := by
  have := h.table_keys.length_eq
  simpa using this

theorem Cache.Inv.table_empty {c : Cache α} (h : c.Inv) (hnil : c.ll = []) :
    c.cache = [] := by
  have := h.table_length
  rw [hnil] at this
  exact List.length_eq_zero.mp this

/-- C20: in every cache state reached from `New` by `Add`, `Get` and `RemoveOldest`, each
key of the lookup table points to a list node carrying that key, which is the only node
with that address and the only node with that key; each list node has its key in the
lookup table, pointing back to it; no key and no address occurs in two list nodes; and
`Len()` is the number of keys of the lookup table. -/
theorem Reachable.lockstep {c : Cache α} (hr : Reachable c) :
    (∀ k a, GoMap.get? c.cache k = some a →
      ∃ e ∈ c.ll, e.addr = a ∧ e.key = k ∧
        ∀ e2 ∈ c.ll, (e2.addr = a ∨ e2.key = k) → e2 = e) ∧
    (∀ e ∈ c.ll, GoMap.get? c.cache e.key = some e.addr) ∧
    (c.ll.map (fun e => e.key)).Nodup ∧
    (c.ll.map (fun e => e.addr)).Nodup ∧
    (c.cache.map (fun p => p.1)).Nodup ∧
    c.Len = Int.ofNat (GoMap.len c.cache) := by
  have h := hr.inv
  refine ⟨?_, ?_, h.keyNodup, h.addrNodup, h.tableNodup, ?_⟩
  · intro k a hg
    obtain ⟨e, he, hk, ha⟩ := (h.table k a).mp hg
    refine ⟨e, he, ha, hk, ?_⟩
    intro e2 he2 hcase
    rcases hcase with h2 | h2
    · exact List.inj_on_of_nodup_map h.addrNodup he2 he (by rw [h2, ha])
    · exact List.inj_on_of_nodup_map h.keyNodup he2 he (by rw [h2, hk])
  · intro e he
    exact (h.table e.key e.addr).mpr ⟨e, he, rfl, rfl⟩
  · show Int.ofNat c.ll.length = Int.ofNat c.cache.length
    rw [h.table_length]

/-- The example cache holding `c` and `a`. -/
theorem Reachable.lockstep_witness :
    (∀ k a, GoMap.get? abcCache.cache k = some a →
      ∃ e ∈ abcCache.ll, e.addr = a ∧ e.key = k ∧
        ∀ e2 ∈ abcCache.ll, (e2.addr = a ∨ e2.key = k) → e2 = e) ∧
    (∀ e ∈ abcCache.ll, GoMap.get? abcCache.cache e.key = some e.addr) ∧
    (abcCache.ll.map (fun e => e.key)).Nodup ∧
    (abcCache.ll.map (fun e => e.addr)).Nodup ∧
    (abcCache.cache.map (fun p => p.1)).Nodup ∧
    abcCache.Len = Int.ofNat (GoMap.len abcCache.cache) :=
  Reachable.lockstep abcCache_reachable

/-- C14: on a cache without entries `RemoveOldest` changes nothing: the callback is not
called, `Len()` stays 0 and the lookup table stays as it was; when the cache is fresh or
was emptied by evictions, `nbytes` is 0 and the lookup table is empty before and
after. -/
theorem Cache.RemoveOldest_noop (c : Cache α) (hempty : c.ll = []) :
    c.RemoveOldest = c ∧
    c.RemoveOldest.calls = c.calls ∧
    c.RemoveOldest.cache = c.cache ∧
    c.RemoveOldest.nbytes = c.nbytes ∧
    c.RemoveOldest.Len = 0 ∧
    (Reachable c → c.RemoveOldest.nbytes = 0 ∧ c.RemoveOldest.cache = []) := by
  have hsame : c.RemoveOldest = c := by
    simp [Cache.RemoveOldest, list.Back, hempty]
  rw [hsame]
  refine ⟨rfl, rfl, rfl, rfl, ?_, ?_⟩
  · show Int.ofNat c.ll.length = 0
    rw [hempty]; rfl
  · intro hr
    have h := hr.inv
    refine ⟨?_, h.table_empty hempty⟩
    rw [h.bytes, Cache.sizeSum, hempty]
    exact wrap64_zero

/-- A fresh cache, and the example cache emptied by two evictions. -/
theorem Cache.RemoveOldest_noop_witness :
    ((New 4 true : Cache Sized).RemoveOldest = New 4 true ∧
      (New 4 true : Cache Sized).RemoveOldest.calls = [] ∧
      (New 4 true : Cache Sized).RemoveOldest.nbytes = 0 ∧
      (New 4 true : Cache Sized).RemoveOldest.cache = []) ∧
    (abcCache.RemoveOldest.RemoveOldest.RemoveOldest = abcCache.RemoveOldest.RemoveOldest ∧
      abcCache.RemoveOldest.RemoveOldest.RemoveOldest.calls
        = abcCache.RemoveOldest.RemoveOldest.calls ∧
      abcCache.RemoveOldest.RemoveOldest.RemoveOldest.nbytes = 0 ∧
      abcCache.RemoveOldest.RemoveOldest.RemoveOldest.cache = []) :=
  ⟨⟨(Cache.RemoveOldest_noop (New 4 true : Cache Sized) rfl).1,
      (Cache.RemoveOldest_noop (New 4 true : Cache Sized) rfl).2.1,
      ((Cache.RemoveOldest_noop (New 4 true : Cache Sized) rfl).2.2.2.2.2
        (Reachable.new 4 true)).1,
      ((Cache.RemoveOldest_noop (New 4 true : Cache Sized) rfl).2.2.2.2.2
        (Reachable.new 4 true)).2⟩,
    ⟨(Cache.RemoveOldest_noop abcCache.RemoveOldest.RemoveOldest (by decide)).1,
      (Cache.RemoveOldest_noop abcCache.RemoveOldest.RemoveOldest (by decide)).2.1,
      ((Cache.RemoveOldest_noop abcCache.RemoveOldest.RemoveOldest (by decide)).2.2.2.2.2
        (Reachable.removeOldest _ (Reachable.removeOldest _ abcCache_reachable))).1,
      ((Cache.RemoveOldest_noop abcCache.RemoveOldest.RemoveOldest (by decide)).2.2.2.2.2
        (Reachable.removeOldest _ (Reachable.removeOldest _ abcCache_reachable))).2⟩⟩

end lru

/-! ## Oversized insertions and termination of the eviction loop -/

namespace lru

variable {α : Type} [Value α]

theorem Cache.RemoveOldest_onEvicted (c : Cache α) :
    c.RemoveOldest.OnEvicted = c.OnEvicted := by
  unfold Cache.RemoveOldest
  cases list.Back c.ll <;> rfl

theorem Cache.insert_onEvicted (c : Cache α) (k : String) (v : α) :
    (c.insert k v).OnEvicted = c.OnEvicted := by
  unfold Cache.insert
  split
  · split <;> rfl
  · rfl

theorem exactSize_nonneg {e : list.Element α} (h : 0 ≤ Value.Len e.value) :
    0 ≤ exactSize e := by
  unfold exactSize
  have : (0 : Int) ≤ Int.ofNat e.key.utf8ByteSize := Int.ofNat_zero_le _
  omega

theorem Cache.sizeSum_nonneg {c : Cache α} (h : ∀ e ∈ c.ll, 0 ≤ exactSize e) :
    0 ≤ c.sizeSum := by
  unfold Cache.sizeSum
  apply List.sum_nonneg
  intro x hx
  obtain ⟨e, he, rfl⟩ := List.mem_map.mp hx
  exact h e he

/-- A byte total in the range from 0 to `2 ^ 63 - 1` is held exactly. -/
theorem Cache.Inv.nbytes_of_range {c : Cache α} (h : c.Inv) (h0 : 0 ≤ c.sizeSum)
    (h1 : c.sizeSum < 9223372036854775808) : c.nbytes = c.sizeSum := by
  rw [h.bytes]
  exact wrap64_of_range (by omega) h1

/-- Removing an entry of non-negative size does not enlarge the exact byte total. -/
theorem Cache.Inv.removeOldest_sizeSum {c : Cache α} (h : c.Inv)
    (hnn : ∀ e ∈ c.ll, 0 ≤ exactSize e) : c.RemoveOldest.sizeSum ≤ c.sizeSum := by
  rcases c.ll_cases with hnil | ⟨l1, e, hl⟩
  · rw [Cache.RemoveOldest_empty hnil]
  · rw [Cache.RemoveOldest_back h hl]
    have he : 0 ≤ exactSize e := hnn e (by rw [hl]; simp)
    show (l1.map exactSize).sum ≤ (c.ll.map exactSize).sum
    rw [hl]
    simp only [List.map_append, List.sum_append, List.map_cons, List.map_nil, List.sum_cons,
      List.sum_nil]
    omega

/-- The eviction loop run on a list whose front entry alone exceeds a positive capacity,
the other entries having non-negative sizes and the byte total being below `2 ^ 63`,
removes every entry, from the back to the front, and reports each of them to the
callback. -/
theorem Cache.Inv.evict_all (e0 : list.Element α) :
    ∀ (rest : List (list.Element α)) (c : Cache α) (fuel : Nat), c.Inv →
      0 < c.maxBytes → c.ll = e0 :: rest → c.maxBytes < exactSize e0 →
      (∀ x ∈ rest, 0 ≤ exactSize x) → c.sizeSum < 9223372036854775808 →
      rest.length + 1 ≤ fuel →
      ∃ c2, Cache.evictLoop fuel c = some c2 ∧ c2.ll = [] ∧
        c2.calls = (if c.OnEvicted
          then c.calls ++ (e0 :: rest).reverse.map (fun e => (e.key, e.value))
          else c.calls) := by
  intro rest
  induction rest using List.reverseRecOn with
  | nil =>
    intro c fuel hinv hpos hl hbig _ hsum hfuel
    have hs : c.sizeSum = exactSize e0 := by
      rw [Cache.sizeSum, hl]; simp
    have hb : c.nbytes = c.sizeSum := hinv.nbytes_of_range (by omega) hsum
    have hov : c.overBudget = true := by
      simp only [Cache.overBudget, Bool.and_eq_true, decide_eq_true_eq]
      exact ⟨by omega, by omega⟩
    have hrem := Cache.RemoveOldest_back hinv (show c.ll = [] ++ [e0] from hl)
    obtain ⟨f, rfl⟩ : ∃ f, fuel = f + 1 := ⟨fuel - 1, by simp at hfuel; omega⟩
    unfold Cache.evictLoop
    rw [if_pos hov]
    have hll : c.RemoveOldest.ll = [] := by rw [hrem]
    have hnb : c.RemoveOldest.nbytes = 0 := by
      rw [hinv.removeOldest.bytes, Cache.sizeSum, hll]
      exact wrap64_zero
    have hov2 : c.RemoveOldest.overBudget = false := by
      rw [Cache.overBudget_false_iff, hnb, Cache.RemoveOldest_maxBytes]
      right
      omega
    refine ⟨c.RemoveOldest, Cache.evictLoop_of_not_over hov2 f, hll, ?_⟩
    rw [hrem]
    show (if c.OnEvicted then c.calls ++ [(e0.key, e0.value)] else c.calls) = _
    simp
  | append_singleton r x ih =>
    intro c fuel hinv hpos hl hbig hnn hsum hfuel
    have hl2 : c.ll = (e0 :: r) ++ [x] := by rw [hl]; rfl
    have hs : c.sizeSum = exactSize e0 + ((r.map exactSize).sum + exactSize x) := by
      rw [Cache.sizeSum, hl]; simp
    have hr : 0 ≤ (r.map exactSize).sum := by
      apply List.sum_nonneg
      intro y hy
      obtain ⟨e, he, rfl⟩ := List.mem_map.mp hy
      exact hnn e (List.mem_append_left _ he)
    have hx : 0 ≤ exactSize x := hnn x (by simp)
    have hb : c.nbytes = c.sizeSum := hinv.nbytes_of_range (by omega) hsum
    have hov : c.overBudget = true := by
      simp only [Cache.overBudget, Bool.and_eq_true, decide_eq_true_eq]
      exact ⟨by omega, by omega⟩
    have hrem := Cache.RemoveOldest_back hinv hl2
    obtain ⟨f, rfl⟩ : ∃ f, fuel = f + 1 := ⟨fuel - 1, by simp at hfuel; omega⟩
    unfold Cache.evictLoop
    rw [if_pos hov]
    have hlen : r.length + 1 ≤ f := by
      simp only [List.length_append, List.length_singleton] at hfuel
      omega
    have hs2 : c.RemoveOldest.sizeSum = exactSize e0 + (r.map exactSize).sum := by
      rw [hrem]
      show ((e0 :: r).map exactSize).sum = _
      simp
    obtain ⟨c2, h1, h2, h3⟩ := ih c.RemoveOldest f hinv.removeOldest
      (by rw [Cache.RemoveOldest_maxBytes]; exact hpos) (by rw [hrem])
      (by rw [Cache.RemoveOldest_maxBytes]; exact hbig)
      (fun y hy => hnn y (List.mem_append_left _ hy)) (by omega) hlen
    refine ⟨c2, h1, h2, ?_⟩
    rw [h3, Cache.RemoveOldest_onEvicted]
    by_cases hcb : c.OnEvicted = true
    · rw [if_pos hcb, if_pos hcb, hrem]
      show (if c.OnEvicted then c.calls ++ [(x.key, x.value)] else c.calls) ++ _ = _
      rw [if_pos hcb]
      simp
    · rw [if_neg hcb, if_neg hcb, hrem]
      show (if c.OnEvicted then c.calls ++ [(x.key, x.value)] else c.calls) = _
      rw [if_neg hcb]

/-- The list after the insertion step of `Add`: the entry of the added key in front of the
entries of the other keys, in their former order. -/
theorem Cache.Inv.insert_ll {c : Cache α} (h : c.Inv) (k : String) (v : α) :
    ∃ a, (c.insert k v).ll =
      { addr := a, key := k, value := v } :: c.ll.filter (fun e => decide (e.key ≠ k)) := by
  rcases h.lookup k with ⟨hg, hno⟩ | ⟨e, l1, l2, hg, hf, hk, hl, _, hm⟩
  · rw [Cache.insert_new v hg]
    refine ⟨c.nextAddr, ?_⟩
    show list.PushFront c.ll c.nextAddr k v = _
    have : c.ll.filter (fun e => decide (e.key ≠ k)) = c.ll := by
      rw [List.filter_eq_self]
      intro x hx
      simpa using hno x hx
    rw [this]
    rfl
  · rw [Cache.insert_existing h v hg hf hl hm]
    refine ⟨e.addr, ?_⟩
    have hothers := h.others_ne hl
    have hfil : c.ll.filter (fun e => decide (e.key ≠ k)) = l1 ++ l2 := by
      rw [hl, List.filter_append, List.filter_cons]
      have h1 : l1.filter (fun e => decide (e.key ≠ k)) = l1 := by
        rw [List.filter_eq_self]
        intro x hx
        have := hothers x (List.mem_append_left _ hx)
        rw [hk] at this
        simpa using this
      have h2 : l2.filter (fun e => decide (e.key ≠ k)) = l2 := by
        rw [List.filter_eq_self]
        intro x hx
        have := hothers x (List.mem_append_right _ hx)
        rw [hk] at this
        simpa using this
      rw [h1, h2]
      simp [hk]
    rw [hfil]
    show ({ e with value := v } : list.Element α) :: (l1 ++ l2) = _
    rw [← hk]

/-- C17, as amended: in a reachable cache with `maxBytes > 0` whose values have
non-negative `Len`, `Add(key, value)` with `len(key) + value.Len() > maxBytes`, the exact
byte total of the entries after the insertion being below `2 ^ 63`, returns and leaves the
cache empty (`Len() == 0`, `nbytes == 0`, empty lookup table), `Get(key)` then misses, and
the callback, when set, has been called once for every entry that was present under
another key, oldest first, and then once for the added entry. -/
theorem Cache.Add_oversized {c : Cache α} (hr : Reachable c) (k : String) (v : α)
    (hpos : 0 < c.maxBytes) (hnn : ∀ e ∈ c.ll, 0 ≤ Value.Len e.value)
    (hbig : c.maxBytes < Int.ofNat k.utf8ByteSize + Value.Len v)
    (hfit : (c.insert k v).sizeSum < 9223372036854775808) :
    ∃ c2, c.Add k v = some c2 ∧ c2.ll = [] ∧ c2.Len = 0 ∧ c2.nbytes = 0 ∧
      c2.cache = [] ∧ (c2.Get k).2 = none ∧
      (c.OnEvicted = true →
        c2.calls = c.calls
          ++ ((c.ll.filter (fun e => decide (e.key ≠ k))).reverse.map
              (fun e => (e.key, e.value)))
          ++ [(k, v)]) ∧
      (c.OnEvicted = false → c2.calls = c.calls) := by
  have hinv := hr.inv
  have hinv1 := hinv.insert k v
  obtain ⟨a, hll⟩ := hinv.insert_ll k v
  have hrest : ∀ x ∈ c.ll.filter (fun e => decide (e.key ≠ k)), 0 ≤ exactSize x := by
    intro x hx
    exact exactSize_nonneg (hnn x (List.mem_filter.mp hx).1)
  obtain ⟨c2, h1, h2, h3⟩ := Cache.Inv.evict_all { addr := a, key := k, value := v }
    (c.ll.filter (fun e => decide (e.key ≠ k))) (c.insert k v) (c.insert k v).ll.length
    hinv1 (by rw [Cache.insert_maxBytes]; exact hpos) hll
    (by rw [Cache.insert_maxBytes]; exact hbig) hrest hfit (by rw [hll]; simp)
  have hinv2 : c2.Inv := hinv1.evictLoop _ c2 h1
  have hcache : c2.cache = [] := hinv2.table_empty h2
  refine ⟨c2, h1, h2, ?_, ?_, hcache, ?_, ?_, ?_⟩
  · show Int.ofNat c2.ll.length = 0
    rw [h2]; rfl
  · rw [hinv2.bytes, Cache.sizeSum, h2]; exact wrap64_zero
  · rw [Cache.Get_miss (by rw [hcache]; rfl)]
  · intro hcb
    rw [h3, Cache.insert_onEvicted, if_pos hcb, Cache.insert_calls]
    simp
  · intro hcb
    rw [h3, Cache.insert_onEvicted, Cache.insert_calls]
    simp [hcb]

theorem negCache_reachable : Reachable negCache :=
  Reachable.add (New 10 true) negCache "a" { len := -20 } (Reachable.new 10 true)
    (by decide)

theorem aCache_reachable : Reachable aCache :=
  Reachable.add (New 4 true) aCache "a" { len := 1 } (Reachable.new 4 true) (by decide)

/-- C17 fails as stated, in three ways.  Adding an oversized value under the key `a` that
the cache already holds calls the callback once, not once for the entry that was present
plus once for the new entry.  After an entry of negative length, an oversized `Add` of `b`
evicts nothing: both entries stay.  And `Add(a)` with a value of length `2 ^ 63 - 1` on a
fresh cache of capacity 10 makes the `int64` total wrap around to `-2 ^ 63`, below the
capacity: the entry stays and the callback is not called. -/
theorem Cache.Add_oversized_counterexample :
    (Reachable aCache ∧ 0 < aCache.maxBytes ∧
      aCache.maxBytes < Int.ofNat "a".utf8ByteSize + Value.Len ({ len := 10 } : Sized) ∧
      aCache.ll.length = 1 ∧ aCache.calls = [] ∧
      ∃ c2, aCache.Add "a" { len := 10 } = some c2 ∧
        c2.calls = [("a", { len := 10 })]) ∧
    (Reachable negCache ∧ 0 < negCache.maxBytes ∧
      negCache.maxBytes < Int.ofNat "b".utf8ByteSize + Value.Len ({ len := 15 } : Sized) ∧
      ∃ c2, negCache.Add "b" { len := 15 } = some c2 ∧ c2.Len = 2 ∧ c2.nbytes = -3 ∧
        (c2.Get "b").2 = some { len := 15 } ∧ c2.calls = []) ∧
    (Reachable (New 10 true : Cache Sized) ∧ 0 < (New 10 true : Cache Sized).maxBytes ∧
      (New 10 true : Cache Sized).maxBytes
        < Int.ofNat "a".utf8ByteSize
          + Value.Len ({ len := 9223372036854775807 } : Sized) ∧
      (New 10 true : Cache Sized).Add "a" { len := 9223372036854775807 }
        = some (overflowCache 10) ∧
      (overflowCache 10).Len = 1 ∧ (overflowCache 10).nbytes = -9223372036854775808 ∧
      ((overflowCache 10).Get "a").2 = some { len := 9223372036854775807 } ∧
      (overflowCache 10).calls = []) := by
  refine ⟨⟨aCache_reachable, by decide, by decide, rfl, rfl, ?_⟩,
    ⟨negCache_reachable, by decide, by decide, ?_⟩,
    ⟨Reachable.new 10 true, by decide, by decide, by decide, by decide, rfl, by decide,
      rfl⟩⟩
  · exact ⟨(aCache.insert "a" { len := 10 }).RemoveOldest, by decide, by decide⟩
  · exact ⟨(negCache.insert "b" { len := 15 }), by decide, by decide, by decide, by decide,
      by decide⟩

/-- An oversized value for the new key `d` added to the example cache holding `c` and
`a`. -/
theorem Cache.Add_oversized_witness :
    ∃ c2, abcCache.Add "d" { len := 9 } = some c2 ∧ c2.ll = [] ∧ c2.Len = 0 ∧
      c2.nbytes = 0 ∧ c2.cache = [] ∧ (c2.Get "d").2 = none ∧
      (abcCache.OnEvicted = true →
        c2.calls = abcCache.calls
          ++ ((abcCache.ll.filter (fun e => decide (e.key ≠ "d"))).reverse.map
              (fun e => (e.key, e.value)))
          ++ [("d", { len := 9 })]) ∧
      (abcCache.OnEvicted = false → c2.calls = abcCache.calls) :=
  Cache.Add_oversized abcCache_reachable "d" ({ len := 9 } : Sized) (by decide)
    (by decide) (by decide) (by decide)

end lru

namespace lru

variable {α : Type} [Value α]

/-- What the eviction loop returns is reached by as many `RemoveOldest` steps as the guard
held, and their number is within the bound on the iterations. -/
theorem Cache.evictLoop_steps :
    ∀ (fuel : Nat) (c c2 : Cache α), Cache.evictLoop fuel c = some c2 →
      ∃ n, n ≤ fuel ∧ c2 = Cache.RemoveOldest^[n] c ∧
        (∀ i, i < n → (Cache.RemoveOldest^[i] c).overBudget = true) ∧
        c2.overBudget = false := by
  intro fuel
  induction fuel with
  | zero =>
    intro c c2 h
    unfold Cache.evictLoop at h
    split at h
    · cases h
    · cases h
      exact ⟨0, le_refl _, rfl, fun i hi => absurd hi (Nat.not_lt_zero i),
        by simpa using ‹¬ c.overBudget = true›⟩
  | succ fuel ih =>
    intro c c2 h
    unfold Cache.evictLoop at h
    split at h
    · rename_i hov
      obtain ⟨n, h1, h2, h3, h4⟩ := ih _ _ h
      refine ⟨n + 1, by omega, by rw [h2, Function.iterate_succ_apply], ?_, h4⟩
      intro i hi
      cases i with
      | zero => exact hov
      | succ j =>
        rw [Function.iterate_succ_apply]
        exact h3 j (by omega)
    · cases h
      exact ⟨0, Nat.zero_le _, rfl, fun i hi => absurd hi (Nat.not_lt_zero i),
        by simpa using ‹¬ c.overBudget = true›⟩

/-- With a negative capacity, entries of non-negative size and a byte total below `2 ^ 63`
the guard of the eviction loop holds forever. -/
theorem Cache.Inv.evictLoop_diverges :
    ∀ (fuel : Nat) (c : Cache α), c.Inv → c.maxBytes < 0 →
      (∀ e ∈ c.ll, 0 ≤ exactSize e) → c.sizeSum < 9223372036854775808 →
      Cache.evictLoop fuel c = none := by
  intro fuel
  induction fuel with
  | zero =>
    intro c h hneg hnn hsum
    have hs := Cache.sizeSum_nonneg hnn
    have hb := h.nbytes_of_range hs hsum
    have hov : c.overBudget = true := by
      simp only [Cache.overBudget, Bool.and_eq_true, decide_eq_true_eq]
      exact ⟨by omega, by omega⟩
    simp [Cache.evictLoop, hov]
  | succ fuel ih =>
    intro c h hneg hnn hsum
    have hs := Cache.sizeSum_nonneg hnn
    have hb := h.nbytes_of_range hs hsum
    have hov : c.overBudget = true := by
      simp only [Cache.overBudget, Bool.and_eq_true, decide_eq_true_eq]
      exact ⟨by omega, by omega⟩
    unfold Cache.evictLoop
    rw [if_pos hov]
    exact ih c.RemoveOldest h.removeOldest
      (by rw [Cache.RemoveOldest_maxBytes]; exact hneg)
      (fun e he => hnn e (h.removeOldest_sublist.subset he))
      (lt_of_le_of_lt (h.removeOldest_sizeSum hnn) hsum)

/-- C18 fails as stated: on a fresh cache of capacity -1, `Add(a)` with a value of
non-negative length `2 ^ 63 - 1` makes the `int64` total wrap around to `-2 ^ 63`, which is
not above the capacity: the loop guard is false at once and `Add` returns, although
`maxBytes < 0`. -/
theorem Cache.Add_terminates_iff_counterexample :
    Reachable (New (-1) true : Cache Sized) ∧
    (∀ e ∈ (New (-1) true : Cache Sized).ll, 0 ≤ Value.Len e.value) ∧
    0 ≤ Value.Len ({ len := 9223372036854775807 } : Sized) ∧
    ¬ 0 ≤ (New (-1) true : Cache Sized).maxBytes ∧
    Cache.evictLoop 0 ((New (-1) true : Cache Sized).insert "a" { len := 9223372036854775807 })
      = some (overflowCache (-1)) ∧
    (New (-1) true : Cache Sized).Add "a" { len := 9223372036854775807 }
      = some (overflowCache (-1)) :=
  ⟨Reachable.new (-1) true, by decide, by decide, by decide, by decide, by decide⟩

/-- C18, as amended: in a reachable cache the eviction loop of `Add` terminates whenever
`maxBytes >= 0`; when the values, like the value added, have non-negative `Len` and the
exact byte total of the entries after the insertion is below `2 ^ 63`, it terminates if and
only if `maxBytes >= 0`; and when it terminates it has made at most as many evictions as
the cache has entries after the insertion, each of them while the guard held. -/
theorem Cache.Add_terminates_iff {c : Cache α} (hr : Reachable c) (k : String) (v : α) :
    (0 ≤ c.maxBytes → ∃ c2, c.Add k v = some c2) ∧
    ((∀ e ∈ c.ll, 0 ≤ Value.Len e.value) → 0 ≤ Value.Len v →
      (c.insert k v).sizeSum < 9223372036854775808 →
      ((∃ fuel c2, Cache.evictLoop fuel (c.insert k v) = some c2) ↔ 0 ≤ c.maxBytes) ∧
      ((∃ c2, c.Add k v = some c2) ↔ 0 ≤ c.maxBytes) ∧
      (c.maxBytes < 0 → ∀ fuel, Cache.evictLoop fuel (c.insert k v) = none)) ∧
    (∀ c2, c.Add k v = some c2 →
      ∃ n, n ≤ (c.insert k v).ll.length ∧
        c2 = Cache.RemoveOldest^[n] (c.insert k v) ∧
        (∀ i, i < n → (Cache.RemoveOldest^[i] (c.insert k v)).overBudget = true) ∧
        c2.overBudget = false) := by
  have hinv1 := hr.inv.insert k v
  have hmax := Cache.insert_maxBytes c k v
  have hret : 0 ≤ c.maxBytes → ∃ c2, c.Add k v = some c2 := by
    intro hpos
    exact Cache.Inv.evictLoop_returns _ _ hinv1 (by rw [hmax]; exact hpos) (le_refl _)
  refine ⟨hret, ?_, ?_⟩
  · intro hnn hv hfit
    have hsizes : ∀ e ∈ (c.insert k v).ll, 0 ≤ exactSize e := by
      obtain ⟨a, hll⟩ := hr.inv.insert_ll k v
      intro e he
      rw [hll] at he
      rcases List.mem_cons.mp he with rfl | he
      · exact exactSize_nonneg hv
      · exact exactSize_nonneg (hnn e (List.mem_filter.mp he).1)
    have hdiv : c.maxBytes < 0 → ∀ fuel, Cache.evictLoop fuel (c.insert k v) = none := by
      intro hneg fuel
      exact Cache.Inv.evictLoop_diverges fuel _ hinv1 (by rw [hmax]; exact hneg) hsizes hfit
    refine ⟨?_, ?_, hdiv⟩
    · constructor
      · rintro ⟨fuel, c2, h⟩
        by_contra hneg
        rw [hdiv (by omega) fuel] at h
        cases h
      · intro hpos
        obtain ⟨c2, h⟩ := hret hpos
        exact ⟨_, c2, h⟩
    · constructor
      · rintro ⟨c2, h⟩
        by_contra hneg
        have := hdiv (by omega) (c.insert k v).ll.length
        unfold Cache.Add at h
        rw [this] at h
        cases h
      · exact hret
  · intro c2 h
    exact Cache.evictLoop_steps _ _ _ h

/-- The example cache of capacity four, where `Add` returns, and a fresh cache of capacity
-1, where the eviction loop of `Add` never ends. -/
theorem Cache.Add_terminates_iff_witness :
    (∃ c2, abcCache.Add "d" { len := 1 } = some c2) ∧
    (∀ fuel, Cache.evictLoop fuel ((New (-1) true : Cache Sized).insert "a" { len := 1 })
      = none) :=
  ⟨(Cache.Add_terminates_iff abcCache_reachable "d" ({ len := 1 } : Sized)).1 (by decide),
    ((Cache.Add_terminates_iff (Reachable.new (-1) true : Reachable (New (-1) true : Cache Sized))
      "a" ({ len := 1 } : Sized)).2.1 (by decide) (by decide) (by decide)).2.2 (by decide)⟩

end lru

/-! ## Isolation of the bytes of a `ByteView` -/

namespace lru

variable {α : Type} [Value α]

theorem Cache.Inv.get_some_iff {c : Cache α} (h : c.Inv) (k : String) (v : α) :
    (c.Get k).2 = some v ↔ c.Holds k v := by
  rcases h.lookup k with ⟨hg, hno⟩ | ⟨e, l1, l2, hg, hf, hk, hl, _, _⟩
  · rw [Cache.Get_miss hg]
    constructor
    · intro hc; cases hc
    · rintro ⟨x, hx, hxk, _⟩
      exact absurd hxk (hno x hx)
  · have hmem : e ∈ c.ll := by rw [hl]; simp
    rw [Cache.Get_hit hg hf]
    constructor
    · intro hc
      simp only [Option.some.injEq] at hc
      exact ⟨e, hmem, hk, hc⟩
    · rintro ⟨x, hx, hxk, hxv⟩
      have : x = e := h.key_unique hx hmem (by rw [hxk, hk])
      rw [← hxv, this]

theorem Cache.Inv.get_holds {c : Cache α} (h : c.Inv) (k k2 : String) (v2 : α) :
    (c.Get k).1.Holds k2 v2 ↔ c.Holds k2 v2 := by
  have hperm : (c.Get k).1.ll.Perm c.ll := by
    rcases h.lookup k with ⟨hg, _⟩ | ⟨e, l1, l2, hg, hf, _, _, _, _⟩
    · rw [Cache.Get_miss hg]
    · rw [Cache.Get_hit hg hf]
      exact list.MoveToFront_perm c.ll e.addr
  constructor
  · rintro ⟨x, hx, h1, h2⟩
    exact ⟨x, hperm.mem_iff.mp hx, h1, h2⟩
  · rintro ⟨x, hx, h1, h2⟩
    exact ⟨x, hperm.mem_iff.mpr hx, h1, h2⟩

/-- A `Get` that follows a hit on the same key returns the same value. -/
theorem Cache.Inv.get_again {c : Cache α} (h : c.Inv) {k : String} {v : α}
    (hget : (c.Get k).2 = some v) : ((c.Get k).1.Get k).2 = some v := by
  rw [(h.get k).get_some_iff, h.get_holds, ← h.get_some_iff]
  exact hget

end lru

namespace mem

theorem load_append (l : List (List UInt8)) (z : List UInt8) (s : Slice)
    (hs : s.array < l.length) :
    Heap.load { arrays := l ++ [z] } s = Heap.load { arrays := l } s := by
  unfold Heap.load
  simp only
  rw [List.getD_append _ _ _ _ hs]

theorem load_length {h : Heap} {s : Slice} (hv : h.Valid s) : (h.load s).length = s.len := by
  unfold Heap.load
  rw [List.length_take, List.length_drop]
  have := hv.2
  omega

/-- The heap after `cloneBytes` has one array more, holding the bytes cloned. -/
theorem cloneBytes_arrays {h : Heap} {b : Slice} (hv : h.Valid b) :
    (cloneBytes h b).1.arrays = h.arrays ++ [h.load b] ∧
    (cloneBytes h b).2 = { array := h.arrays.length, off := 0, len := b.len } := by
  refine ⟨?_, rfl⟩
  have hload : Heap.load { arrays := h.arrays ++ [List.replicate b.len 0] } b = h.load b :=
    load_append h.arrays _ b hv.1
  have hlen := load_length hv
  show (h.arrays ++ [List.replicate b.len 0]).set h.arrays.length
      (((h.arrays ++ [List.replicate b.len 0]).getD h.arrays.length []).take 0
        ++ (Heap.load { arrays := h.arrays ++ [List.replicate b.len 0] } b).take
            (min b.len b.len)
        ++ ((h.arrays ++ [List.replicate b.len 0]).getD h.arrays.length []).drop
            (0 + min b.len b.len)) = _
  rw [hload, Nat.min_self]
  have hget : (h.arrays ++ [List.replicate b.len 0]).getD h.arrays.length []
      = List.replicate b.len 0 := by
    rw [List.getD_append_right _ _ _ _ (le_refl _)]
    simp
  rw [hget]
  have htake : (h.load b).take b.len = h.load b := by
    rw [← hlen]; exact List.take_length _
  rw [htake]
  simp

/-- Assignments through a slice of the last array only change that array. -/
theorem storeAll_last (base : List (List UInt8)) (s : Slice) (hs : s.array = base.length) :
    ∀ (ws : List (Nat × UInt8)) (z : List UInt8) (h2 : Heap),
      Heap.storeAll { arrays := base ++ [z] } s ws = some h2 →
      ∃ z2, h2.arrays = base ++ [z2] := by
  intro ws
  induction ws with
  | nil =>
    intro z h2 hst
    simp only [Heap.storeAll, Option.some.injEq] at hst
    exact ⟨z, by rw [← hst]⟩
  | cons w ws ih =>
    intro z h2 hst
    obtain ⟨i, x⟩ := w
    simp only [Heap.storeAll, Heap.store] at hst
    by_cases hi : i < s.len
    · rw [if_pos hi] at hst
      simp only at hst
      have hset : (base ++ [z]).set s.array
          (((base ++ [z]).getD s.array []).set (s.off + i) x)
          = base ++ [((base ++ [z]).getD s.array []).set (s.off + i) x] := by
        rw [hs]
        simp
      rw [hset] at hst
      exact ih _ h2 hst
    · rw [if_neg hi] at hst
      simp at hst

/-- C16: for a `ByteView` `v` whose slice is valid in the heap, `ByteSlice()` returns a
slice with the same bytes as `v`, `Len()` is their number and `String()` their text; the
slice returned lies in another array than `v`'s, and whatever is assigned through it, the
bytes of `v`, what `String()` and a later `ByteSlice()` return stay the same; and a later
`Get` of the cache on the key under which `v` was found returns `v` again. -/
theorem ByteView.isolation (h : Heap) (v : ByteView) (hv : h.Valid v.b) :
    (v.ByteSlice h).1.load (v.ByteSlice h).2 = h.load v.b ∧
    v.Len = Int.ofNat (h.load v.b).length ∧
    v.GoString h = h.load v.b ∧
    (v.ByteSlice h).2.array ≠ v.b.array ∧
    (∀ ws h2, (v.ByteSlice h).1.storeAll (v.ByteSlice h).2 ws = some h2 →
      h2.load v.b = h.load v.b ∧ v.GoString h2 = v.GoString h ∧
      (v.ByteSlice h2).1.load (v.ByteSlice h2).2 = h.load v.b) ∧
    (∀ (c : lru.Cache ByteView) (key : String), lru.Reachable c →
      (c.Get key).2 = some v → ((c.Get key).1.Get key).2 = some v) := by
  obtain ⟨harr, hsl⟩ := cloneBytes_arrays hv
  have hlen := load_length hv
  have hclone : ∀ (g : Heap), g.Valid v.b →
      (cloneBytes g v.b).1.load (cloneBytes g v.b).2 = g.load v.b := by
    intro g hg
    obtain ⟨ga, gs⟩ := cloneBytes_arrays hg
    have gl := load_length hg
    rw [gs]
    unfold Heap.load
    rw [ga]
    simp only [List.drop_zero]
    rw [List.getD_append_right _ _ _ _ (le_refl _)]
    simp only [Nat.sub_self, List.getD_cons_zero]
    have : (Heap.load g v.b).take v.b.len = Heap.load g v.b := by
      rw [← gl]; exact List.take_length _
    exact this
  refine ⟨hclone h hv, ?_, rfl, ?_, ?_, ?_⟩
  · show Int.ofNat v.b.len = _
    rw [hlen]
  · show (cloneBytes h v.b).2.array ≠ v.b.array
    rw [hsl]
    have := hv.1
    simp only
    omega
  · intro ws h2 hst
    have hst2 : Heap.storeAll { arrays := h.arrays ++ [h.load v.b] }
        { array := h.arrays.length, off := 0, len := v.b.len } ws = some h2 := by
      have e1 : (v.ByteSlice h).1 = { arrays := h.arrays ++ [h.load v.b] } := by
        show (cloneBytes h v.b).1 = _
        cases hc : (cloneBytes h v.b).1 with
        | mk arrs =>
          have : arrs = h.arrays ++ [h.load v.b] := by
            have := harr
            rw [hc] at this
            exact this
          rw [this]
      have e2 : (v.ByteSlice h).2 = { array := h.arrays.length, off := 0, len := v.b.len } :=
        hsl
      rw [← e1, ← e2]
      exact hst
    obtain ⟨z2, hz2⟩ := storeAll_last h.arrays _ rfl ws _ h2 hst2
    have hh2 : h2 = { arrays := h.arrays ++ [z2] } := by
      cases h2 with
      | mk arrs => simp only at hz2; rw [hz2]
    have hload2 : h2.load v.b = h.load v.b := by
      rw [hh2]
      exact load_append h.arrays z2 v.b hv.1
    have hvalid2 : h2.Valid v.b := by
      rw [hh2]
      refine ⟨?_, ?_⟩
      · show v.b.array < (h.arrays ++ [z2]).length
        have := hv.1
        simp only [List.length_append, List.length_singleton]
        omega
      · show v.b.off + v.b.len ≤ ((h.arrays ++ [z2]).getD v.b.array []).length
        rw [List.getD_append _ _ _ _ hv.1]
        exact hv.2
    refine ⟨hload2, hload2, ?_⟩
    show (cloneBytes h2 v.b).1.load (cloneBytes h2 v.b).2 = _
    rw [hclone h2 hvalid2, hload2]
  · intro c key hr hget
    exact hr.inv.get_again hget

/-- The view of the array `630`: two bytes of the copy are overwritten. -/
theorem ByteView.isolation_witness :
    ∃ h2, (scoreView.ByteSlice scoreHeap).1.storeAll (scoreView.ByteSlice scoreHeap).2
        [(0, 1), (2, 9)] = some h2 ∧
      h2.load (scoreView.ByteSlice scoreHeap).2 = [1, 51, 9] ∧
      h2.load scoreView.b = scoreHeap.load scoreView.b ∧
      scoreView.GoString h2 = scoreView.GoString scoreHeap ∧
      (scoreView.ByteSlice h2).1.load (scoreView.ByteSlice h2).2
        = scoreHeap.load scoreView.b :=
  ⟨{ arrays := [[54, 51, 48], [1, 51, 9]] }, by decide, by decide,
    (ByteView.isolation scoreHeap scoreView ⟨by decide, by decide⟩).2.2.2.2.1 [(0, 1), (2, 9)]
      { arrays := [[54, 51, 48], [1, 51, 9]] } (by decide)⟩

end mem
